import Mathlib

/-!
Plinko PIR proof of concept: update manager, iPRF, parameter planner, PRSet.

Shallow embedding of the Go services under `plinko-pir-poc/services`:

* `plinko-update-service/plinko.go`  (`PlinkoUpdateManager`)
* `plinko-update-service/iprf.go`    (`IPRF`, the binomial sampler)
* `plinko-update-service/main.go`    (`loadDatabase`)
* `plinko-hint-generator/main.go`    (`GenParams`, `generateHint`)
* `plinko-pir-server/prset.go`       (`PRSet`)
* `plinko-pir-server/main.go`        (`PlinkoPIRServer`, `loadServer`)

Go's `uint64` is modelled by `Nat` with an explicit `% U64` wherever the
source operation can wrap.  A Go slice is a `List`; an indexing operation
that Go would abort with "index out of range" yields `Outcome.indexOutOfRange`,
and a loop that has not finished when the fuel is used up yields
`Outcome.outOfFuel`.
-/

namespace Plinko

/-! ## Machine words and outcomes -/

/-- Number of values of a Go `uint64`. -/
def U64 : Nat := 2 ^ 64

/-- Result of running a piece of the program: a value, a run-time abort on a
slice index that is out of range, or a loop that is still running when the
fuel is exhausted. -/
inductive Outcome (α : Type) where
  | ok (a : α)
  | indexOutOfRange
  | outOfFuel
  deriving DecidableEq, Repr

/-- Sequencing of outcomes. -/
def Outcome.bind {α β : Type} (o : Outcome α) (f : α → Outcome β) : Outcome β :=
  match o with
  | .ok a => f a
  | .indexOutOfRange => .indexOutOfRange
  | .outOfFuel => .outOfFuel

/-- The value of an outcome, or a default when there is none. -/
def Outcome.getD {α : Type} (o : Outcome α) (d : α) : α :=
  match o with
  | .ok a => a
  | _ => d

/-- Slice read `xs[i]` with Go's bounds check. -/
def sliceGet (xs : List Nat) (i : Nat) : Outcome Nat :=
  match xs[i]? with
  | some v => .ok v
  | none => .indexOutOfRange

/-! ## Constants of the update service (`plinko-update-service/main.go`) -/

/-- Source constant `DBSize = 8388608 // 2^23 accounts`. -/
def DBSize : Nat := 8388608

/-- Source constant `DBEntryLength = 1`: a `DBEntry` is one 64-bit word. -/
def DBEntryLength : Nat := 1

/-! ## The keyed mix function of the iPRF (`iprf.go`, `prfEval`) -/

/-- A `PrfKey128`: the 16 key bytes, byte `i` at position `i`. -/
abbrev PrfKey128 := List Nat

/-- One FNV-1a absorb step on a 64-bit accumulator:
`hash ^= b; hash *= 16777619`. -/
def fnvStep (hash b : Nat) : Nat := ((hash ^^^ b) * 16777619) % U64

/-- The accumulator after the first loop of `prfEval` / `prfEvalMod`:
seed `2166136261`, then the 16 key bytes `key[0] .. key[15]`. -/
def fnvKey (key : PrfKey128) : Nat :=
  (List.range 16).foldl (fun hash i => fnvStep hash (key.getD i 0)) 2166136261

/-- The second loop of `prfEval`: absorbs `(x >> (i*8)) & 0xFF` for `i = 0 .. 7`. -/
def fnvMix (hash x : Nat) : Nat :=
  (List.range 8).foldl (fun h i => fnvStep h ((x >>> (i * 8)) &&& 0xFF)) hash

/-- `prfEval(key, x)`: FNV-1a over key and `x`, masked to 32 bits. -/
def prfEval (key : PrfKey128) (x : Nat) : Nat :=
  fnvMix (fnvKey key) x &&& 0xFFFFFFFF

/-! ## The iPRF (`iprf.go`) -/

/-- The struct `IPRF`.  The field `treeDepth` of the source is computed in
floating point by `NewIPRF` and read by no method, so it is left out. -/
structure IPRF where
  key : PrfKey128
  domain : Nat
  range_ : Nat
  deriving DecidableEq, Repr

/-- `NewIPRF(key, n, m)`. -/
def NewIPRF (key : PrfKey128) (n m : Nat) : IPRF :=
  { key := key, domain := n, range_ := m }

/-- `encodeNode(low, high, n) = (low << 32) | (high << 16) | (n & 0xFFFF)` on
64-bit words. -/
def encodeNode (low high n : Nat) : Nat :=
  ((low <<< 32) % U64) ||| ((high <<< 16) % U64) ||| (n &&& 0xFFFF)

/-- The binomial sampler `sampleBinomial(nodeID, n, p)` as seen by `traceBall`.
Its body is floating-point code (`binomialInverseCDF`, `normalApproxBinomial`,
`invNormalCDF`); here it is an arbitrary function of the key, the node
identifier, the ball count and the two integers `leftBins`, `totalBins` whose
quotient is `p`.  Its result is a `uint64`, so callers reduce it `% U64`. -/
abbrev Sampler := PrfKey128 → Nat → Nat → Nat → Nat → Nat

/-- The loop `for low < high { ... }` of `traceBall`, one iteration per unit of
fuel, on the loop state `(low, high, ballCount, ballIndex)`. -/
def traceLoop (S : Sampler) (key : PrfKey128) (n : Nat) :
    Nat → Nat → Nat → Nat → Nat → Outcome Nat
  | 0, low, high, _, _ => if low < high then .outOfFuel else .ok low
  | fuel + 1, low, high, ballCount, ballIndex =>
    if low < high then
      let mid := ((low + high) % U64) / 2
      let leftBins := (mid + U64 - low + 1) % U64
      let totalBins := (high + U64 - low + 1) % U64
      let nodeID := encodeNode low high n
      let leftCount := S key nodeID ballCount leftBins totalBins % U64
      if ballIndex < leftCount then
        traceLoop S key n fuel low mid leftCount ballIndex
      else
        traceLoop S key n fuel ((mid + 1) % U64) high
          ((ballCount + U64 - leftCount) % U64) ((ballIndex + U64 - leftCount) % U64)
    else .ok low

/-- `traceBall(xPrime, n, m)`. -/
def traceBall (S : Sampler) (fuel : Nat) (key : PrfKey128) (xPrime n m : Nat) :
    Outcome Nat :=
  if m = 1 then .ok 0
  else traceLoop S key n fuel 0 ((m + U64 - 1) % U64) n xPrime

/-- `IPRF.Forward(x)`. -/
def IPRF.Forward (S : Sampler) (fuel : Nat) (iprf : IPRF) (x : Nat) : Outcome Nat :=
  if x ≥ iprf.domain then .ok 0
  else traceBall S fuel iprf.key x iprf.domain iprf.range_

/-! ## The update manager (`plinko.go`) -/

/-- The struct `DBUpdate`; a `DBEntry` is its single 64-bit word. -/
structure DBUpdate where
  Index : Nat
  OldValue : Nat
  NewValue : Nat
  deriving DecidableEq, Repr

/-- The struct `HintDelta`. -/
structure HintDelta where
  HintSetID : Nat
  IsBackupSet : Bool
  Delta : Nat
  deriving DecidableEq, Repr

/-- The struct `PlinkoUpdateManager`.  A nil `indexToHint` is the empty list. -/
structure PlinkoUpdateManager where
  database : List Nat
  iprf : IPRF
  chunkSize : Nat
  setSize : Nat
  indexToHint : List Nat
  useCacheMode : Bool
  deriving DecidableEq, Repr

/-- The fixed key built by `NewPlinkoUpdateManager`: `key[i] = byte(i)`. -/
def managerKey : PrfKey128 := List.range 16

/-- `NewPlinkoUpdateManager(database, chunkSize, setSize)`; `dbSize` stands for
the constant `DBSize` that the source passes to `NewIPRF`. -/
def NewPlinkoUpdateManager (dbSize : Nat) (database : List Nat) (chunkSize setSize : Nat) :
    PlinkoUpdateManager :=
  { database := database
    iprf := NewIPRF managerKey dbSize setSize
    chunkSize := chunkSize
    setSize := setSize
    indexToHint := []
    useCacheMode := false }

/-- The loop of `EnableCacheMode`: `indexToHint[i] = iprf.Forward(i)` for the
indices in `is`, in order. -/
def cacheLoop (S : Sampler) (fuel : Nat) (iprf : IPRF) : List Nat → Outcome (List Nat)
  | [] => .ok []
  | i :: is =>
    (iprf.Forward S fuel i).bind fun h =>
      (cacheLoop S fuel iprf is).bind fun hs => .ok (h :: hs)

/-- `EnableCacheMode()`; `dbSize` stands for the constant `DBSize` (length of
the cache and bound of the loop). -/
def PlinkoUpdateManager.EnableCacheMode (S : Sampler) (fuel : Nat) (dbSize : Nat)
    (pm : PlinkoUpdateManager) : Outcome PlinkoUpdateManager :=
  (cacheLoop S fuel pm.iprf (List.range dbSize)).bind fun cache =>
    .ok { pm with indexToHint := cache, useCacheMode := true }

/-- `applyDatabaseUpdate(update)` on the database slice. -/
def applyDatabaseUpdate (database : List Nat) (update : DBUpdate) : Outcome (List Nat) :=
  let startIdx := (update.Index * DBEntryLength) % U64
  let endIdx := ((update.Index + 1) * DBEntryLength) % U64
  if endIdx > database.length then .ok database
  else if startIdx < database.length then .ok (database.set startIdx update.NewValue)
  else .indexOutOfRange

/-- Step 2 of the loop body of `ApplyUpdates`: the hint set of an index, from
the cache when `useCacheMode` is set and from `iprf.Forward` otherwise. -/
def PlinkoUpdateManager.hintSetOf (S : Sampler) (fuel : Nat) (pm : PlinkoUpdateManager)
    (index : Nat) : Outcome Nat :=
  if pm.useCacheMode then sliceGet pm.indexToHint index
  else pm.iprf.Forward S fuel index

/-- The loop `for _, update := range updates` of `ApplyUpdates`, with the
deltas appended so far. -/
def applyLoop (S : Sampler) (fuel : Nat) (pm : PlinkoUpdateManager) :
    List DBUpdate → List HintDelta → Outcome (List HintDelta × PlinkoUpdateManager)
  | [], deltas => .ok (deltas, pm)
  | update :: rest, deltas =>
    (applyDatabaseUpdate pm.database update).bind fun db =>
      (pm.hintSetOf S fuel update.Index).bind fun hintSetID =>
        applyLoop S fuel { pm with database := db } rest
          (deltas ++ [{ HintSetID := hintSetID, IsBackupSet := false,
                        Delta := update.OldValue ^^^ update.NewValue }])

/-- `ApplyUpdates(updates)`: the returned deltas and the manager afterwards
(the elapsed time is not modelled). -/
def PlinkoUpdateManager.ApplyUpdates (S : Sampler) (fuel : Nat) (pm : PlinkoUpdateManager)
    (updates : List DBUpdate) : Outcome (List HintDelta × PlinkoUpdateManager) :=
  applyLoop S fuel pm updates []

/-- The database after writing the in-range updates of a batch in order. -/
def writeAll (db : List Nat) (ups : List DBUpdate) : List Nat :=
  ups.foldl (fun d u => d.set u.Index u.NewValue) db

/-! ## The parameter planner (`plinko-hint-generator/main.go`, `GenParams`)

`GenParams` computes in `float64`.  Every floating-point value that occurs is
a non-negative integer or the correctly rounded square root of one, so each
operation is written out on `Nat` with the rounding that IEEE 754 prescribes;
the comments name the Go expression each definition stands for. -/

/-- The conversion `float64(n)` of a `uint64`: `n` rounded to 53 significant
bits, to nearest, ties to even.  The result is an integer. -/
def toFloat64 (n : Nat) : Nat :=
  if n < 2 ^ 53 then n
  else
    let k := Nat.log2 n - 52
    let q := n / 2 ^ k
    let r := n % 2 ^ k
    if 2 * r > 2 ^ k ∨ (2 * r = 2 ^ k ∧ q % 2 = 1) then (q + 1) * 2 ^ k else q * 2 ^ k

/-- The expression `uint64(2 * math.Sqrt(f))` for an integer-valued `float64`
`f`.  With `e = ⌊log2 √f⌋` the correctly rounded root is `mant / 2^(52-e)`,
where `mant` is `√(f · 4^(52-e))` rounded to the nearest integer (a tie cannot
occur); doubling is exact and the conversion to `uint64` truncates. -/
def twoSqrtTrunc (f : Nat) : Nat :=
  if f = 0 then 0
  else
    let sh := 52 - Nat.log2 (Nat.sqrt f)
    let N := f * 4 ^ sh
    let r := Nat.sqrt N
    let mant := if r * r + r < N then r + 1 else r
    (2 * mant) / 2 ^ sh

/-- The loop `for chunkSize < targetChunkSize { chunkSize *= 2 }`. -/
def chunkLoop (targetChunkSize : Nat) : Nat → Nat → Outcome Nat
  | 0, chunkSize => if chunkSize < targetChunkSize then .outOfFuel else .ok chunkSize
  | fuel + 1, chunkSize =>
    if chunkSize < targetChunkSize then chunkLoop targetChunkSize fuel ((chunkSize * 2) % U64)
    else .ok chunkSize

/-- `GenParams(dbSize)`, returning `(chunkSize, setSize)`.  The loop gets 64
units of fuel: after 64 doublings a `uint64` that started at 1 is 0 and stays
0, so a loop still running then never ends.  The quotient
`float64(dbSize) / float64(chunkSize)` is exact because `chunkSize` is a power
of two, and `math.Ceil` of it is the integer ceiling. -/
def GenParams (dbSize : Nat) : Outcome (Nat × Nat) :=
  let targetChunkSize := twoSqrtTrunc (toFloat64 dbSize)
  (chunkLoop targetChunkSize 64 1).bind fun chunkSize =>
    let setSize := (toFloat64 dbSize + chunkSize - 1) / chunkSize
    let setSize := ((setSize + 3) % U64) / 4 * 4 % U64
    .ok (chunkSize, setSize)

/-! ## The pseudorandom set (`plinko-pir-server/prset.go`) -/

/-- The struct `PRSet`. -/
structure PRSet where
  Key : PrfKey128
  deriving DecidableEq, Repr

/-- `NewPRSet(key)`. -/
def NewPRSet (key : PrfKey128) : PRSet := { Key := key }

/-- The bytes written by `binary.LittleEndian.PutUint64(xBytes, x)`. -/
def putUint64LE (x : Nat) : List Nat :=
  (List.range 8).map fun i => (x / 256 ^ i) % 256

/-- `PRSet.prfEvalMod(x, m)`: FNV-1a over the key and the little-endian bytes
of `x`, reduced modulo `m`; 0 when `m = 0`. -/
def PRSet.prfEvalMod (prs : PRSet) (x m : Nat) : Nat :=
  if m = 0 then 0
  else ((putUint64LE x).foldl fnvStep (fnvKey prs.Key)) % m

/-- `PRSet.Expand(setSize, chunkSize)`: slot `i` holds
`i*chunkSize + prfEvalMod(i, chunkSize)` in 64-bit arithmetic. -/
def PRSet.Expand (prs : PRSet) (setSize chunkSize : Nat) : List Nat :=
  (List.range setSize).map fun i => (i * chunkSize + prs.prfEvalMod i chunkSize) % U64

/-! ## The PIR server (`plinko-pir-server/main.go`) -/

/-- Source constant `DBEntrySize = 8`: bytes per database entry. -/
def DBEntrySize : Nat := 8

/-- The struct `PlinkoPIRServer`. -/
structure PlinkoPIRServer where
  database : List Nat
  dbSize : Nat
  chunkSize : Nat
  setSize : Nat
  deriving DecidableEq, Repr

/-- `DBAccess(id)`: the entry at `id` when `id < len(database)/DBEntryLength`,
the zero entry otherwise. -/
def PlinkoPIRServer.DBAccess (s : PlinkoPIRServer) (id : Nat) : Outcome Nat :=
  if id < s.database.length / DBEntryLength then
    sliceGet s.database ((id * DBEntryLength) % U64)
  else .ok 0

/-- The loop `for _, index := range indices` of `HandleSetParityQuery`, with the
parity accumulated so far. -/
def setParityLoop (s : PlinkoPIRServer) : List Nat → Nat → Outcome Nat
  | [], parity => .ok parity
  | index :: rest, parity =>
    (s.DBAccess index).bind fun entry => setParityLoop s rest (parity ^^^ entry)

/-- `HandleSetParityQuery(indices)`. -/
def PlinkoPIRServer.HandleSetParityQuery (s : PlinkoPIRServer) (indices : List Nat) :
    Outcome Nat :=
  setParityLoop s indices 0

/-- The statement `copy(prfKey[:], prfKeyBytes)` on a zeroed `PrfKey128`: the
first 16 bytes of the request, missing ones left at 0. -/
def copyKey (prfKeyBytes : List Nat) : PrfKey128 :=
  (List.range 16).map fun i => prfKeyBytes.getD i 0

/-- The loop `for _, id := range expandedSet` of `HandleFullSetQuery`. -/
def fullSetLoop (s : PlinkoPIRServer) : List Nat → Nat → Outcome Nat
  | [], parity => .ok parity
  | id :: rest, parity =>
    (s.DBAccess id).bind fun entry => fullSetLoop s rest (parity ^^^ entry)

/-- `HandleFullSetQuery(prfKeyBytes)`. -/
def PlinkoPIRServer.HandleFullSetQuery (s : PlinkoPIRServer) (prfKeyBytes : List Nat) :
    Outcome Nat :=
  let prfKey := copyKey prfKeyBytes
  let prSet := NewPRSet prfKey
  let expandedSet := prSet.Expand s.setSize s.chunkSize
  fullSetLoop s expandedSet 0

/-- The XOR of a sequence of entries (the parity the spec speaks of). -/
def xorAll (vs : List Nat) : Nat := vs.foldr (fun v acc => v ^^^ acc) 0

/-! ## The hint snapshot (`generateHint`, `loadServer`, `loadDatabase`) -/

/-- The value `binary.LittleEndian.Uint64(b)` of eight bytes: byte `i` weighs
`256^i` (for bytes the shifts and ors of the library add up to this sum). -/
def uint64LE (b : List Nat) : Nat :=
  (List.range 8).foldl (fun acc i => acc + b.getD i 0 * 256 ^ i) 0

/-- The bytes of `database.bin`: every entry as a little-endian 64-bit word
(`writeDatabaseBin` of the generator). -/
def encodeEntries : List Nat → List Nat
  | [] => []
  | e :: es => putUint64LE e ++ encodeEntries es

/-- The bytes that `generateHint(database, chunkSize, setSize)` writes to
`hint.bin`: the 32-byte header `[DBSize][chunkSize][setSize][0]`, then the
database bytes as they are.  Errors of the file system are not modelled. -/
def generateHint (database : List Nat) (chunkSize setSize : Nat) : List Nat :=
  putUint64LE DBSize ++ putUint64LE chunkSize ++ putUint64LE setSize ++ putUint64LE 0
    ++ database

/-- The loop that decodes the entries after the header:
`database[i] = Uint64(dbBytes[i*DBEntrySize : (i+1)*DBEntrySize])`. -/
def decodeEntries (dbBytes : List Nat) : List Nat :=
  (List.range (dbBytes.length / DBEntrySize)).map fun i =>
    uint64LE ((dbBytes.drop (i * DBEntrySize)).take DBEntrySize)

/-- `loadServer()` on the bytes of `hint.bin`; `none` is the `log.Fatal` on a
file shorter than the header. -/
def loadServer (data : List Nat) : Option PlinkoPIRServer :=
  if data.length < 32 then none
  else
    some { database := decodeEntries (data.drop 32)
           dbSize := uint64LE (data.take 8)
           chunkSize := uint64LE ((data.drop 8).take 8)
           setSize := uint64LE ((data.drop 16).take 8) }

/-- `loadDatabase()` of the update service on the bytes of `hint.bin`,
returning `(database, chunkSize, setSize)`; the header's `dbSize` is read and
only logged.  `none` is the `log.Fatal`. -/
def loadDatabase (data : List Nat) : Option (List Nat × Nat × Nat) :=
  if data.length < 32 then none
  else
    some (decodeEntries (data.drop 32), uint64LE ((data.drop 8).take 8),
      uint64LE ((data.drop 16).take 8))

/-! ## The loop of `traceBall` with its final state -/

/-- The loop of `traceBall` once more, returning the final `(low, high)` and
the number of iterations it ran next to the bin; `traceLoop` is its first
component. -/
def traceRun (S : Sampler) (key : PrfKey128) (n : Nat) :
    Nat → Nat → Nat → Nat → Nat → Nat → Outcome (Nat × Nat × Nat)
  | 0, low, high, _, _, iters => if low < high then .outOfFuel else .ok (low, high, iters)
  | fuel + 1, low, high, ballCount, ballIndex, iters =>
    if low < high then
      let mid := ((low + high) % U64) / 2
      let leftBins := (mid + U64 - low + 1) % U64
      let totalBins := (high + U64 - low + 1) % U64
      let nodeID := encodeNode low high n
      let leftCount := S key nodeID ballCount leftBins totalBins % U64
      if ballIndex < leftCount then
        traceRun S key n fuel low mid leftCount ballIndex (iters + 1)
      else
        traceRun S key n fuel ((mid + 1) % U64) high
          ((ballCount + U64 - leftCount) % U64) ((ballIndex + U64 - leftCount) % U64)
          (iters + 1)
    else .ok (low, high, iters)

/-! ## The binomial sampler in `float64` (`iprf.go`)

The sampler computes in `float64`.  A `float64` value is modelled by the
rational number it denotes (for `0 ≤ p ≤ 1` no operation of the sampler
yields a NaN or an infinity, and none does on the paths evaluated below,
where a wrapped `leftBins` makes `p` exceed 1), and the arithmetic is a
parameter: a
`FloatOps` gives the result of every operation.  `ieee` is the arithmetic of
IEEE 754 binary64, round to nearest, ties to even. -/

/-- The results of the `float64` operations the sampler uses: `+`, `-`, `*`,
`/`, `math.Sqrt`, `math.Pow`, and the conversion of a decimal constant. -/
structure FloatOps where
  add : ℚ → ℚ → ℚ
  sub : ℚ → ℚ → ℚ
  mul : ℚ → ℚ → ℚ
  div : ℚ → ℚ → ℚ
  sqrt : ℚ → ℚ
  pow : ℚ → ℚ → ℚ
  lit : ℚ → ℚ

/-- `invNormalCDF(p)`. -/
def invNormalCDF (F : FloatOps) (p : ℚ) : ℚ :=
  if p ≤ 0 ∨ p ≥ 1 then
    if p = 0 then F.lit (-10)
    else if p = 1 then F.lit 10
    else F.lit 0
  else
    let a0 := F.lit 2.50662823884
    let a1 := F.lit (-18.61500062529)
    let a2 := F.lit 41.39119773534
    let a3 := F.lit (-25.44106049637)
    let b0 := F.lit (-8.47351093090)
    let b1 := F.lit 23.08336743743
    let b2 := F.lit (-21.06224101826)
    let b3 := F.lit 3.13082909833
    let y := F.sub p (F.lit 0.5)
    if |y| < F.lit 0.42 then
      let r := F.mul y y
      F.div
        (F.mul y (F.add (F.mul (F.add (F.mul (F.add (F.mul a3 r) a2) r) a1) r) a0))
        (F.add (F.mul (F.add (F.mul (F.add (F.mul (F.add (F.mul b3 r) b2) r) b1) r) b0) r)
          (F.lit 1))
    else if y > 0 then F.lit 2
    else F.lit (-2)

/-- The conversion `uint64(math.Round(x))` of a non-negative `float64`:
`math.Round` rounds half away from zero; a value of `2^64` does not fit, and
what Go returns for it depends on the platform (here it wraps). -/
def roundToUint64 (x : ℚ) : Nat := (Int.toNat ⌊x + 1 / 2⌋) % U64

/-- `normalApproxBinomial(n, p, u)`. -/
def normalApproxBinomial (F : FloatOps) (n : Nat) (p u : ℚ) : Nat :=
  let mean := F.mul (toFloat64 n) p
  let variance := F.mul (F.mul (toFloat64 n) p) (F.sub (F.lit 1) p)
  let stddev := F.sqrt variance
  let uClamped := if u ≤ F.lit 0.001 then F.lit 0.001 else u
  let uClamped := if uClamped ≥ F.lit 0.999 then F.lit 0.999 else uClamped
  let z := invNormalCDF F uClamped
  let result := F.add mean (F.mul z stddev)
  if result < 0 then 0
  else if result > toFloat64 n then n
  else roundToUint64 result

/-- The loop `for k := uint64(0); k < n; k++` of `binomialInverseCDF`, with
`remaining = n - k` iterations to go. -/
def cdfLoop (F : FloatOps) (n : Nat) (p q u : ℚ) : Nat → Nat → ℚ → ℚ → Nat
  | 0, _, _, _ => n
  | remaining + 1, k, prob, cumProb =>
    let prob := F.div (F.mul (F.div (F.mul prob (toFloat64 (n - k))) (toFloat64 (k + 1))) p) q
    let cumProb := F.add cumProb prob
    if u ≤ cumProb then k + 1
    else cdfLoop F n p q u remaining (k + 1) prob cumProb

/-- `binomialInverseCDF(n, p, u)`. -/
def binomialInverseCDF (F : FloatOps) (n : Nat) (p u : ℚ) : Nat :=
  if p = 0 then 0
  else if p = 1 then n
  else if n = 0 then 0
  else if n > 100 then normalApproxBinomial F n p u
  else
    let q := F.sub (F.lit 1) p
    let prob := F.pow q (toFloat64 n)
    let cumProb := F.add (F.lit 0) prob
    if u ≤ cumProb then 0
    else cdfLoop F n p q u n 0 prob cumProb

/-- `IPRF.sampleBinomial(nodeID, n, p)`. -/
def IPRF.sampleBinomial (F : FloatOps) (iprf : IPRF) (nodeID n : Nat) (p : ℚ) : Nat :=
  let prfOutput := prfEval iprf.key nodeID
  let uniform := F.div (F.add (toFloat64 prfOutput) (F.lit 1)) (F.lit (2 ^ 32 + 2))
  binomialInverseCDF F n p uniform

/-- Rounding of a rational to the nearest integer, ties to the even one. -/
def roundNearestEven (q : ℚ) : ℤ :=
  if q - ⌊q⌋ < 1 / 2 then ⌊q⌋
  else if q - ⌊q⌋ > 1 / 2 then ⌊q⌋ + 1
  else if ⌊q⌋ % 2 = 0 then ⌊q⌋
  else ⌊q⌋ + 1

/-- Rounding of a rational to binary64: 53 significant bits, to nearest, ties
to even, with the fixed spacing `2^-1074` below `2^-1022`.  Overflow to an
infinity is left out; the sampler stays far below it. -/
def roundFloat64 (x : ℚ) : ℚ :=
  if x = 0 then 0
  else
    let e := max (Int.log 2 |x|) (-1022)
    roundNearestEven (x / 2 ^ (e - 52)) * 2 ^ (e - 52)

/-- The correctly rounded `math.Sqrt` of a positive `float64` `x`: with
`h = ⌊log2 x / 2⌋` the root lies in `[2^h, 2^(h+1))`, and its 53-bit
significand is `√(x · 4^(52-h))` rounded to the nearest integer.  Of a
negative number the root is a NaN in Go and 0 here; the sampler takes the root
of `n·p·(1-p)`, which is negative only for a `p` outside `[0, 1]`, and no
evaluation below takes the root of a negative number. -/
def sqrtFloat64 (x : ℚ) : ℚ :=
  if x ≤ 0 then 0
  else
    let h := Int.log 2 x / 2
    let m := x * 4 ^ (52 - h)
    let r := Nat.sqrt ⌊m⌋₊
    let mant : ℚ := if (r : ℚ) * r + r + 1 / 4 < m then r + 1 else r
    mant * 2 ^ (h - 52)

/-- IEEE 754 binary64 arithmetic: every operation is the exact result rounded
by `roundFloat64`, each on its own (no fused multiply-add).  Two operations
differ from Go outside the inputs evaluated below.  `math.Pow` is not correctly
rounded in Go (it rounds every product of its square-and-multiply loop); it is
taken as correctly rounded here, for a non-negative integer exponent, so the
two can differ in the last bit.  The evaluations below raise to the exponents
5, 3 and 2 only: the powers of `±1/2` are exact, and a square is one rounded
product, which is the correctly rounded power.  A division by zero is 0 here,
where Go gives an infinity or a NaN; no evaluation below divides by zero. -/
def ieee : FloatOps where
  add a b := roundFloat64 (a + b)
  sub a b := roundFloat64 (a - b)
  mul a b := roundFloat64 (a * b)
  div a b := roundFloat64 (a / b)
  sqrt := sqrtFloat64
  pow a b := roundFloat64 (a ^ ⌊b⌋₊)
  lit := roundFloat64

/-- The two statements of the loop of `traceBall` that produce `leftCount`, as
the source has them: `p := float64(leftBins) / float64(totalBins)` and
`leftCount := iprf.sampleBinomial(nodeID, ballCount, p)`, in the arithmetic `F`
(`sampleBinomial` reads only the key of the iPRF).  With `F = ieee` this is
the sampler that the program runs. -/
def floatSampler (F : FloatOps) : Sampler :=
  fun key nodeID ballCount leftBins totalBins =>
    IPRF.sampleBinomial F { key := key, domain := 0, range_ := 0 } nodeID ballCount
      (F.div (toFloat64 leftBins) (toFloat64 totalBins))

/-! ## Facts about the iPRF -/

theorem Outcome.bind_ok {α β : Type} (a : α) (f : α → Outcome β) :
    (Outcome.ok a).bind f = f a := rfl

/-- Halving the width of a bin interval lowers the ceiling logarithm by one. -/
theorem clog_half_le {w v fuel : Nat} (hw : 2 ≤ w) (hv : v ≤ (w + 1) / 2)
    (h : Nat.clog 2 w ≤ fuel + 1) : Nat.clog 2 v ≤ fuel := by
  have h1 : Nat.clog 2 w = Nat.clog 2 ((w + 2 - 1) / 2) + 1 :=
    Nat.clog_of_two_le (by decide) hw
  have h2 : Nat.clog 2 v ≤ Nat.clog 2 ((w + 2 - 1) / 2) :=
    Nat.clog_mono_right 2 (by simpa using hv)
  omega

/-- The loop of `traceBall` on an interval `low ≤ high < 2^63`: with at least
`⌈log2 (high - low + 1)⌉` units of fuel it returns a bin of the interval,
whatever the sampler answers. -/
theorem traceLoop_returns (S : Sampler) (key : PrfKey128) (n : Nat) :
    ∀ (fuel low high ballCount ballIndex : Nat), low ≤ high → high < 2 ^ 63 →
      Nat.clog 2 (high - low + 1) ≤ fuel →
      ∃ y, traceLoop S key n fuel low high ballCount ballIndex = .ok y ∧ low ≤ y ∧ y ≤ high := by
  intro fuel
  induction fuel with
  | zero =>
    intro low high ballCount ballIndex hle hhi hfuel
    have hw : high - low + 1 ≤ 1 := by
      by_contra hcon
      have h2 : 2 ≤ high - low + 1 := by omega
      have := Nat.clog_of_two_le (b := 2) (by decide) h2
      omega
    have heq : ¬ low < high := by omega
    exact ⟨low, by simp [traceLoop, heq], le_refl _, hle⟩
  | succ fuel ih =>
    intro low high ballCount ballIndex hle hhi hfuel
    by_cases hlt : low < high
    · have hsum : (low + high) % U64 = low + high := by
        apply Nat.mod_eq_of_lt
        simp only [U64]; omega
      have hmid1 : low ≤ (low + high) / 2 := by omega
      have hmid2 : (low + high) / 2 < high := by omega
      have hsucc : ((low + high) / 2 + 1) % U64 = (low + high) / 2 + 1 := by
        apply Nat.mod_eq_of_lt
        simp only [U64]; omega
      have hw : 2 ≤ high - low + 1 := by omega
      rw [traceLoop]
      simp only [hlt, if_true, hsum, hsucc]
      split
      · obtain ⟨y, hy, h1, h2⟩ := ih low ((low + high) / 2)
          (S key (encodeNode low high n) ballCount (((low + high) / 2 + U64 - low + 1) % U64)
            ((high + U64 - low + 1) % U64) % U64) ballIndex hmid1 (by omega)
          (clog_half_le hw (by omega) hfuel)
        exact ⟨y, hy, h1, by omega⟩
      · obtain ⟨y, hy, h1, h2⟩ := ih ((low + high) / 2 + 1) high
          ((ballCount + U64 - S key (encodeNode low high n) ballCount
            (((low + high) / 2 + U64 - low + 1) % U64) ((high + U64 - low + 1) % U64) % U64) % U64)
          ((ballIndex + U64 - S key (encodeNode low high n) ballCount
            (((low + high) / 2 + U64 - low + 1) % U64) ((high + U64 - low + 1) % U64) % U64) % U64)
          (by omega) hhi (clog_half_le hw (by omega) hfuel)
        exact ⟨y, hy, by omega, h2⟩
    · have heq : low = high := by omega
      subst heq
      exact ⟨low, by simp [traceLoop], le_refl _, le_refl _⟩

/-- `traceBall` returns a bin below `m` for `1 ≤ m ≤ 2^63` once the fuel covers
`⌈log2 m⌉` iterations. -/
theorem traceBall_returns (S : Sampler) (fuel : Nat) (key : PrfKey128) (x n m : Nat)
    (hm1 : 1 ≤ m) (hm2 : m ≤ 2 ^ 63) (hfuel : Nat.clog 2 m ≤ fuel) :
    ∃ y, traceBall S fuel key x n m = .ok y ∧ y < m := by
  unfold traceBall
  by_cases h1 : m = 1
  · exact ⟨0, by simp [h1], by omega⟩
  · have hhigh : (m + U64 - 1) % U64 = m - 1 := by
      have : m + U64 - 1 = (m - 1) + U64 := by omega
      rw [this, Nat.add_mod_right]
      apply Nat.mod_eq_of_lt
      simp only [U64]; omega
    simp only [h1, if_false, hhigh]
    obtain ⟨y, hy, _, h2⟩ := traceLoop_returns S key n fuel 0 (m - 1) n x (Nat.zero_le _)
      (by omega) (by simpa [Nat.sub_add_cancel hm1] using hfuel)
    exact ⟨y, hy, by omega⟩

/-- `Forward` returns a bin below `m` on every input, for `1 ≤ m ≤ 2^63`. -/
theorem forward_returns (S : Sampler) (fuel : Nat) (iprf : IPRF) (x : Nat)
    (hm1 : 1 ≤ iprf.range_) (hm2 : iprf.range_ ≤ 2 ^ 63)
    (hfuel : Nat.clog 2 iprf.range_ ≤ fuel) :
    ∃ y, iprf.Forward S fuel x = .ok y ∧ y < iprf.range_ := by
  unfold IPRF.Forward
  by_cases hx : x ≥ iprf.domain
  · exact ⟨0, by simp [hx], by omega⟩
  · simp only [hx, if_false]
    exact traceBall_returns S fuel iprf.key x iprf.domain iprf.range_ hm1 hm2 hfuel

/-- Outside the domain `Forward` answers bin 0 without entering the tree. -/
theorem forward_outside (S : Sampler) (fuel : Nat) (iprf : IPRF) (x : Nat)
    (hx : iprf.domain ≤ x) : iprf.Forward S fuel x = .ok 0 := by
  simp [IPRF.Forward, hx]

/-! ## Facts about the update manager -/

theorem sliceGet_of_lt (xs : List Nat) (i : Nat) (h : i < xs.length) :
    sliceGet xs i = .ok xs[i] := by
  simp [sliceGet, List.getElem?_eq_getElem h]

/-- A slice read at or past the length aborts. -/
theorem sliceGet_of_le (xs : List Nat) (i : Nat) (h : xs.length ≤ i) :
    sliceGet xs i = .indexOutOfRange := by
  simp [sliceGet, List.getElem?_eq_none h]

/-- An update whose index is inside the slice is written at that index. -/
theorem applyDatabaseUpdate_inRange (db : List Nat) (u : DBUpdate)
    (hslice : db.length < 2 ^ 63) (h : u.Index < db.length) :
    applyDatabaseUpdate db u = .ok (db.set u.Index u.NewValue) := by
  have h1 : (u.Index + 1) % U64 = u.Index + 1 := by
    apply Nat.mod_eq_of_lt
    simp only [U64]; omega
  have h2 : u.Index % U64 = u.Index := by
    apply Nat.mod_eq_of_lt
    simp only [U64]; omega
  have h3 : ¬ (u.Index + 1 > db.length) := by omega
  simp [applyDatabaseUpdate, DBEntryLength, h1, h2, h3, h]

/-- An update whose index is past the slice, and not the largest `uint64`, is
skipped by the guard `endIdx > len(database)`. -/
theorem applyDatabaseUpdate_skip (db : List Nat) (u : DBUpdate)
    (h1 : db.length ≤ u.Index) (h2 : u.Index < 2 ^ 64 - 1) :
    applyDatabaseUpdate db u = .ok db := by
  have h3 : (u.Index + 1) % U64 = u.Index + 1 := by
    apply Nat.mod_eq_of_lt
    simp only [U64]; omega
  have h4 : u.Index + 1 > db.length := by omega
  simp [applyDatabaseUpdate, DBEntryLength, h3, h4]

/-- The cache loop succeeds when `Forward` returns on every index, and then
slot `k` holds `Forward` of the `k`-th index. -/
theorem cacheLoop_spec (S : Sampler) (fuel : Nat) (iprf : IPRF) :
    ∀ (is hs : List Nat), cacheLoop S fuel iprf is = .ok hs →
      hs.length = is.length ∧
      ∀ (k : Nat) (hk : k < is.length), iprf.Forward S fuel is[k] = sliceGet hs k := by
  intro is
  induction is with
  | nil =>
    intro hs h
    simp only [cacheLoop, Outcome.ok.injEq] at h
    subst h
    exact ⟨rfl, fun k hk => absurd hk (by simp)⟩
  | cons i is ih =>
    intro hs h
    rw [cacheLoop] at h
    cases hF : iprf.Forward S fuel i with
    | ok y =>
      rw [hF, Outcome.bind_ok] at h
      cases hR : cacheLoop S fuel iprf is with
      | ok ys =>
        rw [hR, Outcome.bind_ok, Outcome.ok.injEq] at h
        subst h
        obtain ⟨hl, hk⟩ := ih ys hR
        refine ⟨by simp [hl], ?_⟩
        intro k hk2
        cases k with
        | zero => simp [sliceGet, hF]
        | succ k =>
          have := hk k (by simpa using hk2)
          simpa [sliceGet] using this
      | indexOutOfRange => rw [hR] at h; simp [Outcome.bind] at h
      | outOfFuel => rw [hR] at h; simp [Outcome.bind] at h
    | indexOutOfRange => rw [hF] at h; simp [Outcome.bind] at h
    | outOfFuel => rw [hF] at h; simp [Outcome.bind] at h

/-- The cache loop returns whenever `Forward` returns on every index. -/
theorem cacheLoop_returns (S : Sampler) (fuel : Nat) (iprf : IPRF) :
    ∀ (is : List Nat), (∀ i ∈ is, ∃ y, iprf.Forward S fuel i = .ok y) →
      ∃ hs, cacheLoop S fuel iprf is = .ok hs := by
  intro is
  induction is with
  | nil => intro _; exact ⟨[], rfl⟩
  | cons i is ih =>
    intro h
    obtain ⟨y, hy⟩ := h i (by simp)
    obtain ⟨ys, hys⟩ := ih (fun j hj => h j (by simp [hj]))
    exact ⟨y :: ys, by simp [cacheLoop, hy, hys, Outcome.bind]⟩

/-- A cache built over `range dbSize` answers like `Forward` below `dbSize`
and aborts at and above `dbSize`. -/
theorem cache_lookup (S : Sampler) (fuel dbSize : Nat) (iprf : IPRF) (cache : List Nat)
    (h : cacheLoop S fuel iprf (List.range dbSize) = .ok cache) (i : Nat) :
    sliceGet cache i = if i < dbSize then iprf.Forward S fuel i else .indexOutOfRange := by
  obtain ⟨hl, hk⟩ := cacheLoop_spec S fuel iprf _ _ h
  rw [List.length_range] at hl
  by_cases hi : i < dbSize
  · have := hk i (by simpa using hi)
    simp only [List.getElem_range] at this
    simp [hi, this]
  · simp only [hi, if_false]
    exact sliceGet_of_le _ _ (by omega)

/-- Writing a batch keeps the length of the database. -/
theorem writeAll_length (ups : List DBUpdate) :
    ∀ db : List Nat, (writeAll db ups).length = db.length := by
  induction ups with
  | nil => intro db; rfl
  | cons u us ih => intro db; simp [writeAll] at ih ⊢; rw [ih]; simp

/-- The loop of `ApplyUpdates` on a batch of in-range updates whose hint sets
all resolve: one delta per update, and the writes in order. -/
theorem applyLoop_inRange (S : Sampler) (fuel : Nat) (h : Nat → Nat) :
    ∀ (ups : List DBUpdate) (pm : PlinkoUpdateManager) (acc : List HintDelta),
      pm.database.length < 2 ^ 63 →
      (∀ u ∈ ups, u.Index < pm.database.length) →
      (∀ u ∈ ups, pm.hintSetOf S fuel u.Index = .ok (h u.Index)) →
      applyLoop S fuel pm ups acc =
        .ok (acc ++ ups.map (fun u => { HintSetID := h u.Index, IsBackupSet := false,
                                        Delta := u.OldValue ^^^ u.NewValue }),
             { pm with database := writeAll pm.database ups }) := by
  intro ups
  induction ups with
  | nil => intro pm acc _ _ _; simp [applyLoop, writeAll]
  | cons u us ih =>
    intro pm acc hslice hin hres
    have hu := hin u (by simp)
    rw [applyLoop, applyDatabaseUpdate_inRange _ _ hslice hu, Outcome.bind_ok,
      hres u (by simp), Outcome.bind_ok]
    rw [ih { pm with database := pm.database.set u.Index u.NewValue } _
      (by simpa using hslice)
      (fun v hv => by simpa using hin v (by simp [hv]))
      (fun v hv => by simpa [PlinkoUpdateManager.hintSetOf] using hres v (by simp [hv]))]
    simp [writeAll]

/-- In non-cache mode, and in cache mode below the length of a cache that
`EnableCacheMode` built, step 2 of `ApplyUpdates` is `Forward`. -/
theorem hintSetOf_eq_forward (S : Sampler) (fuel dbSize : Nat) (pm : PlinkoUpdateManager)
    (i : Nat)
    (hc : pm.useCacheMode = true →
      cacheLoop S fuel pm.iprf (List.range dbSize) = .ok pm.indexToHint ∧ i < dbSize) :
    pm.hintSetOf S fuel i = pm.iprf.Forward S fuel i := by
  unfold PlinkoUpdateManager.hintSetOf
  by_cases hm : pm.useCacheMode = true
  · obtain ⟨h1, h2⟩ := hc hm
    simp [hm, cache_lookup S fuel dbSize pm.iprf pm.indexToHint h1 i, h2]
  · simp [hm]

/-- In-range batches run to completion: the deltas are one per update, in
order, routed by `Forward`, and the database is `writeAll`. -/
theorem applyUpdates_inRange (S : Sampler) (fuel dbSize : Nat) (pm : PlinkoUpdateManager)
    (ups : List DBUpdate)
    (hslice : pm.database.length < 2 ^ 63)
    (hm1 : 1 ≤ pm.iprf.range_) (hm2 : pm.iprf.range_ ≤ 2 ^ 63)
    (hfuel : Nat.clog 2 pm.iprf.range_ ≤ fuel)
    (hcache : pm.useCacheMode = true →
      cacheLoop S fuel pm.iprf (List.range dbSize) = .ok pm.indexToHint ∧
      ∀ u ∈ ups, u.Index < dbSize)
    (hin : ∀ u ∈ ups, u.Index < pm.database.length) :
    pm.ApplyUpdates S fuel ups =
      .ok (ups.map (fun u => { HintSetID := (pm.iprf.Forward S fuel u.Index).getD 0,
                               IsBackupSet := false,
                               Delta := u.OldValue ^^^ u.NewValue }),
           { pm with database := writeAll pm.database ups }) := by
  have hres : ∀ u ∈ ups, pm.hintSetOf S fuel u.Index =
      .ok ((fun i => (pm.iprf.Forward S fuel i).getD 0) u.Index) := by
    intro u hu
    rw [hintSetOf_eq_forward S fuel dbSize pm u.Index
      (fun hm => ⟨(hcache hm).1, (hcache hm).2 u hu⟩)]
    obtain ⟨y, hy, _⟩ := forward_returns S fuel pm.iprf u.Index hm1 hm2 hfuel
    simp [hy, Outcome.getD]
  have := applyLoop_inRange S fuel (fun i => (pm.iprf.Forward S fuel i).getD 0) ups pm []
    hslice hin hres
  simpa [PlinkoUpdateManager.ApplyUpdates] using this

/-- An index that no update of the batch targets keeps its entry. -/
theorem writeAll_untouched (ups : List DBUpdate) :
    ∀ (db : List Nat) (i : Nat), (∀ u ∈ ups, u.Index ≠ i) →
      (writeAll db ups)[i]? = db[i]? := by
  induction ups with
  | nil => intro db i _; rfl
  | cons u us ih =>
    intro db i h
    have h1 : u.Index ≠ i := h u (by simp)
    have h2 := ih (db.set u.Index u.NewValue) i (fun v hv => h v (by simp [hv]))
    simp only [writeAll, List.foldl_cons] at h2 ⊢
    rw [h2, List.getElem?_set_ne h1]

/-- An in-range index holds the new value of the last update that targets it. -/
theorem writeAll_last (pre post : List DBUpdate) (u : DBUpdate) (db : List Nat)
    (hu : u.Index < db.length) (hpost : ∀ v ∈ post, v.Index ≠ u.Index) :
    (writeAll db (pre ++ u :: post))[u.Index]? = some u.NewValue := by
  have h1 : writeAll db (pre ++ u :: post) =
      writeAll ((writeAll db pre).set u.Index u.NewValue) post := by
    simp [writeAll, List.foldl_append]
  rw [h1, writeAll_untouched post _ _ hpost]
  have h2 : u.Index < (writeAll db pre).length := by rw [writeAll_length]; exact hu
  simp [List.getElem?_set, h2]

/-! ## `ApplyUpdates` on in-range batches -/

/-- For a batch whose indices are all below the database length, on a manager
in non-cache mode, or on one whose cache was built by `EnableCacheMode` and
spans the indices of the batch, `ApplyUpdates` returns exactly one `HintDelta`
per update, in input order; the `k`-th has `Delta = OldValue XOR NewValue`,
`IsBackupSet = false` and `HintSetID = iprf.Forward(Index)` of the `k`-th
update (`Forward` returns for a range `1 ≤ m ≤ 2^63`). -/
theorem applyUpdates_one_delta_per_update (S : Sampler) (fuel dbSize : Nat)
    (pm : PlinkoUpdateManager) (ups : List DBUpdate)
    (hslice : pm.database.length < 2 ^ 63)
    (hm1 : 1 ≤ pm.iprf.range_) (hm2 : pm.iprf.range_ ≤ 2 ^ 63)
    (hfuel : Nat.clog 2 pm.iprf.range_ ≤ fuel)
    (hcache : pm.useCacheMode = true →
      cacheLoop S fuel pm.iprf (List.range dbSize) = .ok pm.indexToHint ∧
      ∀ u ∈ ups, u.Index < dbSize)
    (hin : ∀ u ∈ ups, u.Index < pm.database.length) :
    ∃ deltas pm', pm.ApplyUpdates S fuel ups = .ok (deltas, pm') ∧
      deltas.length = ups.length ∧
      ∀ (k : Nat) (hk : k < ups.length), ∃ d, deltas[k]? = some d ∧
        d.Delta = ups[k].OldValue ^^^ ups[k].NewValue ∧
        d.IsBackupSet = false ∧
        pm.iprf.Forward S fuel ups[k].Index = .ok d.HintSetID := by
  refine ⟨_, _, applyUpdates_inRange S fuel dbSize pm ups hslice hm1 hm2 hfuel hcache hin,
    by simp, ?_⟩
  intro k hk
  refine ⟨{ HintSetID := (pm.iprf.Forward S fuel ups[k].Index).getD 0, IsBackupSet := false,
             Delta := ups[k].OldValue ^^^ ups[k].NewValue },
    by simp [List.getElem?_eq_getElem, hk], rfl, rfl, ?_⟩
  obtain ⟨y, hy, _⟩ := forward_returns S fuel pm.iprf ups[k].Index hm1 hm2 hfuel
  simp [hy, Outcome.getD]

/-- For a batch whose indices are all below the database length, on a manager
in non-cache mode, or on one whose cache was built by `EnableCacheMode` and
spans the indices of the batch, after `ApplyUpdates` every targeted index holds
the `NewValue` of the last update of the batch with that index, every index
that no update targets keeps its entry, and the length of the database is
unchanged. -/
theorem applyUpdates_database_effect (S : Sampler) (fuel dbSize : Nat)
    (pm : PlinkoUpdateManager) (ups : List DBUpdate)
    (hslice : pm.database.length < 2 ^ 63)
    (hm1 : 1 ≤ pm.iprf.range_) (hm2 : pm.iprf.range_ ≤ 2 ^ 63)
    (hfuel : Nat.clog 2 pm.iprf.range_ ≤ fuel)
    (hcache : pm.useCacheMode = true →
      cacheLoop S fuel pm.iprf (List.range dbSize) = .ok pm.indexToHint ∧
      ∀ u ∈ ups, u.Index < dbSize)
    (hin : ∀ u ∈ ups, u.Index < pm.database.length) :
    ∃ deltas pm', pm.ApplyUpdates S fuel ups = .ok (deltas, pm') ∧
      pm'.database.length = pm.database.length ∧
      (∀ (pre post : List DBUpdate) (u : DBUpdate), ups = pre ++ u :: post →
        (∀ v ∈ post, v.Index ≠ u.Index) → pm'.database[u.Index]? = some u.NewValue) ∧
      (∀ i : Nat, (∀ u ∈ ups, u.Index ≠ i) → pm'.database[i]? = pm.database[i]?) := by
  refine ⟨_, _, applyUpdates_inRange S fuel dbSize pm ups hslice hm1 hm2 hfuel hcache hin,
    writeAll_length ups pm.database, ?_, ?_⟩
  · intro pre post u hsplit hpost
    subst hsplit
    exact writeAll_last pre post u pm.database (hin u (by simp)) hpost
  · intro i hi
    exact writeAll_untouched ups pm.database i hi

/-- In non-cache mode an update past both the database and the iPRF domain is
skipped by `applyDatabaseUpdate` and still yields a delta, for hint set 0. -/
theorem applyUpdates_outOfRange_nonCache (S : Sampler) (fuel dbSize : Nat) (db : List Nat)
    (c s : Nat) (u : DBUpdate)
    (h1 : db.length ≤ u.Index) (h2 : u.Index < 2 ^ 64 - 1) (h3 : dbSize ≤ u.Index) :
    (NewPlinkoUpdateManager dbSize db c s).ApplyUpdates S fuel [u] =
      .ok ([⟨0, false, u.OldValue ^^^ u.NewValue⟩], NewPlinkoUpdateManager dbSize db c s) := by
  have hskip := applyDatabaseUpdate_skip db u h1 h2
  simp [PlinkoUpdateManager.ApplyUpdates, applyLoop, NewPlinkoUpdateManager, hskip,
    PlinkoUpdateManager.hintSetOf, IPRF.Forward, NewIPRF, Outcome.bind, h3]

/-- `EnableCacheMode` returns for a set size `1 ≤ s ≤ 2^63`, and the manager it
leaves aborts in `ApplyUpdates` on an update whose index is past both the
database and the cache. -/
theorem applyUpdates_outOfRange_cache (S : Sampler) (fuel dbSize : Nat) (db : List Nat)
    (c s : Nat) (u : DBUpdate)
    (hs1 : 1 ≤ s) (hs2 : s ≤ 2 ^ 63) (hfuel : Nat.clog 2 s ≤ fuel)
    (h1 : db.length ≤ u.Index) (h2 : u.Index < 2 ^ 64 - 1) (h3 : dbSize ≤ u.Index) :
    ∃ pmc, (NewPlinkoUpdateManager dbSize db c s).EnableCacheMode S fuel dbSize = .ok pmc ∧
      pmc.ApplyUpdates S fuel [u] = .indexOutOfRange := by
  obtain ⟨cache, hcache⟩ := cacheLoop_returns S fuel (NewIPRF managerKey dbSize s)
    (List.range dbSize) (fun i _ => by
      obtain ⟨y, hy, _⟩ := forward_returns S fuel (NewIPRF managerKey dbSize s) i hs1 hs2 hfuel
      exact ⟨y, hy⟩)
  have hskip := applyDatabaseUpdate_skip db u h1 h2
  have hget := cache_lookup S fuel dbSize _ cache hcache u.Index
  have h4 : ¬ u.Index < dbSize := by omega
  simp only [h4, if_false] at hget
  refine ⟨{ NewPlinkoUpdateManager dbSize db c s with
            indexToHint := cache, useCacheMode := true }, ?_, ?_⟩
  · simp [PlinkoUpdateManager.EnableCacheMode, NewPlinkoUpdateManager, hcache, Outcome.bind]
  · simp [PlinkoUpdateManager.ApplyUpdates, applyLoop, NewPlinkoUpdateManager, hskip,
      PlinkoUpdateManager.hintSetOf, hget, Outcome.bind]

/-! ## A database longer than the cache -/

/-- `EnableCacheMode` returns for a set size `1 ≤ s ≤ 2^63`, and the manager it
leaves, whose cache has `dbSize` slots, aborts in `ApplyUpdates` on a batch
whose first update is in range of a longer database at an index from `dbSize`
on: the entry is written, then `indexToHint[Index]` is out of range. -/
theorem applyUpdates_inRange_past_cache (S : Sampler) (fuel dbSize : Nat) (db : List Nat)
    (c s idx old new : Nat) (rest : List DBUpdate)
    (hs1 : 1 ≤ s) (hs2 : s ≤ 2 ^ 63) (hfuel : Nat.clog 2 s ≤ fuel)
    (hslice : db.length < 2 ^ 63) (h1 : idx < db.length) (h3 : dbSize ≤ idx) :
    ∃ pmc, (NewPlinkoUpdateManager dbSize db c s).EnableCacheMode S fuel dbSize = .ok pmc ∧
      applyDatabaseUpdate pmc.database ⟨idx, old, new⟩ = .ok (db.set idx new) ∧
      pmc.hintSetOf S fuel idx = .indexOutOfRange ∧
      pmc.ApplyUpdates S fuel (⟨idx, old, new⟩ :: rest) = .indexOutOfRange := by
  obtain ⟨cache, hcache⟩ := cacheLoop_returns S fuel (NewIPRF managerKey dbSize s)
    (List.range dbSize) (fun i _ => by
      obtain ⟨y, hy, _⟩ := forward_returns S fuel (NewIPRF managerKey dbSize s) i hs1 hs2 hfuel
      exact ⟨y, hy⟩)
  have hw := applyDatabaseUpdate_inRange db ⟨idx, old, new⟩ hslice h1
  have hget := cache_lookup S fuel dbSize _ cache hcache idx
  have h4 : ¬ idx < dbSize := by omega
  simp only [h4, if_false] at hget
  refine ⟨{ NewPlinkoUpdateManager dbSize db c s with
            indexToHint := cache, useCacheMode := true }, ?_, ?_, ?_, ?_⟩
  · simp [PlinkoUpdateManager.EnableCacheMode, NewPlinkoUpdateManager, hcache, Outcome.bind]
  · exact hw
  · simp [PlinkoUpdateManager.hintSetOf, NewPlinkoUpdateManager, hget]
  · unfold PlinkoUpdateManager.ApplyUpdates
    rw [applyLoop]
    simp only [NewPlinkoUpdateManager, PlinkoUpdateManager.hintSetOf, if_true]
    rw [hw, Outcome.bind_ok, hget]
    rfl

/-- In non-cache mode the same update is written and yields the delta of hint
set `Forward(Index) = 0`. -/
theorem applyUpdates_inRange_past_domain (S : Sampler) (fuel dbSize : Nat) (db : List Nat)
    (c s idx old new : Nat)
    (hslice : db.length < 2 ^ 63) (h1 : idx < db.length) (h3 : dbSize ≤ idx) :
    (NewPlinkoUpdateManager dbSize db c s).ApplyUpdates S fuel [⟨idx, old, new⟩] =
      .ok ([⟨0, false, old ^^^ new⟩],
        { NewPlinkoUpdateManager dbSize db c s with database := db.set idx new }) := by
  have hw := applyDatabaseUpdate_inRange db ⟨idx, old, new⟩ hslice h1
  have hf := forward_outside S fuel (NewIPRF managerKey dbSize s) idx h3
  unfold PlinkoUpdateManager.ApplyUpdates
  rw [applyLoop]
  simp only [NewPlinkoUpdateManager, PlinkoUpdateManager.hintSetOf, Bool.false_eq_true,
    if_false]
  rw [hw, Outcome.bind_ok, hf, Outcome.bind_ok, applyLoop]
  rfl

/-- In non-cache mode a batch of two in-range updates at different indices
returns with both entries written. -/
theorem applyUpdates_two_nonCache (S : Sampler) (fuel dbSize : Nat) (db : List Nat)
    (c s i1 o1 n1 i2 o2 n2 : Nat)
    (hs1 : 1 ≤ s) (hs2 : s ≤ 2 ^ 63) (hfuel : Nat.clog 2 s ≤ fuel)
    (hslice : db.length < 2 ^ 63) (h1 : i1 < db.length) (h2 : i2 < db.length)
    (hne : i2 ≠ i1) :
    ∃ deltas pm',
      (NewPlinkoUpdateManager dbSize db c s).ApplyUpdates S fuel [⟨i1, o1, n1⟩, ⟨i2, o2, n2⟩] =
        .ok (deltas, pm') ∧
      pm'.database[i1]? = some n1 ∧ pm'.database[i2]? = some n2 := by
  have hin : ∀ u ∈ [(⟨i1, o1, n1⟩ : DBUpdate), ⟨i2, o2, n2⟩],
      u.Index < (NewPlinkoUpdateManager dbSize db c s).database.length := by
    intro u hu
    simp only [List.mem_cons, List.mem_singleton, List.not_mem_nil, or_false] at hu
    rcases hu with rfl | rfl
    · exact h1
    · exact h2
  refine ⟨_, _, applyUpdates_inRange S fuel dbSize (NewPlinkoUpdateManager dbSize db c s)
    [⟨i1, o1, n1⟩, ⟨i2, o2, n2⟩] hslice hs1 hs2 hfuel
    (fun h => absurd h (by simp [NewPlinkoUpdateManager])) hin, ?_, ?_⟩
  · exact writeAll_last [] [⟨i2, o2, n2⟩] ⟨i1, o1, n1⟩ db h1
      (fun v hv => by rw [List.mem_singleton] at hv; rw [hv]; exact hne)
  · exact writeAll_last [⟨i1, o1, n1⟩] [] ⟨i2, o2, n2⟩ db h2
      (fun v hv => absurd hv (List.not_mem_nil v))

/-- C1 (an in-range update past the cache): on a database of `8192 * 1028`
entries, longer than `DBSize`, the update with `Index = DBSize` is in range.
After `EnableCacheMode`, `ApplyUpdates` on it returns no delta: it aborts on
`indexToHint[DBSize]`, the cache having `DBSize` slots.  The same call in
non-cache mode returns the one delta that the claim describes, with
`HintSetID = Forward(DBSize) = 0`, and writes the entry. -/
theorem C1_inRange_update_past_cache_aborts (S : Sampler) :
    DBSize < (List.replicate 8421376 0).length ∧
    (∃ pmc,
      (NewPlinkoUpdateManager DBSize (List.replicate 8421376 0) 8192 1028).EnableCacheMode
        S 64 DBSize = .ok pmc ∧
      pmc.ApplyUpdates S 64 [⟨DBSize, 0, 1⟩] = .indexOutOfRange) ∧
    (NewPlinkoUpdateManager DBSize (List.replicate 8421376 0) 8192 1028).ApplyUpdates
      S 64 [⟨DBSize, 0, 1⟩] =
      .ok ([⟨0, false, 0 ^^^ 1⟩],
        { NewPlinkoUpdateManager DBSize (List.replicate 8421376 0) 8192 1028 with
          database := (List.replicate 8421376 0).set DBSize 1 }) ∧
    (NewIPRF managerKey DBSize 1028).Forward S 64 DBSize = .ok 0 := by
  have hlen : (List.replicate 8421376 0).length = 8421376 := List.length_replicate _ _
  have hin : DBSize < (List.replicate 8421376 0).length := by
    rw [hlen]; unfold DBSize; norm_num
  have hslice : (List.replicate 8421376 0).length < 2 ^ 63 := by rw [hlen]; norm_num
  refine ⟨hin, ?_, ?_, forward_outside S 64 _ DBSize (le_refl _)⟩
  · obtain ⟨pmc, h1, _, _, h4⟩ := applyUpdates_inRange_past_cache S 64 DBSize
      (List.replicate 8421376 0) 8192 1028 DBSize 0 1 [] (by decide) (by decide)
      ((Nat.le_pow_iff_clog_le (by decide)).1 (by decide)) hslice hin (le_refl _)
    exact ⟨pmc, h1, h4⟩
  · exact applyUpdates_inRange_past_domain S 64 DBSize (List.replicate 8421376 0) 8192 1028
      DBSize 0 1 hslice hin (le_refl _)

/-- C2 (a batch cut short after a write): on a database of `8192 * 1028`
entries the batch `[{DBSize, 0, 1}, {0, 0, 5}]` is in range.  After
`EnableCacheMode`, `ApplyUpdates` writes the first entry
(`applyDatabaseUpdate` returns the database with 1 at `DBSize`), then aborts
on `indexToHint[DBSize]`, so the second update is never applied and index 0
does not get its `NewValue`.  The same call in non-cache mode returns with
both entries written. -/
theorem C2_batch_past_cache_left_half_applied (S : Sampler) :
    DBSize < (List.replicate 8421376 0).length ∧ 0 < (List.replicate 8421376 0).length ∧
    (∃ pmc,
      (NewPlinkoUpdateManager DBSize (List.replicate 8421376 0) 8192 1028).EnableCacheMode
        S 64 DBSize = .ok pmc ∧
      applyDatabaseUpdate pmc.database ⟨DBSize, 0, 1⟩ =
        .ok ((List.replicate 8421376 0).set DBSize 1) ∧
      pmc.hintSetOf S 64 DBSize = .indexOutOfRange ∧
      pmc.ApplyUpdates S 64 [⟨DBSize, 0, 1⟩, ⟨0, 0, 5⟩] = .indexOutOfRange) ∧
    (∃ deltas pm',
      (NewPlinkoUpdateManager DBSize (List.replicate 8421376 0) 8192 1028).ApplyUpdates
        S 64 [⟨DBSize, 0, 1⟩, ⟨0, 0, 5⟩] = .ok (deltas, pm') ∧
      pm'.database[DBSize]? = some 1 ∧ pm'.database[0]? = some 5) := by
  have hlen : (List.replicate 8421376 0).length = 8421376 := List.length_replicate _ _
  have hin : DBSize < (List.replicate 8421376 0).length := by
    rw [hlen]; unfold DBSize; norm_num
  have hin0 : 0 < (List.replicate 8421376 0).length := by rw [hlen]; norm_num
  have hslice : (List.replicate 8421376 0).length < 2 ^ 63 := by rw [hlen]; norm_num
  exact ⟨hin, hin0,
    applyUpdates_inRange_past_cache S 64 DBSize (List.replicate 8421376 0) 8192 1028
      DBSize 0 1 [⟨0, 0, 5⟩] (by decide) (by decide)
      ((Nat.le_pow_iff_clog_le (by decide)).1 (by decide)) hslice hin (le_refl _),
    applyUpdates_two_nonCache S 64 DBSize (List.replicate 8421376 0) 8192 1028
      DBSize 0 1 0 0 5 (by decide) (by decide)
      ((Nat.le_pow_iff_clog_le (by decide)).1 (by decide)) hslice hin hin0
      (by unfold DBSize; norm_num)⟩

/-- The constant `DBSize` is far below the largest `uint64`. -/
theorem DBSize_lt : DBSize < 2 ^ 64 - 1 := by
  unfold DBSize
  norm_num

/-- C3 (the cached path at an index past the cache): after `EnableCacheMode`
has run on a database of `DBSize` entries, `ApplyUpdates` on the update with
`Index = DBSize` aborts on `indexToHint[DBSize]`, while the same call in
non-cache mode returns one delta with `HintSetID = 0`. -/
theorem C3_cache_lookup_past_cache_aborts (S : Sampler) :
    (∃ pmc,
      (NewPlinkoUpdateManager DBSize (List.replicate DBSize 0) 8192 1024).EnableCacheMode
        S 64 DBSize = .ok pmc ∧
      pmc.ApplyUpdates S 64 [⟨DBSize, 0, 1⟩] = .indexOutOfRange) ∧
    (NewPlinkoUpdateManager DBSize (List.replicate DBSize 0) 8192 1024).ApplyUpdates
      S 64 [⟨DBSize, 0, 1⟩] =
      .ok ([⟨0, false, 0 ^^^ 1⟩],
        NewPlinkoUpdateManager DBSize (List.replicate DBSize 0) 8192 1024) :=
  ⟨applyUpdates_outOfRange_cache S 64 DBSize (List.replicate DBSize 0) 8192 1024
      ⟨DBSize, 0, 1⟩ (by decide) (by decide)
      ((Nat.le_pow_iff_clog_le (by decide)).1 (by decide))
      (le_of_eq (List.length_replicate _ _)) DBSize_lt (le_refl _),
   applyUpdates_outOfRange_nonCache S 64 DBSize (List.replicate DBSize 0) 8192 1024
      ⟨DBSize, 0, 1⟩ (le_of_eq (List.length_replicate _ _)) DBSize_lt (le_refl _)⟩

/-- C4 (what the code does with an out-of-range update): on a database of
`DBSize` entries in non-cache mode, the batch made of the single update with
`Index = DBSize` leaves the database as it is and still returns one delta,
`HintSetID = 0`, `Delta = OldValue XOR NewValue`. -/
theorem C4_outOfRange_update_emits_delta (S : Sampler) (fuel : Nat) :
    (NewPlinkoUpdateManager DBSize (List.replicate DBSize 0) 8192 1024).ApplyUpdates
      S fuel [⟨DBSize, 0, 1⟩] =
      .ok ([⟨0, false, 0 ^^^ 1⟩],
        NewPlinkoUpdateManager DBSize (List.replicate DBSize 0) 8192 1024) :=
  applyUpdates_outOfRange_nonCache S fuel DBSize (List.replicate DBSize 0) 8192 1024
    ⟨DBSize, 0, 1⟩ (le_of_eq (List.length_replicate _ _)) DBSize_lt (le_refl _)

/-- C5: an update with `len(database) ≤ Index < 2^64 - 1` leaves every entry
of the database unchanged: `applyDatabaseUpdate` returns the database as it
was, and so does `ApplyUpdates` on that update in non-cache mode (for an iPRF
range `1 ≤ m ≤ 2^63`, on which `Forward` returns). -/
theorem C5_outOfRange_update_leaves_database (db : List Nat) (u : DBUpdate)
    (h1 : db.length ≤ u.Index) (h2 : u.Index < 2 ^ 64 - 1) :
    applyDatabaseUpdate db u = .ok db ∧
    ∀ (S : Sampler) (fuel : Nat) (pm : PlinkoUpdateManager),
      pm.database = db → pm.useCacheMode = false →
      1 ≤ pm.iprf.range_ → pm.iprf.range_ ≤ 2 ^ 63 → Nat.clog 2 pm.iprf.range_ ≤ fuel →
      ∃ deltas, pm.ApplyUpdates S fuel [u] = .ok (deltas, pm) := by
  have hskip := applyDatabaseUpdate_skip db u h1 h2
  refine ⟨hskip, ?_⟩
  intro S fuel pm hdb hmode hm1 hm2 hfuel
  obtain ⟨y, hy, _⟩ := forward_returns S fuel pm.iprf u.Index hm1 hm2 hfuel
  refine ⟨[⟨y, false, u.OldValue ^^^ u.NewValue⟩], ?_⟩
  subst hdb
  have hrun : pm.ApplyUpdates S fuel [u] =
      .ok ([⟨y, false, u.OldValue ^^^ u.NewValue⟩], { pm with database := pm.database }) := by
    simp only [PlinkoUpdateManager.ApplyUpdates, applyLoop, hskip, Outcome.bind_ok,
      PlinkoUpdateManager.hintSetOf, hmode, hy, List.nil_append]
    rfl
  exact hrun

/-- Witness of C5: index 7 on a database of three entries. -/
theorem C5_witness :
    applyDatabaseUpdate [1, 2, 3] ⟨7, 0, 9⟩ = .ok [1, 2, 3] ∧
    ∃ deltas, (NewPlinkoUpdateManager 9 [1, 2, 3] 2 2).ApplyUpdates
      (fun _ _ _ _ _ => 0) 1 [⟨7, 0, 9⟩] =
        .ok (deltas, NewPlinkoUpdateManager 9 [1, 2, 3] 2 2) :=
  ⟨(C5_outOfRange_update_leaves_database [1, 2, 3] ⟨7, 0, 9⟩ (by decide) (by decide)).1,
   (C5_outOfRange_update_leaves_database [1, 2, 3] ⟨7, 0, 9⟩ (by decide) (by decide)).2
     (fun _ _ _ _ _ => 0) 1 (NewPlinkoUpdateManager 9 [1, 2, 3] 2 2) rfl rfl (by decide)
     (by simp [NewPlinkoUpdateManager, NewIPRF])
     ((Nat.le_pow_iff_clog_le (by decide)).1 (by decide))⟩

/-! ## Claims on the iPRF -/

/-- C10: for every key, domain `n`, range `1 ≤ m ≤ 2^63` (so that `low + high`
stays below `2^64`) and `x < n`, `Forward(x)` returns a bin `y < m`, whatever
counts the binomial sampler answers; `⌈log2 m⌉` iterations of the loop are
enough. -/
theorem C10_forward_in_range (S : Sampler) (key : PrfKey128) (n m x fuel : Nat)
    (hm1 : 1 ≤ m) (hm2 : m ≤ 2 ^ 63) (_hx : x < n) (hfuel : Nat.clog 2 m ≤ fuel) :
    ∃ y, (NewIPRF key n m).Forward S fuel x = .ok y ∧ y < m :=
  forward_returns S fuel (NewIPRF key n m) x hm1 hm2 hfuel

/-- Witness of C10: ten balls, four bins, a sampler that sends half of the
balls of a node to the left, ball 7. -/
theorem C10_witness :
    ∃ y, (NewIPRF managerKey 10 4).Forward (fun _ _ ballCount _ _ => ballCount / 2) 2 7 = .ok y ∧
      y < 4 :=
  C10_forward_in_range (fun _ _ ballCount _ _ => ballCount / 2) managerKey 10 4 7 2
    (by decide) (by decide) (by decide) ((Nat.le_pow_iff_clog_le (by decide)).1 (by decide))

/-! ## Facts about the parameter planner -/

/-- Core of the rounding argument: for `f < 2^50` and a scale `2H ≥ 2^27`, the
rounded mantissa of `√f`, doubled and cut to an integer, is `⌊√(4f)⌋`. -/
theorem twoSqrt_core (f H r k : Nat) (hH : 2 ^ 26 ≤ H) (hf : f < 2 ^ 50)
    (hr1 : r * r ≤ f * (2 * H) ^ 2) (hr2 : f * (2 * H) ^ 2 < (r + 1) * (r + 1))
    (hk1 : k * k ≤ 4 * f) (hk2 : 4 * f < (k + 1) * (k + 1)) :
    (2 * (if r * r + r < f * (2 * H) ^ 2 then r + 1 else r)) / (2 * H) = k := by
  have hH0 : 0 < H := by omega
  have hN : f * (2 * H) ^ 2 = 4 * f * (H * H) := by ring
  rw [hN] at hr1 hr2 ⊢
  have hkH : k * H ≤ r := by
    by_contra hcon
    have h1 : r + 1 ≤ k * H := by omega
    have h2 := Nat.mul_self_le_mul_self h1
    have h3 : k * H * (k * H) = k * k * (H * H) := by ring
    have h4 : k * k * (H * H) ≤ 4 * f * (H * H) := Nat.mul_le_mul_right _ hk1
    omega
  have hT : r < (k + 1) * H := by
    by_contra hcon
    have h1 : (k + 1) * H ≤ r := by omega
    have h2 := Nat.mul_self_le_mul_self h1
    have h3 : (k + 1) * H * ((k + 1) * H) = (k + 1) * (k + 1) * (H * H) := by ring
    have h4 : 4 * f * (H * H) < (k + 1) * (k + 1) * (H * H) :=
      Nat.mul_lt_mul_of_pos_right hk2 (Nat.mul_pos hH0 hH0)
    omega
  have hr53 : r < 2 ^ 26 * H := by
    by_contra hcon
    have h1 : 2 ^ 26 * H ≤ r := by omega
    have h2 := Nat.mul_self_le_mul_self h1
    have h3 : 2 ^ 26 * H * (2 ^ 26 * H) = 4 * 2 ^ 50 * (H * H) := by ring
    have h4 : 4 * f * (H * H) < 4 * 2 ^ 50 * (H * H) :=
      Nat.mul_lt_mul_of_pos_right (by omega) (Nat.mul_pos hH0 hH0)
    omega
  have hHH : 2 ^ 26 * H ≤ H * H := Nat.mul_le_mul_right _ hH
  apply Nat.div_eq_of_lt_le
  · split_ifs
    · calc k * (2 * H) = 2 * (k * H) := by ring
        _ ≤ 2 * (r + 1) := by omega
    · calc k * (2 * H) = 2 * (k * H) := by ring
        _ ≤ 2 * r := by omega
  · have hsucc : (k + 1) * (2 * H) = 2 * ((k + 1) * H) := by ring
    rw [hsucc]
    split_ifs with hround
    · have : r + 1 < (k + 1) * H := by
        by_contra hcon
        have h1 : (k + 1) * H = r + 1 := by omega
        have h3 : (r + 1) * (r + 1) = (k + 1) * (k + 1) * (H * H) := by rw [← h1]; ring
        have h4 : (4 * f + 1) * (H * H) ≤ (k + 1) * (k + 1) * (H * H) :=
          Nat.mul_le_mul_right _ hk2
        have h5 : (4 * f + 1) * (H * H) = 4 * f * (H * H) + H * H := by ring
        have h6 : (r + 1) * (r + 1) = r * r + r + (r + 1) := by ring
        omega
      omega
    · omega

/-- Below `2^50` the truncated target is `⌊2√f⌋ = ⌊√(4f)⌋`. -/
theorem twoSqrtTrunc_exact (f : Nat) (hf : f < 2 ^ 50) :
    twoSqrtTrunc f = Nat.sqrt (4 * f) := by
  unfold twoSqrtTrunc
  by_cases h0 : f = 0
  · subst h0; simp
  · simp only [h0, if_false]
    have hs0 : Nat.sqrt f ≠ 0 := by
      rw [Ne, Nat.sqrt_eq_zero]; exact h0
    have hs : Nat.sqrt f < 2 ^ 25 := by
      rw [Nat.sqrt_lt']; calc f < 2 ^ 50 := hf
        _ = (2 ^ 25) ^ 2 := by norm_num
    have he : Nat.log2 (Nat.sqrt f) < 25 := (Nat.log2_lt hs0).2 hs
    obtain ⟨j, hj⟩ : ∃ j, 52 - Nat.log2 (Nat.sqrt f) = j + 27 := ⟨25 - Nat.log2 (Nat.sqrt f), by omega⟩
    rw [hj]
    have h4 : (4 : Nat) ^ (j + 27) = (2 * 2 ^ (j + 26)) ^ 2 := by
      rw [show (4 : Nat) = 2 ^ 2 by norm_num, ← pow_mul, ← pow_succ', ← pow_mul]
      congr 1; ring
    have h2 : (2 : Nat) ^ (j + 27) = 2 * 2 ^ (j + 26) := by rw [← pow_succ']
    rw [h4, h2]
    apply twoSqrt_core f (2 ^ (j + 26)) _ _ _ hf (Nat.sqrt_le _) (Nat.lt_succ_sqrt _)
      (Nat.sqrt_le _) (Nat.lt_succ_sqrt _)
    exact Nat.pow_le_pow_right (by norm_num) (by omega)

/-- Integers below `2^53` convert to `float64` exactly. -/
theorem toFloat64_small (n : Nat) (h : n < 2 ^ 53) : toFloat64 n = n := by
  unfold toFloat64
  rw [if_pos h]

/-- The `float64` of a `uint64` is at most `2^64`. -/
theorem toFloat64_le (n : Nat) (h : n < 2 ^ 64) : toFloat64 n ≤ 2 ^ 64 := by
  unfold toFloat64
  by_cases h53 : n < 2 ^ 53
  · simp only [h53, if_true]; omega
  · simp only [h53, if_false]
    have hn0 : n ≠ 0 := by omega
    have hl1 : Nat.log2 n < 64 := (Nat.log2_lt hn0).2 h
    have hl2 : ¬ Nat.log2 n < 53 := fun hc => h53 ((Nat.log2_lt hn0).1 hc)
    obtain ⟨k, hk⟩ : ∃ k, Nat.log2 n = k + 52 := ⟨Nat.log2 n - 52, by omega⟩
    have hlt : n < 2 ^ (k + 53) := by
      have := @Nat.lt_log2_self n
      rw [hk] at this; exact this
    have hq : n / 2 ^ k < 2 ^ 53 := by
      rw [Nat.div_lt_iff_lt_mul (by positivity)]
      calc n < 2 ^ (k + 53) := hlt
        _ = 2 ^ 53 * 2 ^ k := by rw [← pow_add]; congr 1; omega
    have hb : (n / 2 ^ k + 1) * 2 ^ k ≤ 2 ^ 64 := by
      calc (n / 2 ^ k + 1) * 2 ^ k ≤ 2 ^ 53 * 2 ^ k := Nat.mul_le_mul_right _ hq
        _ = 2 ^ (53 + k) := by rw [← pow_add]
        _ ≤ 2 ^ 64 := Nat.pow_le_pow_right (by norm_num) (by omega)
    have hb2 : n / 2 ^ k * 2 ^ k ≤ 2 ^ 64 :=
      le_trans (Nat.mul_le_mul_right _ (Nat.le_succ _)) hb
    simp only [hk, Nat.add_sub_cancel]
    split_ifs
    · exact hb
    · exact hb2

/-- The truncated target of a `float64` up to `2^64` is at most `2^34`. -/
theorem twoSqrtTrunc_le (f : Nat) (hf : f ≤ 2 ^ 64) : twoSqrtTrunc f ≤ 2 ^ 34 := by
  unfold twoSqrtTrunc
  by_cases h0 : f = 0
  · simp [h0]
  · simp only [h0, if_false]
    generalize 52 - Nat.log2 (Nat.sqrt f) = sh
    have hP : 0 < 2 ^ sh := by positivity
    have hr : Nat.sqrt (f * 4 ^ sh) ≤ 2 ^ 32 * 2 ^ sh := by
      by_contra hcon
      have h1 : 2 ^ 32 * 2 ^ sh + 1 ≤ Nat.sqrt (f * 4 ^ sh) := by omega
      have h2 := Nat.mul_self_le_mul_self h1
      have h3 := Nat.sqrt_le (f * 4 ^ sh)
      have h4 : f * 4 ^ sh ≤ 2 ^ 64 * 4 ^ sh := Nat.mul_le_mul_right _ hf
      have h5 : (2 : Nat) ^ 64 * 4 ^ sh = 2 ^ 32 * 2 ^ sh * (2 ^ 32 * 2 ^ sh) := by
        rw [show (4 : Nat) = 2 * 2 by norm_num, mul_pow]; ring
      have h6 : (2 ^ 32 * 2 ^ sh + 1) * (2 ^ 32 * 2 ^ sh + 1) =
          2 ^ 32 * 2 ^ sh * (2 ^ 32 * 2 ^ sh) + 2 * (2 ^ 32 * 2 ^ sh) + 1 := by ring
      omega
    apply Nat.div_le_of_le_mul
    split_ifs
    · calc 2 * (Nat.sqrt (f * 4 ^ sh) + 1) ≤ 2 * (2 ^ 32 * 2 ^ sh + 1) := by omega
        _ ≤ 2 ^ sh * 2 ^ 34 := by nlinarith
    · calc 2 * Nat.sqrt (f * 4 ^ sh) ≤ 2 * (2 ^ 32 * 2 ^ sh) := by omega
        _ ≤ 2 ^ sh * 2 ^ 34 := by nlinarith

/-- The doubling loop, started at `2^j` with every smaller power of two below
the target, stops at the least power of two that reaches the target. -/
theorem chunkLoop_spec (t : Nat) (ht : t ≤ 2 ^ 63) :
    ∀ (fuel j : Nat), 64 ≤ j + fuel → j ≤ 63 → (∀ i, i < j → 2 ^ i < t) →
      ∃ j', j' ≤ 63 ∧ chunkLoop t fuel (2 ^ j) = .ok (2 ^ j') ∧ t ≤ 2 ^ j' ∧
        ∀ i, i < j' → 2 ^ i < t := by
  intro fuel
  induction fuel with
  | zero => intro j h1 h2 _; omega
  | succ fuel ih =>
    intro j h1 h2 hbelow
    by_cases hlt : 2 ^ j < t
    · have hj : j < 63 := by
        by_contra hcon
        have : j = 63 := by omega
        subst this
        omega
      have hpow : (2 ^ j * 2) % U64 = 2 ^ (j + 1) := by
        rw [← pow_succ]
        apply Nat.mod_eq_of_lt
        exact Nat.pow_lt_pow_right (by norm_num) (by omega)
      obtain ⟨j', hj1, hj2, hj3, hj4⟩ := ih (j + 1) (by omega) (by omega) (fun i hi => by
        by_cases hij : i = j
        · subst hij; exact hlt
        · exact hbelow i (by omega))
      refine ⟨j', hj1, ?_, hj3, hj4⟩
      rw [chunkLoop, if_pos hlt, hpow]
      exact hj2
    · refine ⟨j, h2, ?_, by omega, hbelow⟩
      rw [chunkLoop, if_neg hlt]

/-- The target of `GenParams` never reaches the point where doubling wraps. -/
theorem genParams_target_le (dbSize : Nat) (hd : dbSize < 2 ^ 64) :
    twoSqrtTrunc (toFloat64 dbSize) ≤ 2 ^ 63 :=
  le_trans (twoSqrtTrunc_le _ (toFloat64_le _ hd)) (by norm_num)

/-- `GenParams` returns on every `uint64`, with the chunk size the least power
of two that reaches the truncated target. -/
theorem genParams_returns (dbSize : Nat) (hd : dbSize < 2 ^ 64) :
    ∃ j, j ≤ 63 ∧
      GenParams dbSize =
        .ok (2 ^ j, (((toFloat64 dbSize + 2 ^ j - 1) / 2 ^ j + 3) % U64) / 4 * 4 % U64) ∧
      twoSqrtTrunc (toFloat64 dbSize) ≤ 2 ^ j ∧
      ∀ i, i < j → 2 ^ i < twoSqrtTrunc (toFloat64 dbSize) := by
  obtain ⟨j, hj1, hj2, hj3, hj4⟩ := chunkLoop_spec _ (genParams_target_le dbSize hd) 64 0
    (by omega) (by omega) (fun i hi => absurd hi (by omega))
  refine ⟨j, hj1, ?_, hj3, hj4⟩
  unfold GenParams
  simp only [pow_zero] at hj2
  simp only [hj2, Outcome.bind_ok]

/-- `GenParams` from its target and the result of the doubling loop. -/
theorem genParams_eval (d t c : Nat) (ht : twoSqrtTrunc (toFloat64 d) = t)
    (hl : chunkLoop t 64 1 = .ok c) :
    GenParams d = .ok (c, ((toFloat64 d + c - 1) / c + 3) % U64 / 4 * 4 % U64) := by
  unfold GenParams
  simp only [ht, hl, Outcome.bind_ok]

/-- `GenParams(8388608)`: target 5792, chunk size 8192, set size 1024. -/
theorem genParams_8388608 : GenParams 8388608 = .ok (8192, 1024) := by
  have ht : twoSqrtTrunc (toFloat64 8388608) = 5792 := by
    rw [toFloat64_small _ (by norm_num), twoSqrtTrunc_exact _ (by norm_num)]
    symm; rw [Nat.eq_sqrt]; norm_num
  rw [genParams_eval 8388608 5792 8192 ht (by decide), toFloat64_small _ (by norm_num)]
  decide

/-- `GenParams(2)`: target 2, chunk size 2, set size 4. -/
theorem genParams_2 : GenParams 2 = .ok (2, 4) := by
  have ht : twoSqrtTrunc (toFloat64 2) = 2 := by
    rw [toFloat64_small _ (by norm_num), twoSqrtTrunc_exact _ (by norm_num)]
    symm; rw [Nat.eq_sqrt]; norm_num
  rw [genParams_eval 2 2 2 ht (by decide), toFloat64_small _ (by norm_num)]
  decide

/-- The binary logarithm from the two powers of two around a number. -/
theorem log2_eq_of_bounds (n k : Nat) (h1 : 2 ^ k ≤ n) (h2 : n < 2 ^ (k + 1)) :
    Nat.log2 n = k := by
  have hn : n ≠ 0 := by
    have : 0 < 2 ^ k := by positivity
    omega
  have h3 : Nat.log2 n < k + 1 := (Nat.log2_lt hn).2 h2
  have h4 : ¬ Nat.log2 n < k := fun hc => by
    have := (Nat.log2_lt hn).1 hc
    omega
  omega

/-- The integer `2^53 + 1` lies halfway between two `float64` values and rounds
to the even one, `2^53`. -/
theorem toFloat64_big : toFloat64 (2 ^ 53 + 1) = 2 ^ 53 := by
  have h : Nat.log2 (2 ^ 53 + 1) = 53 := log2_eq_of_bounds _ _ (by norm_num) (by norm_num)
  unfold toFloat64
  rw [if_neg (by norm_num)]
  simp only [h]
  norm_num

/-- The truncated target of `2^53` is `189812531`. -/
theorem twoSqrtTrunc_big : twoSqrtTrunc (2 ^ 53) = 189812531 := by
  have h1 : Nat.sqrt (2 ^ 53) = 94906265 := by
    symm; rw [Nat.eq_sqrt]; norm_num
  have h2 : Nat.log2 94906265 = 26 := log2_eq_of_bounds _ _ (by norm_num) (by norm_num)
  have h3 : Nat.sqrt (2 ^ 53 * 4 ^ 26) = 6369051672525772 := by
    symm; rw [Nat.eq_sqrt]; norm_num
  unfold twoSqrtTrunc
  rw [if_neg (by norm_num)]
  simp only [h1, h2, h3]
  norm_num

/-- `GenParams(2^53 + 1)`: chunk size `2^28`, set size `2^25`. -/
theorem genParams_big : GenParams (2 ^ 53 + 1) = .ok (2 ^ 28, 2 ^ 25) := by
  have ht : twoSqrtTrunc (toFloat64 (2 ^ 53 + 1)) = 189812531 := by
    rw [toFloat64_big, twoSqrtTrunc_big]
  rw [genParams_eval (2 ^ 53 + 1) 189812531 (2 ^ 28) ht (by decide), toFloat64_big]
  decide

/-- The conversion to `float64` is exact up to and including `2^53`. -/
theorem toFloat64_exact (n : Nat) (h : n ≤ 2 ^ 53) : toFloat64 n = n := by
  by_cases hlt : n < 2 ^ 53
  · exact toFloat64_small n hlt
  · have hn : n = 2 ^ 53 := by omega
    subst hn
    have hl : Nat.log2 (2 ^ 53) = 53 := log2_eq_of_bounds _ _ (by norm_num) (by norm_num)
    unfold toFloat64
    rw [if_neg (by norm_num)]
    simp only [hl]
    norm_num

/-! ## Claims on `GenParams` -/

/-- C6, as stated, fails at `dbSize = 2`: `GenParams(2)` returns
`chunkSize = 2`, and `2 * 2 < 4 * 2`, so `chunkSize < 2·sqrt(dbSize)`. -/
theorem C6_counterexample : GenParams 2 = .ok (2, 4) ∧ ¬ (2 * 2 ≥ 4 * 2) :=
  ⟨genParams_2, by decide⟩

/-- C6, amended: for every `uint64` `dbSize`, `GenParams` returns a chunk size
`2^j` that is the smallest power of two at or above the truncated target
`t = uint64(2 * math.Sqrt(float64(dbSize)))`.  For `dbSize < 2^50` the target is
`⌊2·sqrt(dbSize)⌋ = ⌊sqrt(4·dbSize)⌋`, so `4·dbSize < (2^j + 1)^2` and every
smaller power of two `2^i` has `(2^i + 1)^2 ≤ 4·dbSize`. -/
theorem C6_chunkSize_least_power_of_two_above_truncated_target (dbSize : Nat)
    (hd : dbSize < 2 ^ 64) :
    ∃ j s, GenParams dbSize = .ok (2 ^ j, s) ∧
      twoSqrtTrunc (toFloat64 dbSize) ≤ 2 ^ j ∧
      (∀ i, i < j → 2 ^ i < twoSqrtTrunc (toFloat64 dbSize)) ∧
      (dbSize < 2 ^ 50 →
        twoSqrtTrunc (toFloat64 dbSize) = Nat.sqrt (4 * dbSize) ∧
        4 * dbSize < (2 ^ j + 1) ^ 2 ∧
        ∀ i, i < j → (2 ^ i + 1) ^ 2 ≤ 4 * dbSize) := by
  obtain ⟨j, _, hj2, hj3, hj4⟩ := genParams_returns dbSize hd
  refine ⟨j, _, hj2, hj3, hj4, ?_⟩
  intro h50
  have ht : twoSqrtTrunc (toFloat64 dbSize) = Nat.sqrt (4 * dbSize) := by
    rw [toFloat64_small _ (lt_trans h50 (by norm_num)), twoSqrtTrunc_exact _ h50]
  rw [ht] at hj3 hj4
  refine ⟨ht, ?_, ?_⟩
  · exact Nat.sqrt_lt'.1 (by omega)
  · intro i hi
    exact Nat.le_sqrt'.1 (hj4 i hi)

/-- Witness of C6: the deployed size `8388608`. -/
theorem C6_witness :
    ∃ j s, GenParams 8388608 = .ok (2 ^ j, s) ∧
      twoSqrtTrunc (toFloat64 8388608) ≤ 2 ^ j ∧
      (∀ i, i < j → 2 ^ i < twoSqrtTrunc (toFloat64 8388608)) ∧
      (8388608 < 2 ^ 50 →
        twoSqrtTrunc (toFloat64 8388608) = Nat.sqrt (4 * 8388608) ∧
        4 * 8388608 < (2 ^ j + 1) ^ 2 ∧
        ∀ i, i < j → (2 ^ i + 1) ^ 2 ≤ 4 * 8388608) :=
  C6_chunkSize_least_power_of_two_above_truncated_target 8388608 (by norm_num)

/-- C7, as stated, fails at `dbSize = 2^53 + 1`, which `float64` rounds to
`2^53`: `GenParams` returns `(2^28, 2^25)`, and `2^28 * 2^25 < 2^53 + 1`. -/
theorem C7_counterexample :
    GenParams (2 ^ 53 + 1) = .ok (2 ^ 28, 2 ^ 25) ∧ ¬ (2 ^ 28 * 2 ^ 25 ≥ 2 ^ 53 + 1) :=
  ⟨genParams_big, by norm_num⟩

/-- C7, amended: for every `1 ≤ dbSize ≤ 2^53` (the sizes that `float64` holds
exactly), with `(chunkSize, setSize) = GenParams(dbSize)`, `setSize` is the
least multiple of 4 that is at least `⌈dbSize / chunkSize⌉`; so it is a
multiple of 4 and `chunkSize * setSize ≥ dbSize`. -/
theorem C7_setSize_least_multiple_of_four (dbSize : Nat)
    (h1 : 1 ≤ dbSize) (h2 : dbSize ≤ 2 ^ 53) :
    ∃ c s, GenParams dbSize = .ok (c, s) ∧
      4 ∣ s ∧ (dbSize + c - 1) / c ≤ s ∧
      (∀ s', 4 ∣ s' → (dbSize + c - 1) / c ≤ s' → s ≤ s') ∧
      dbSize ≤ c * s := by
  obtain ⟨j, _, hj2, _, _⟩ := genParams_returns dbSize (lt_of_le_of_lt h2 (by norm_num))
  rw [toFloat64_exact dbSize h2] at hj2
  have hc : 1 ≤ 2 ^ j := Nat.one_le_two_pow
  generalize 2 ^ j = c at hj2 hc
  have hq : (dbSize + c - 1) / c ≤ dbSize := by
    apply Nat.div_le_of_le_mul
    obtain ⟨c', rfl⟩ : ∃ c', c = c' + 1 := ⟨c - 1, by omega⟩
    obtain ⟨d', rfl⟩ : ∃ d', dbSize = d' + 1 := ⟨dbSize - 1, by omega⟩
    have : (c' + 1) * (d' + 1) = c' * d' + c' + d' + 1 := by ring
    omega
  have hceil : dbSize ≤ c * ((dbSize + c - 1) / c) := by
    have := Nat.lt_mul_div_succ (dbSize + c - 1) (show 0 < c by omega)
    have h3 : c * ((dbSize + c - 1) / c + 1) = c * ((dbSize + c - 1) / c) + c := by ring
    omega
  obtain ⟨q, hqdef⟩ : ∃ q, (dbSize + c - 1) / c = q := ⟨_, rfl⟩
  rw [hqdef] at hj2 hq hceil
  have hm1 : (q + 3) % U64 = q + 3 := by
    apply Nat.mod_eq_of_lt
    simp only [U64]; omega
  have hm2 : (q + 3) / 4 * 4 % U64 = (q + 3) / 4 * 4 := by
    apply Nat.mod_eq_of_lt
    simp only [U64]; omega
  rw [hm1, hm2] at hj2
  refine ⟨c, (q + 3) / 4 * 4, hj2, Nat.dvd_mul_left _ _, by omega, ?_, ?_⟩
  · intro s' hs' hle
    rw [hqdef] at hle
    omega
  · calc dbSize ≤ c * q := hceil
      _ ≤ c * ((q + 3) / 4 * 4) := Nat.mul_le_mul_left _ (by omega)

/-- Witness of C7: `dbSize = 1000`. -/
theorem C7_witness :
    ∃ c s, GenParams 1000 = .ok (c, s) ∧
      4 ∣ s ∧ (1000 + c - 1) / c ≤ s ∧
      (∀ s', 4 ∣ s' → (1000 + c - 1) / c ≤ s' → s ≤ s') ∧
      1000 ≤ c * s :=
  C7_setSize_least_multiple_of_four 1000 (by norm_num) (by norm_num)

/-- C8, as stated, fails: `GenParams(8388608)` is not `(4096, 2048)`. -/
theorem C8_counterexample : GenParams 8388608 ≠ .ok (4096, 2048) := by
  rw [genParams_8388608]
  decide

/-- C8, amended: `GenParams(8388608)` returns `chunkSize = 8192` and
`setSize = 1024` (`uint64(2·sqrt(8388608)) = 5792` lies above `4096`). -/
theorem C8_genParams_8388608 : GenParams DBSize = .ok (8192, 1024) :=
  genParams_8388608

/-! ## Claims on `PRSet.Expand` -/

/-- For a non-zero modulus `prfEvalMod` is below the modulus. -/
theorem prfEvalMod_lt (prs : PRSet) (x m : Nat) (hm : 1 ≤ m) : prs.prfEvalMod x m < m := by
  unfold PRSet.prfEvalMod
  rw [if_neg (by omega)]
  exact Nat.mod_lt _ (by omega)

/-- C9: for every key, every `chunkSize ≥ 1` and every `setSize` with
`setSize * chunkSize < 2^64`, `Expand(setSize, chunkSize)` returns exactly
`setSize` indices, and the `i`-th lies in chunk `i`:
`i*chunkSize ≤ index_i < (i+1)*chunkSize`. -/
theorem C9_expand_one_index_per_chunk (key : PrfKey128) (setSize chunkSize : Nat)
    (hc : 1 ≤ chunkSize) (hsz : setSize * chunkSize < 2 ^ 64) :
    ((NewPRSet key).Expand setSize chunkSize).length = setSize ∧
    ∀ i, i < setSize → ∃ v, ((NewPRSet key).Expand setSize chunkSize)[i]? = some v ∧
      i * chunkSize ≤ v ∧ v < (i + 1) * chunkSize := by
  refine ⟨by simp [PRSet.Expand], ?_⟩
  intro i hi
  have hoff := prfEvalMod_lt (NewPRSet key) i chunkSize hc
  have hle : (i + 1) * chunkSize ≤ setSize * chunkSize := Nat.mul_le_mul_right _ hi
  have hexp : (i + 1) * chunkSize = i * chunkSize + chunkSize := by ring
  have hmod : (i * chunkSize + (NewPRSet key).prfEvalMod i chunkSize) % U64 =
      i * chunkSize + (NewPRSet key).prfEvalMod i chunkSize := by
    apply Nat.mod_eq_of_lt
    simp only [U64]; omega
  refine ⟨i * chunkSize + (NewPRSet key).prfEvalMod i chunkSize, ?_, by omega, by omega⟩
  simp [PRSet.Expand, List.getElem?_map, List.getElem?_range hi, hmod]

/-- Witness of C9: the manager key, four chunks of four entries. -/
theorem C9_witness :
    ((NewPRSet managerKey).Expand 4 4).length = 4 ∧
    ∀ i, i < 4 → ∃ v, ((NewPRSet managerKey).Expand 4 4)[i]? = some v ∧
      i * 4 ≤ v ∧ v < (i + 1) * 4 :=
  C9_expand_one_index_per_chunk managerKey 4 4 (by decide) (by decide)

/-! ## Facts about the PIR server -/

/-- `DBAccess` always returns: the stored entry below the length of the
database, zero from there on. -/
theorem DBAccess_eq (s : PlinkoPIRServer) (hslice : s.database.length < 2 ^ 63) (id : Nat) :
    s.DBAccess id = .ok (if id < s.database.length then s.database.getD id 0 else 0) := by
  unfold PlinkoPIRServer.DBAccess
  simp only [DBEntryLength, Nat.div_one, Nat.mul_one]
  by_cases h : id < s.database.length
  · have hmod : id % U64 = id := by
      apply Nat.mod_eq_of_lt
      simp only [U64]; omega
    simp only [h, if_true, hmod]
    rw [sliceGet_of_lt _ _ h]
    simp [List.getD_eq_getElem?_getD, List.getElem?_eq_getElem h]
  · simp only [h, if_false]

theorem Outcome.getD_ok {α : Type} (a d : α) : (Outcome.ok a).getD d = a := rfl

theorem xorAll_cons (v : Nat) (vs : List Nat) : xorAll (v :: vs) = v ^^^ xorAll vs := rfl

/-- The parity loop of `HandleSetParityQuery` adds the XOR of the accessed
entries to the accumulator. -/
theorem setParityLoop_eq (s : PlinkoPIRServer) (hslice : s.database.length < 2 ^ 63) :
    ∀ (indices : List Nat) (parity : Nat),
      setParityLoop s indices parity =
        .ok (parity ^^^ xorAll (indices.map fun i => (s.DBAccess i).getD 0)) := by
  intro indices
  induction indices with
  | nil => intro parity; simp [setParityLoop, xorAll]
  | cons i is ih =>
    intro parity
    rw [setParityLoop, List.map_cons, xorAll_cons, DBAccess_eq s hslice i, Outcome.bind_ok, ih,
      Outcome.getD_ok, Nat.xor_assoc]

/-- The parity loop of `HandleFullSetQuery` does the same. -/
theorem fullSetLoop_eq (s : PlinkoPIRServer) (hslice : s.database.length < 2 ^ 63) :
    ∀ (ids : List Nat) (parity : Nat),
      fullSetLoop s ids parity =
        .ok (parity ^^^ xorAll (ids.map fun i => (s.DBAccess i).getD 0)) := by
  intro ids
  induction ids with
  | nil => intro parity; simp [fullSetLoop, xorAll]
  | cons i is ih =>
    intro parity
    rw [fullSetLoop, List.map_cons, xorAll_cons, DBAccess_eq s hslice i, Outcome.bind_ok, ih,
      Outcome.getD_ok, Nat.xor_assoc]

/-- Copying a 16-byte request key gives that key. -/
theorem copyKey_of_length (key : List Nat) (h : key.length = 16) : copyKey key = key := by
  unfold copyKey
  apply List.ext_getElem
  · simp [h]
  · intro i h1 h2
    simp [List.getD_eq_getElem?_getD, List.getElem?_eq_getElem h2]

theorem xorAll_append (xs ys : List Nat) : xorAll (xs ++ ys) = xorAll xs ^^^ xorAll ys := by
  induction xs with
  | nil => simp [xorAll]
  | cons x xs ih =>
    simp only [xorAll, List.cons_append, List.foldr_cons] at ih ⊢
    rw [ih, Nat.xor_assoc]

/-- C11: for every server state and every 16-byte key, `HandleFullSetQuery(key)`
is `HandleSetParityQuery` applied to `PRSet(key).Expand(setSize, chunkSize)`,
and both are the XOR of `DBAccess(i)` over those indices. -/
theorem C11_fullSetQuery_is_parity_of_expanded_set (s : PlinkoPIRServer) (key : List Nat)
    (hslice : s.database.length < 2 ^ 63) (hkey : key.length = 16) :
    s.HandleFullSetQuery key =
      s.HandleSetParityQuery ((NewPRSet key).Expand s.setSize s.chunkSize) ∧
    s.HandleFullSetQuery key =
      .ok (xorAll (((NewPRSet key).Expand s.setSize s.chunkSize).map
        fun i => (s.DBAccess i).getD 0)) := by
  have h1 : s.HandleFullSetQuery key =
      .ok (xorAll (((NewPRSet key).Expand s.setSize s.chunkSize).map
        fun i => (s.DBAccess i).getD 0)) := by
    unfold PlinkoPIRServer.HandleFullSetQuery
    simp only [copyKey_of_length key hkey]
    rw [fullSetLoop_eq s hslice]
    simp
  refine ⟨?_, h1⟩
  rw [h1]
  unfold PlinkoPIRServer.HandleSetParityQuery
  rw [setParityLoop_eq s hslice]
  simp

/-- Witness of C11: sixteen entries `0 .. 15`, four chunks of four, the key
`0 .. 15`. -/
theorem C11_witness :
    (⟨List.range 16, 16, 4, 4⟩ : PlinkoPIRServer).HandleFullSetQuery (List.range 16) =
      (⟨List.range 16, 16, 4, 4⟩ : PlinkoPIRServer).HandleSetParityQuery
        ((NewPRSet (List.range 16)).Expand 4 4) ∧
    (⟨List.range 16, 16, 4, 4⟩ : PlinkoPIRServer).HandleFullSetQuery (List.range 16) =
      .ok (xorAll (((NewPRSet (List.range 16)).Expand 4 4).map
        fun i => ((⟨List.range 16, 16, 4, 4⟩ : PlinkoPIRServer).DBAccess i).getD 0)) :=
  C11_fullSetQuery_is_parity_of_expanded_set ⟨List.range 16, 16, 4, 4⟩ (List.range 16)
    (by simp) (by simp)

/-- C12, as stated, fails on a snapshot whose header records `DBSize = 1` and
which holds the two entries `5, 7`: index 1 is outside `[0, DBSize)`, and
`DBAccess(1)` returns 7. -/
theorem C12_counterexample :
    loadServer (putUint64LE 1 ++ putUint64LE 1 ++ putUint64LE 2 ++ putUint64LE 0 ++
        putUint64LE 5 ++ putUint64LE 7) =
      some { database := [5, 7], dbSize := 1, chunkSize := 1, setSize := 2 } ∧
    ¬ (1 < 1) ∧
    ({ database := [5, 7], dbSize := 1, chunkSize := 1, setSize := 2 } :
      PlinkoPIRServer).DBAccess 1 = .ok 7 := by
  decide

/-- C12, amended: on every server state `DBAccess` returns on every index, and
for every index at or past the number of entries held (`len(database)`,
whatever `DBSize` the header records) it returns the zero entry. -/
theorem C12_dbAccess_zero_past_database (s : PlinkoPIRServer)
    (hslice : s.database.length < 2 ^ 63) (id : Nat) :
    (∃ v, s.DBAccess id = .ok v) ∧ (s.database.length ≤ id → s.DBAccess id = .ok 0) := by
  rw [DBAccess_eq s hslice id]
  refine ⟨⟨_, rfl⟩, ?_⟩
  intro h
  rw [if_neg (by omega)]

/-- Witness of C12: sixteen entries, index 1016. -/
theorem C12_witness :
    (∃ v, (⟨List.range 16, 16, 4, 4⟩ : PlinkoPIRServer).DBAccess 1016 = .ok v) ∧
    ((⟨List.range 16, 16, 4, 4⟩ : PlinkoPIRServer).database.length ≤ 1016 →
      (⟨List.range 16, 16, 4, 4⟩ : PlinkoPIRServer).DBAccess 1016 = .ok 0) :=
  C12_dbAccess_zero_past_database ⟨List.range 16, 16, 4, 4⟩ (by simp) 1016

/-- C13: for every database, every index sequence and every index `j`, adding
`j` twice (at any two places) leaves `HandleSetParityQuery` unchanged. -/
theorem C13_duplicate_index_cancels (s : PlinkoPIRServer)
    (hslice : s.database.length < 2 ^ 63) (a b c : List Nat) (j : Nat) :
    s.HandleSetParityQuery (a ++ j :: (b ++ j :: c)) = s.HandleSetParityQuery (a ++ (b ++ c)) := by
  unfold PlinkoPIRServer.HandleSetParityQuery
  rw [setParityLoop_eq s hslice, setParityLoop_eq s hslice]
  simp only [List.map_append, List.map_cons, xorAll_append, xorAll_cons]
  generalize (s.DBAccess j).getD 0 = v
  generalize xorAll (List.map (fun i => (s.DBAccess i).getD 0) a) = x
  generalize xorAll (List.map (fun i => (s.DBAccess i).getD 0) b) = y
  generalize xorAll (List.map (fun i => (s.DBAccess i).getD 0) c) = z
  congr 1
  rw [show 0 ^^^ (x ^^^ (v ^^^ (y ^^^ (v ^^^ z)))) = (v ^^^ v) ^^^ (0 ^^^ (x ^^^ (y ^^^ z))) by ac_rfl]
  simp

/-- Witness of C13: entries `0 .. 15`, the set `[0, 1, 2, 3]`, index 5 added
twice. -/
theorem C13_witness :
    (⟨List.range 16, 16, 4, 4⟩ : PlinkoPIRServer).HandleSetParityQuery
        ([0, 1] ++ 5 :: ([2] ++ 5 :: [3])) =
      (⟨List.range 16, 16, 4, 4⟩ : PlinkoPIRServer).HandleSetParityQuery ([0, 1] ++ ([2] ++ [3])) :=
  C13_duplicate_index_cancels ⟨List.range 16, 16, 4, 4⟩ (by simp) [0, 1] [2] [3] 5

/-! ## Facts about the hint snapshot -/

theorem putUint64LE_eq (x : Nat) :
    putUint64LE x = [x % 256, x / 256 % 256, x / 256 ^ 2 % 256, x / 256 ^ 3 % 256,
      x / 256 ^ 4 % 256, x / 256 ^ 5 % 256, x / 256 ^ 6 % 256, x / 256 ^ 7 % 256] := by
  simp [putUint64LE, List.range_succ]

theorem putUint64LE_length (x : Nat) : (putUint64LE x).length = 8 := by
  simp [putUint64LE]

/-- Reading back the eight bytes of a 64-bit word gives the word, whatever
follows them. -/
theorem uint64LE_put (x : Nat) (hx : x < 2 ^ 64) (rest : List Nat) :
    uint64LE ((putUint64LE x ++ rest).take 8) = x := by
  rw [List.take_append_of_le_length (by rw [putUint64LE_length]),
    List.take_of_length_le (by rw [putUint64LE_length]), putUint64LE_eq]
  simp [uint64LE, List.range_succ]
  omega

/-- Dropping eight bytes skips one encoded word. -/
theorem drop_put (x : Nat) (rest : List Nat) : (putUint64LE x ++ rest).drop 8 = rest := by
  rw [List.drop_append_of_le_length (le_of_eq (putUint64LE_length x).symm),
    List.drop_of_length_le (le_of_eq (putUint64LE_length x)), List.nil_append]

theorem encodeEntries_length (es : List Nat) : (encodeEntries es).length = 8 * es.length := by
  induction es with
  | nil => rfl
  | cons e es ih => simp [encodeEntries, putUint64LE_length, ih]; omega

/-- Decoding the bytes of a sequence of 64-bit entries gives the sequence. -/
theorem decodeEntries_encode (es : List Nat) (h : ∀ e ∈ es, e < 2 ^ 64) :
    decodeEntries (encodeEntries es) = es := by
  induction es with
  | nil => simp [decodeEntries, encodeEntries, DBEntrySize]
  | cons e es ih =>
    have ih' := ih (fun x hx => h x (by simp [hx]))
    have he := h e (by simp)
    unfold decodeEntries at ih' ⊢
    have hlen : (encodeEntries (e :: es)).length / DBEntrySize = es.length + 1 := by
      rw [encodeEntries_length]; simp [DBEntrySize]
    have hlen' : (encodeEntries es).length / DBEntrySize = es.length := by
      rw [encodeEntries_length]; simp [DBEntrySize]
    rw [hlen, List.range_succ_eq_map, List.map_cons, List.map_map]
    rw [hlen'] at ih'
    congr 1
    · simp only [encodeEntries, Nat.zero_mul, List.drop_zero, DBEntrySize]
      exact uint64LE_put e he _
    · refine Eq.trans ?_ ih'
      apply List.map_congr_left
      intro i _
      simp only [Function.comp, encodeEntries, DBEntrySize]
      congr 2
      rw [show i.succ * 8 = 8 + i * 8 by omega, ← List.drop_drop]
      congr 1


/-- `loadServer` reads back what `generateHint` wrote. -/
theorem loadServer_generateHint (es : List Nat) (chunkSize setSize : Nat)
    (he : ∀ e ∈ es, e < 2 ^ 64) (hc : chunkSize < 2 ^ 64) (hs : setSize < 2 ^ 64) :
    loadServer (generateHint (encodeEntries es) chunkSize setSize) =
      some { database := es, dbSize := DBSize, chunkSize := chunkSize, setSize := setSize } := by
  have hD : DBSize < 2 ^ 64 := lt_trans DBSize_lt (by norm_num)
  have h0 : generateHint (encodeEntries es) chunkSize setSize =
      putUint64LE DBSize ++ (putUint64LE chunkSize ++ (putUint64LE setSize ++
        (putUint64LE 0 ++ encodeEntries es))) := by
    simp [generateHint]
  have hlen : ¬ (generateHint (encodeEntries es) chunkSize setSize).length < 32 := by
    rw [h0]; simp [putUint64LE_length]; omega
  have hd8 : (generateHint (encodeEntries es) chunkSize setSize).drop 8 =
      putUint64LE chunkSize ++ (putUint64LE setSize ++ (putUint64LE 0 ++ encodeEntries es)) := by
    rw [h0, drop_put]
  have hd16 : (generateHint (encodeEntries es) chunkSize setSize).drop 16 =
      putUint64LE setSize ++ (putUint64LE 0 ++ encodeEntries es) := by
    have : (generateHint (encodeEntries es) chunkSize setSize).drop 16 =
        ((generateHint (encodeEntries es) chunkSize setSize).drop 8).drop 8 := by
      rw [List.drop_drop]
    rw [this, hd8, drop_put]
  have hd32 : (generateHint (encodeEntries es) chunkSize setSize).drop 32 = encodeEntries es := by
    have : (generateHint (encodeEntries es) chunkSize setSize).drop 32 =
        (((generateHint (encodeEntries es) chunkSize setSize).drop 16).drop 8).drop 8 := by
      rw [List.drop_drop, List.drop_drop]
    rw [this, hd16, drop_put, drop_put]
  unfold loadServer
  rw [if_neg hlen, hd8, hd16, hd32, decodeEntries_encode es he, uint64LE_put _ hc,
    uint64LE_put _ hs]
  rw [h0, uint64LE_put _ hD]


/-- `loadDatabase` reads back what `generateHint` wrote. -/
theorem loadDatabase_generateHint (es : List Nat) (chunkSize setSize : Nat)
    (he : ∀ e ∈ es, e < 2 ^ 64) (hc : chunkSize < 2 ^ 64) (hs : setSize < 2 ^ 64) :
    loadDatabase (generateHint (encodeEntries es) chunkSize setSize) =
      some (es, chunkSize, setSize) := by
  have h := loadServer_generateHint es chunkSize setSize he hc hs
  unfold loadServer at h
  unfold loadDatabase
  split_ifs at h ⊢ with hlen
  simp only [Option.some.injEq, PlinkoPIRServer.mk.injEq] at h
  obtain ⟨h1, _, h3, h4⟩ := h
  rw [h1, h3, h4]

/-- C14: for every chunk size, set size and entry sequence (all 64-bit), the
snapshot that `generateHint` writes (32-byte little-endian header, then the
entries as little-endian 64-bit words) is decoded by `loadServer` to the same
entry sequence with the header fields `DBSize`, `ChunkSize`, `SetSize`, and by
`loadDatabase` to the same entry sequence, `ChunkSize` and `SetSize`. -/
theorem C14_snapshot_round_trip (es : List Nat) (chunkSize setSize : Nat)
    (he : ∀ e ∈ es, e < 2 ^ 64) (hc : chunkSize < 2 ^ 64) (hs : setSize < 2 ^ 64) :
    loadServer (generateHint (encodeEntries es) chunkSize setSize) =
      some { database := es, dbSize := DBSize, chunkSize := chunkSize, setSize := setSize } ∧
    loadDatabase (generateHint (encodeEntries es) chunkSize setSize) =
      some (es, chunkSize, setSize) :=
  ⟨loadServer_generateHint es chunkSize setSize he hc hs,
   loadDatabase_generateHint es chunkSize setSize he hc hs⟩

/-- Witness of C14: three entries, chunk size 2, set size 4. -/
theorem C14_witness :
    loadServer (generateHint (encodeEntries [7, 2 ^ 63, 300]) 2 4) =
      some { database := [7, 2 ^ 63, 300], dbSize := DBSize, chunkSize := 2, setSize := 4 } ∧
    loadDatabase (generateHint (encodeEntries [7, 2 ^ 63, 300]) 2 4) =
      some ([7, 2 ^ 63, 300], 2, 4) :=
  C14_snapshot_round_trip [7, 2 ^ 63, 300] 2 4 (by decide) (by decide) (by decide)

/-- C15, as stated, fails on a snapshot of 33 zero bytes: one byte follows the
header, which is not a whole number of 8-byte entries, and both loaders accept
the file (with no entry). -/
theorem C15_counterexample :
    ¬ ((List.replicate 33 0).length < 32) ∧
    ((List.replicate 33 0).length - 32) % 8 ≠ 0 ∧
    loadServer (List.replicate 33 0) =
      some { database := [], dbSize := 0, chunkSize := 0, setSize := 0 } ∧
    loadDatabase (List.replicate 33 0) = some ([], 0, 0) := by
  decide

/-- C15, amended: loading a snapshot fails exactly when it has fewer than 32
bytes, in `loadServer` and in `loadDatabase`; otherwise it yields
`⌊(len - 32) / 8⌋` entries, and bytes after the last whole entry are ignored. -/
theorem C15_load_fails_iff_short_header (data : List Nat) :
    (loadServer data = none ↔ data.length < 32) ∧
    (loadDatabase data = none ↔ data.length < 32) ∧
    (∀ s, loadServer data = some s → s.database.length = (data.length - 32) / 8) ∧
    (∀ r, loadDatabase data = some r → r.1.length = (data.length - 32) / 8) := by
  unfold loadServer loadDatabase
  by_cases h : data.length < 32
  · simp [h]
  · simp only [h, if_false]
    refine ⟨by simp, by simp, ?_, ?_⟩
    · intro s hs
      simp only [Option.some.injEq] at hs
      subst hs
      simp [decodeEntries, DBEntrySize]
    · intro r hr
      simp only [Option.some.injEq] at hr
      subst hr
      simp [decodeEntries, DBEntrySize]

/-! ## More on `ApplyUpdates` -/

/-- The update with the largest `uint64` index passes the guard of
`applyDatabaseUpdate` (`endIdx` wraps to 0) and aborts on the write. -/
theorem applyDatabaseUpdate_maxIndex (db : List Nat) (old new : Nat)
    (hslice : db.length < 2 ^ 63) :
    applyDatabaseUpdate db ⟨2 ^ 64 - 1, old, new⟩ = .indexOutOfRange := by
  have h1 : ¬ (2 ^ 64 - 1 < db.length) := by omega
  simp [applyDatabaseUpdate, DBEntryLength, U64, h1]
  omega

/-- C16 (the largest index): on a database of `DBSize` entries, `ApplyUpdates`
on the update with `Index = 2^64 - 1` aborts with a slice access out of range,
in `applyDatabaseUpdate`, whichever mode the manager is in. -/
theorem C16_maxIndex_update_aborts (S : Sampler) (fuel : Nat) (cache : List Nat)
    (mode : Bool) :
    PlinkoUpdateManager.ApplyUpdates S fuel
      { NewPlinkoUpdateManager DBSize (List.replicate DBSize 0) 8192 1024 with
        indexToHint := cache, useCacheMode := mode }
      [⟨2 ^ 64 - 1, 0, 1⟩] = .indexOutOfRange := by
  have h := applyDatabaseUpdate_maxIndex (List.replicate DBSize 0) 0 1
    (by rw [List.length_replicate]; unfold DBSize; norm_num)
  unfold PlinkoUpdateManager.ApplyUpdates
  rw [applyLoop]
  simp only [NewPlinkoUpdateManager]
  rw [h]
  rfl

/-! ## The two keyed mix functions -/

/-- The byte `(x >> (i*8)) & 0xFF` is the `i`-th little-endian byte of `x`. -/
theorem shift_mask_byte (x i : Nat) : (x >>> (i * 8)) &&& 0xFF = (x / 256 ^ i) % 256 := by
  rw [Nat.shiftRight_eq_div_pow, show (0xFF : Nat) = 2 ^ 8 - 1 by norm_num,
    Nat.and_pow_two_sub_one_eq_mod, Nat.mul_comm, pow_mul]
  norm_num

/-- The second loop of `prfEval` absorbs the bytes that `prfEvalMod` absorbs. -/
theorem fnvMix_eq (hash x : Nat) : fnvMix hash x = (putUint64LE x).foldl fnvStep hash := by
  have hf : (fun h i => fnvStep h ((x >>> (i * 8)) &&& 0xFF)) =
      (fun h i => fnvStep h ((x / 256 ^ i) % 256)) := by
    funext h i
    rw [shift_mask_byte]
  unfold fnvMix putUint64LE
  rw [List.foldl_map, hf]

/-- C17: for every key and every `x`, `prfEval(key, x)` is the low 32 bits of
the 64-bit accumulator of `PRSet.prfEvalMod`: `prfEval(key, x) =
PRSet{key}.prfEvalMod(x, 2^32)`. -/
theorem C17_prfEval_is_prfEvalMod_mod_2_32 (key : PrfKey128) (x : Nat) :
    prfEval key x = (NewPRSet key).prfEvalMod x (2 ^ 32) := by
  unfold prfEval PRSet.prfEvalMod NewPRSet
  rw [if_neg (by norm_num), fnvMix_eq, show (0xFFFFFFFF : Nat) = 2 ^ 32 - 1 by norm_num,
    Nat.and_pow_two_sub_one_eq_mod]

/-! ## The loop of `traceBall`: final state and number of iterations -/

/-- The bin that `traceLoop` returns is the final `low` of `traceRun`. -/
theorem traceLoop_eq_traceRun (S : Sampler) (key : PrfKey128) (n : Nat) :
    ∀ (fuel low high ballCount ballIndex iters : Nat),
      traceLoop S key n fuel low high ballCount ballIndex =
        (traceRun S key n fuel low high ballCount ballIndex iters).bind fun r => .ok r.1 := by
  intro fuel
  induction fuel with
  | zero =>
    intro low high ballCount ballIndex iters
    by_cases h : low < high <;> simp [traceLoop, traceRun, h, Outcome.bind]
  | succ fuel ih =>
    intro low high ballCount ballIndex iters
    rw [traceLoop, traceRun]
    by_cases h : low < high
    · simp only [h, if_true]
      split
      · exact ih _ _ _ _ _
      · exact ih _ _ _ _ _
    · simp [h, Outcome.bind]

/-- On an interval `low ≤ high < 2^63` the loop ends with `low = high` inside
the interval after at most `⌈log2 (high - low + 1)⌉` iterations, whatever the
sampler answers. -/
theorem traceRun_spec (S : Sampler) (key : PrfKey128) (n : Nat) :
    ∀ (fuel low high ballCount ballIndex iters : Nat), low ≤ high → high < 2 ^ 63 →
      Nat.clog 2 (high - low + 1) ≤ fuel →
      ∃ y k, traceRun S key n fuel low high ballCount ballIndex iters = .ok (y, y, iters + k) ∧
        low ≤ y ∧ y ≤ high ∧ k ≤ Nat.clog 2 (high - low + 1) := by
  intro fuel
  induction fuel with
  | zero =>
    intro low high ballCount ballIndex iters hle hhi hfuel
    have hw : high - low + 1 ≤ 1 := by
      by_contra hcon
      have h2 : 2 ≤ high - low + 1 := by omega
      have := Nat.clog_of_two_le (b := 2) (by decide) h2
      omega
    have heq : low = high := by omega
    subst heq
    exact ⟨low, 0, by simp [traceRun], le_refl _, le_refl _, Nat.zero_le _⟩
  | succ fuel ih =>
    intro low high ballCount ballIndex iters hle hhi hfuel
    by_cases hlt : low < high
    · have hsum : (low + high) % U64 = low + high := by
        apply Nat.mod_eq_of_lt
        simp only [U64]; omega
      have hmid1 : low ≤ (low + high) / 2 := by omega
      have hmid2 : (low + high) / 2 < high := by omega
      have hsucc : ((low + high) / 2 + 1) % U64 = (low + high) / 2 + 1 := by
        apply Nat.mod_eq_of_lt
        simp only [U64]; omega
      have hw : 2 ≤ high - low + 1 := by omega
      have hpos : 0 < Nat.clog 2 (high - low + 1) := Nat.clog_pos (by decide) hw
      have hstep : ∀ v, v ≤ (high - low + 1 + 1) / 2 →
          Nat.clog 2 v ≤ fuel ∧ Nat.clog 2 v + 1 ≤ Nat.clog 2 (high - low + 1) := by
        intro v hv
        refine ⟨clog_half_le hw hv hfuel, ?_⟩
        have := @clog_half_le (high - low + 1) v (Nat.clog 2 (high - low + 1) - 1) hw hv
          (by omega)
        omega
      rw [traceRun]
      simp only [hlt, if_true, hsum, hsucc]
      split
      · obtain ⟨h1, h2⟩ := hstep ((low + high) / 2 - low + 1) (by omega)
        obtain ⟨y, k, hy, hy1, hy2, hk⟩ := ih low ((low + high) / 2)
          (S key (encodeNode low high n) ballCount (((low + high) / 2 + U64 - low + 1) % U64)
            ((high + U64 - low + 1) % U64) % U64) ballIndex (iters + 1) hmid1 (by omega) h1
        exact ⟨y, k + 1, by rw [hy]; congr 3; omega, hy1, by omega, by omega⟩
      · obtain ⟨h1, h2⟩ := hstep (high - ((low + high) / 2 + 1) + 1) (by omega)
        obtain ⟨y, k, hy, hy1, hy2, hk⟩ := ih ((low + high) / 2 + 1) high
          ((ballCount + U64 - S key (encodeNode low high n) ballCount
            (((low + high) / 2 + U64 - low + 1) % U64) ((high + U64 - low + 1) % U64) % U64) % U64)
          ((ballIndex + U64 - S key (encodeNode low high n) ballCount
            (((low + high) / 2 + U64 - low + 1) % U64) ((high + U64 - low + 1) % U64) % U64) % U64)
          (iters + 1) (by omega) hhi h1
        exact ⟨y, k + 1, by rw [hy]; congr 3; omega, by omega, hy2, by omega⟩
    · have heq : low = high := by omega
      subst heq
      exact ⟨low, 0, by simp [traceRun], le_refl _, le_refl _, Nat.zero_le _⟩

/-- C19, amended: for every key, domain `n`, range `1 ≤ m ≤ 2^63` and `x < n`,
the loop of `traceBall` ends with `low = high` after at most `⌈log2 m⌉`
iterations (one sample per iteration), whatever counts the sampler answers,
and `traceBall` returns that bin; for `m = 1` it runs no iteration and returns
0. -/
theorem C19_traceBall_terminates_within_log (S : Sampler) (key : PrfKey128)
    (n m x fuel : Nat) (hm1 : 1 ≤ m) (hm2 : m ≤ 2 ^ 63) (_hx : x < n)
    (hfuel : Nat.clog 2 m ≤ fuel) :
    (∃ y k, traceRun S key n fuel 0 (m - 1) n x 0 = .ok (y, y, k) ∧
      k ≤ Nat.clog 2 m ∧ y < m ∧ traceBall S fuel key x n m = .ok y) ∧
    (m = 1 → traceBall S 0 key x n m = .ok 0) := by
  constructor
  · obtain ⟨y, k, hy, _, hy2, hk⟩ := traceRun_spec S key n fuel 0 (m - 1) n x 0 (Nat.zero_le _)
      (by omega) (by simpa [Nat.sub_add_cancel hm1] using hfuel)
    rw [Nat.zero_add] at hy
    rw [Nat.sub_zero, Nat.sub_add_cancel hm1] at hk
    refine ⟨y, k, hy, hk, by omega, ?_⟩
    unfold traceBall
    by_cases h1 : m = 1
    · subst h1
      simp only [if_true]
      have : traceRun S key n fuel 0 0 n x 0 = .ok (0, 0, 0) := by
        cases fuel <;> simp [traceRun]
      rw [show (1 : Nat) - 1 = 0 by rfl, this] at hy
      simp only [Outcome.ok.injEq, Prod.mk.injEq] at hy
      rw [← hy.1]
    · have hhigh : (m + U64 - 1) % U64 = m - 1 := by
        have : m + U64 - 1 = (m - 1) + U64 := by omega
        rw [this, Nat.add_mod_right]
        apply Nat.mod_eq_of_lt
        simp only [U64]; omega
      rw [if_neg h1, hhigh, traceLoop_eq_traceRun S key n fuel 0 (m - 1) n x 0, hy]
      rfl
  · intro h1
    simp [traceBall, h1]

/-- Witness of C19: ten balls, four bins, a sampler that sends half of the
balls of a node to the left, ball 7, two iterations allowed. -/
theorem C19_witness :
    (∃ y k, traceRun (fun _ _ ballCount _ _ => ballCount / 2) managerKey 10 2 0 (4 - 1) 10 7 0 =
        .ok (y, y, k) ∧
      k ≤ Nat.clog 2 4 ∧ y < 4 ∧
      traceBall (fun _ _ ballCount _ _ => ballCount / 2) 2 managerKey 7 10 4 = .ok y) ∧
    (4 = 1 → traceBall (fun _ _ ballCount _ _ => ballCount / 2) 0 managerKey 7 10 4 = .ok 0) :=
  C19_traceBall_terminates_within_log (fun _ _ ballCount _ _ => ballCount / 2) managerKey
    10 4 7 2 (by decide) (by decide) (by decide)
    ((Nat.le_pow_iff_clog_le (by decide)).1 (by decide))

/-! ## Padding -/

/-- An update at an index that lies at or past `dbSize` but inside a longer
database of zeros is written there by `ApplyUpdates` in non-cache mode. -/
theorem applyUpdates_writes_padding (S : Sampler) (fuel dbSize total c s idx : Nat)
    (h1 : idx < total) (h2 : total < 2 ^ 63) (h3 : dbSize ≤ idx) :
    ∃ deltas pm',
      (NewPlinkoUpdateManager dbSize (List.replicate total 0) c s).ApplyUpdates S fuel
        [⟨idx, 0, 1⟩] = .ok (deltas, pm') ∧
      idx < pm'.database.length ∧ pm'.database[idx]? = some 1 := by
  have hlen : (List.replicate total 0).length = total := List.length_replicate _ _
  have hw := applyDatabaseUpdate_inRange (List.replicate total 0) ⟨idx, 0, 1⟩
    (by rw [hlen]; exact h2) (by rw [hlen]; exact h1)
  have hf := forward_outside S fuel (NewIPRF managerKey dbSize s) idx h3
  refine ⟨[⟨0, false, 0 ^^^ 1⟩],
    { NewPlinkoUpdateManager dbSize (List.replicate total 0) c s with
      database := (List.replicate total 0).set idx 1 }, ?_, ?_, ?_⟩
  · unfold PlinkoUpdateManager.ApplyUpdates
    rw [applyLoop]
    simp only [NewPlinkoUpdateManager, PlinkoUpdateManager.hintSetOf, Bool.false_eq_true,
      if_false]
    rw [hw, Outcome.bind_ok, hf, Outcome.bind_ok, applyLoop]
    rfl
  · show idx < ((List.replicate total 0).set idx 1).length
    rw [List.length_set, hlen]; exact h1
  · show ((List.replicate total 0).set idx 1)[idx]? = some 1
    rw [List.getElem?_set_self (by rw [hlen]; exact h1)]

/-- C20, as stated, fails when the database is longer than `DBSize`: on
`8421376 = 8192 * 1028` zero entries the update `{Index: DBSize, NewValue: 1}`
is in range of the slice, and `ApplyUpdates` writes 1 at the padding index
`DBSize`. -/
theorem C20_counterexample :
    DBSize < 8421376 ∧
    ∃ deltas pm',
      (NewPlinkoUpdateManager DBSize (List.replicate 8421376 0) 8192 1028).ApplyUpdates
        (floatSampler ieee) 64 [⟨DBSize, 0, 1⟩] = .ok (deltas, pm') ∧
      DBSize < pm'.database.length ∧ pm'.database[DBSize]? = some 1 :=
  ⟨by unfold DBSize; norm_num,
   applyUpdates_writes_padding (floatSampler ieee) 64 DBSize 8421376 8192 1028 DBSize
     (by unfold DBSize; norm_num) (by norm_num) (le_refl _)⟩

/-- One call of `applyDatabaseUpdate` with an index outside
`[dbSize, len(database))` keeps the length of the database and the zeros at
the indices from `dbSize` on, whenever it returns. -/
theorem applyDatabaseUpdate_keeps_padding (dbSize : Nat) (db db2 : List Nat) (u : DBUpdate)
    (hslice : db.length < 2 ^ 63) (hu : u.Index < 2 ^ 64)
    (hout : u.Index < dbSize ∨ db.length ≤ u.Index)
    (hpad : ∀ i, dbSize ≤ i → i < db.length → db[i]? = some 0)
    (h : applyDatabaseUpdate db u = .ok db2) :
    db2.length = db.length ∧ ∀ i, dbSize ≤ i → i < db2.length → db2[i]? = some 0 := by
  by_cases hin : u.Index < db.length
  · rw [applyDatabaseUpdate_inRange db u hslice hin, Outcome.ok.injEq] at h
    subst h
    have hlt : u.Index < dbSize := by omega
    refine ⟨List.length_set _ _ _, ?_⟩
    intro i hi1 hi2
    rw [List.length_set] at hi2
    rw [List.getElem?_set_ne (by omega)]
    exact hpad i hi1 hi2
  · by_cases hmax : u.Index < 2 ^ 64 - 1
    · rw [applyDatabaseUpdate_skip db u (by omega) hmax, Outcome.ok.injEq] at h
      subst h
      exact ⟨rfl, hpad⟩
    · obtain ⟨idx, old, new⟩ := u
      have hidx : idx = 2 ^ 64 - 1 := by
        simp only at hu hmax
        omega
      subst hidx
      rw [applyDatabaseUpdate_maxIndex db old new hslice] at h
      exact absurd h (by simp)

/-- The loop of `ApplyUpdates` on a batch with no index in
`[dbSize, len(database))`: whenever it returns, the database has its length
and its zeros from `dbSize` on. -/
theorem applyLoop_keeps_padding (S : Sampler) (fuel dbSize : Nat) :
    ∀ (ups : List DBUpdate) (pm : PlinkoUpdateManager) (acc deltas : List HintDelta)
      (pm' : PlinkoUpdateManager),
      pm.database.length < 2 ^ 63 →
      (∀ u ∈ ups, u.Index < 2 ^ 64 ∧ (u.Index < dbSize ∨ pm.database.length ≤ u.Index)) →
      (∀ i, dbSize ≤ i → i < pm.database.length → pm.database[i]? = some 0) →
      applyLoop S fuel pm ups acc = .ok (deltas, pm') →
      pm'.database.length = pm.database.length ∧
      ∀ i, dbSize ≤ i → i < pm'.database.length → pm'.database[i]? = some 0 := by
  intro ups
  induction ups with
  | nil =>
    intro pm acc deltas pm' _ _ hpad h
    simp only [applyLoop, Outcome.ok.injEq, Prod.mk.injEq] at h
    rw [← h.2]
    exact ⟨rfl, hpad⟩
  | cons u us ih =>
    intro pm acc deltas pm' hslice hout hpad h
    rw [applyLoop] at h
    cases hA : applyDatabaseUpdate pm.database u with
    | ok db2 =>
      rw [hA, Outcome.bind_ok] at h
      obtain ⟨hlen, hpad2⟩ := applyDatabaseUpdate_keeps_padding dbSize pm.database db2 u
        hslice (hout u (by simp)).1 (hout u (by simp)).2 hpad hA
      cases hH : pm.hintSetOf S fuel u.Index with
      | ok hset =>
        rw [hH, Outcome.bind_ok] at h
        obtain ⟨h1, h2⟩ := ih { pm with database := db2 } _ deltas pm'
          (by simpa [hlen] using hslice)
          (fun v hv => by simpa [hlen] using hout v (by simp [hv]))
          hpad2 h
        exact ⟨by rw [h1]; exact hlen, h2⟩
      | indexOutOfRange => rw [hH] at h; simp [Outcome.bind] at h
      | outOfFuel => rw [hH] at h; simp [Outcome.bind] at h
    | indexOutOfRange => rw [hA] at h; simp [Outcome.bind] at h
    | outOfFuel => rw [hA] at h; simp [Outcome.bind] at h

/-- The loop of `ApplyUpdates` returns when no index is the largest `uint64`
and every hint set resolves. -/
theorem applyLoop_returns (S : Sampler) (fuel : Nat) :
    ∀ (ups : List DBUpdate) (pm : PlinkoUpdateManager) (acc : List HintDelta),
      pm.database.length < 2 ^ 63 →
      (∀ u ∈ ups, u.Index < 2 ^ 64 - 1) →
      (∀ u ∈ ups, ∃ hset, pm.hintSetOf S fuel u.Index = .ok hset) →
      ∃ deltas pm', applyLoop S fuel pm ups acc = .ok (deltas, pm') := by
  intro ups
  induction ups with
  | nil => intro pm acc _ _ _; exact ⟨acc, pm, rfl⟩
  | cons u us ih =>
    intro pm acc hslice hmax hres
    obtain ⟨hset, hh⟩ := hres u (by simp)
    have hstep : ∃ db2, applyDatabaseUpdate pm.database u = .ok db2 ∧
        db2.length = pm.database.length := by
      by_cases hin : u.Index < pm.database.length
      · exact ⟨_, applyDatabaseUpdate_inRange _ u hslice hin, List.length_set _ _ _⟩
      · exact ⟨_, applyDatabaseUpdate_skip _ u (by omega) (hmax u (by simp)), rfl⟩
    obtain ⟨db2, hA, hlen⟩ := hstep
    rw [applyLoop, hA, Outcome.bind_ok, hh, Outcome.bind_ok]
    exact ih { pm with database := db2 } _ (by simpa [hlen] using hslice)
      (fun v hv => hmax v (by simp [hv]))
      (fun v hv => by simpa [PlinkoUpdateManager.hintSetOf] using hres v (by simp [hv]))

/-- C20, amended: if the database holds zero at every index in
`[DBSize, len(database))` and no update of the batch has its index in
`[DBSize, len(database))`, then whenever `ApplyUpdates` returns, the database
has its length and every index in `[DBSize, len(database))` still holds zero.
`ApplyUpdates` does return on such a batch for an iPRF range `1 ≤ m ≤ 2^63`
when no index is `2^64 - 1`, in non-cache mode, and in cache mode with a cache
built by `EnableCacheMode` that spans the indices of the batch. -/
theorem C20_padding_stays_zero (S : Sampler) (fuel dbSize : Nat)
    (pm : PlinkoUpdateManager) (ups : List DBUpdate)
    (hslice : pm.database.length < 2 ^ 63)
    (hpad : ∀ i, dbSize ≤ i → i < pm.database.length → pm.database[i]? = some 0)
    (hout : ∀ u ∈ ups,
      u.Index < 2 ^ 64 ∧ (u.Index < dbSize ∨ pm.database.length ≤ u.Index)) :
    (∀ deltas pm', pm.ApplyUpdates S fuel ups = .ok (deltas, pm') →
      pm'.database.length = pm.database.length ∧
      ∀ i, dbSize ≤ i → i < pm'.database.length → pm'.database[i]? = some 0) ∧
    (1 ≤ pm.iprf.range_ → pm.iprf.range_ ≤ 2 ^ 63 → Nat.clog 2 pm.iprf.range_ ≤ fuel →
      (∀ u ∈ ups, u.Index ≠ 2 ^ 64 - 1) →
      (pm.useCacheMode = true →
        cacheLoop S fuel pm.iprf (List.range dbSize) = .ok pm.indexToHint ∧
        ∀ u ∈ ups, u.Index < dbSize) →
      ∃ deltas pm', pm.ApplyUpdates S fuel ups = .ok (deltas, pm')) := by
  constructor
  · intro deltas pm' h
    exact applyLoop_keeps_padding S fuel dbSize ups pm [] deltas pm' hslice hout hpad h
  · intro hm1 hm2 hfuel hmax hcache
    refine applyLoop_returns S fuel ups pm [] hslice
      (fun u hu => by have := (hout u hu).1; have := hmax u hu; omega) ?_
    intro u hu
    rw [hintSetOf_eq_forward S fuel dbSize pm u.Index
      (fun hm => ⟨(hcache hm).1, (hcache hm).2 u hu⟩)]
    obtain ⟨y, hy, _⟩ := forward_returns S fuel pm.iprf u.Index hm1 hm2 hfuel
    exact ⟨y, hy⟩

/-- Witness of C20: six entries of which the last two are padding; two updates
below `dbSize = 4` and one past the database. -/
theorem C20_witness :
    ∃ deltas pm',
      (NewPlinkoUpdateManager 4 [10, 20, 30, 40, 0, 0] 2 3).ApplyUpdates (fun _ _ _ _ _ => 0) 2
        [⟨1, 20, 21⟩, ⟨9, 0, 7⟩, ⟨3, 40, 7⟩] = .ok (deltas, pm') ∧
      pm'.database.length = 6 ∧
      ∀ i, 4 ≤ i → i < pm'.database.length → pm'.database[i]? = some 0 := by
  obtain ⟨hA, hB⟩ := C20_padding_stays_zero (fun _ _ _ _ _ => 0) 2 4
    (NewPlinkoUpdateManager 4 [10, 20, 30, 40, 0, 0] 2 3)
    [⟨1, 20, 21⟩, ⟨9, 0, 7⟩, ⟨3, 40, 7⟩]
    (by simp [NewPlinkoUpdateManager]) (by decide) (by decide)
  obtain ⟨deltas, pm', hrun⟩ := hB (by decide) (by simp [NewPlinkoUpdateManager, NewIPRF])
    ((Nat.le_pow_iff_clog_le (by decide)).1 (by decide)) (by decide)
    (fun h => absurd h (by decide))
  exact ⟨deltas, pm', hrun, (hA deltas pm' hrun).1, (hA deltas pm' hrun).2⟩

/-! ## Facts about the binomial sampler -/

/-- The exact-CDF loop returns `k + 1` for an iteration `k < n`, or `n`. -/
theorem cdfLoop_le (F : FloatOps) (n : Nat) (p q u : ℚ) :
    ∀ (remaining k : Nat) (prob cumProb : ℚ), k + remaining = n →
      cdfLoop F n p q u remaining k prob cumProb ≤ n := by
  intro remaining
  induction remaining with
  | zero => intro k prob cumProb _; simp [cdfLoop]
  | succ remaining ih =>
    intro k prob cumProb hk
    rw [cdfLoop]
    split
    · omega
    · exact ih (k + 1) _ _ (by omega)

/-- The final clamp of `normalApproxBinomial` keeps the count within `[0, n]`
when `float64(n)` is `n` itself. -/
theorem clamp_le (n : Nat) (hn : n ≤ 2 ^ 53) (result : ℚ) :
    (if result < 0 then 0 else if result > toFloat64 n then n else roundToUint64 result) ≤ n := by
  split
  · exact Nat.zero_le _
  · split
    · exact le_refl _
    · rename_i h1 h2
      rw [toFloat64_exact n hn] at h2
      have h3 := not_lt.1 h2
      unfold roundToUint64
      refine le_trans (Nat.mod_le _ _) ?_
      have h4 : ⌊result + 1 / 2⌋ < (n : ℤ) + 1 := by
        rw [Int.floor_lt]
        push_cast
        linarith
      omega

/-- The normal approximation stays within `[0, n]` for `n ≤ 2^53`. -/
theorem normalApproxBinomial_le (F : FloatOps) (n : Nat) (p u : ℚ) (hn : n ≤ 2 ^ 53) :
    normalApproxBinomial F n p u ≤ n :=
  clamp_le n hn _

/-- `binomialInverseCDF` stays within `[0, n]` for `n ≤ 2^53`. -/
theorem binomialInverseCDF_le (F : FloatOps) (n : Nat) (p u : ℚ) (hn : n ≤ 2 ^ 53) :
    binomialInverseCDF F n p u ≤ n := by
  unfold binomialInverseCDF
  split
  · exact Nat.zero_le _
  · split
    · exact le_refl _
    · split
      · exact Nat.zero_le _
      · split
        · exact normalApproxBinomial_le F n p u hn
        · simp only
          split
          · exact Nat.zero_le _
          · exact cdfLoop_le F n p _ u n 0 _ _ (by omega)

/-- A rational strictly within one half of an integer rounds to it. -/
theorem roundNearestEven_eval (q : ℚ) (m : ℤ) (h1 : (m : ℚ) - 1 / 2 < q)
    (h2 : q < (m : ℚ) + 1 / 2) : roundNearestEven q = m := by
  unfold roundNearestEven
  by_cases hq : (m : ℚ) ≤ q
  · have hf : ⌊q⌋ = m := by
      rw [Int.floor_eq_iff]
      constructor
      · exact hq
      · linarith
    rw [hf, if_pos (by linarith)]
  · have hf : ⌊q⌋ = m - 1 := by
      rw [Int.floor_eq_iff]
      push_cast
      constructor <;> linarith
    rw [hf]
    push_cast
    rw [if_neg (by linarith), if_pos (by linarith)]
    ring

/-- The binary64 nearest to `x`, from its binade `2^e ≤ |x| < 2^(e+1)` and the
integer `m` nearest to `x / 2^(e-52)`. -/
theorem roundFloat64_eval (x : ℚ) (e m : ℤ) (h1 : (2 : ℚ) ^ e ≤ |x|)
    (h2 : |x| < (2 : ℚ) ^ (e + 1)) (h3 : -1022 ≤ e)
    (hm1 : (m : ℚ) - 1 / 2 < x / 2 ^ (e - 52)) (hm2 : x / 2 ^ (e - 52) < (m : ℚ) + 1 / 2) :
    roundFloat64 x = m * 2 ^ (e - 52) := by
  have hpos : 0 < |x| := lt_of_lt_of_le (by positivity) h1
  have hx : x ≠ 0 := abs_pos.1 hpos
  have hlog : Int.log 2 |x| = e := by
    have ha : e ≤ Int.log 2 |x| := (Int.zpow_le_iff_le_log (by norm_num) hpos).1 (by simpa using h1)
    have hb : Int.log 2 |x| < e + 1 :=
      (Int.lt_zpow_iff_log_lt (by norm_num) hpos).1 (by simpa using h2)
    omega
  unfold roundFloat64
  rw [if_neg hx]
  simp only [hlog, max_eq_left h3]
  rw [roundNearestEven_eval _ m hm1 hm2]

/-! ### One evaluation of the sampler in IEEE arithmetic -/

theorem rf_one : roundFloat64 1 = 1 := by
  rw [roundFloat64_eval 1 0 (2 ^ 52) (by norm_num) (by norm_num) (by norm_num)
    (by norm_num) (by norm_num)]
  norm_num

theorem rf_two : roundFloat64 2 = 2 := by
  rw [roundFloat64_eval 2 1 (2 ^ 52) (by norm_num) (by norm_num) (by norm_num)
    (by norm_num) (by norm_num)]
  norm_num

theorem rf_half : roundFloat64 0.5 = 1 / 2 := by
  rw [roundFloat64_eval 0.5 (-1) (2 ^ 52) (by norm_num [abs_of_pos])
    (by norm_num [abs_of_pos]) (by norm_num) (by norm_num) (by norm_num)]
  norm_num

theorem rf_milli : roundFloat64 0.001 = 4611686018427388 / 2 ^ 62 := by
  rw [roundFloat64_eval 0.001 (-10) 4611686018427388 (by norm_num [abs_of_pos])
    (by norm_num [abs_of_pos]) (by norm_num) (by norm_num) (by norm_num)]
  norm_num

theorem rf_999 : roundFloat64 0.999 = 8998192055486251 / 2 ^ 53 := by
  rw [roundFloat64_eval 0.999 (-1) 8998192055486251 (by norm_num [abs_of_pos])
    (by norm_num [abs_of_pos]) (by norm_num) (by norm_num) (by norm_num)]
  norm_num

theorem rf_042 : roundFloat64 0.42 = 7566047373982433 / 2 ^ 54 := by
  rw [roundFloat64_eval 0.42 (-2) 7566047373982433 (by norm_num [abs_of_pos])
    (by norm_num [abs_of_pos]) (by norm_num) (by norm_num) (by norm_num)]
  norm_num

theorem rf_prf_succ : roundFloat64 (4186684919 + 1) = 4186684920 := by
  rw [roundFloat64_eval (4186684919 + 1) 31 8780114653347840 (by norm_num [abs_of_pos])
    (by norm_num [abs_of_pos]) (by norm_num) (by norm_num) (by norm_num)]
  norm_num

theorem rf_denominator : roundFloat64 (2 ^ 32 + 2) = 4294967298 := by
  rw [roundFloat64_eval (2 ^ 32 + 2) 32 4503599629467648 (by norm_num [abs_of_pos])
    (by norm_num [abs_of_pos]) (by norm_num) (by norm_num) (by norm_num)]
  norm_num

theorem rf_uniform : roundFloat64 (4186684920 / 4294967298) = 8780114649259281 / 2 ^ 53 := by
  rw [roundFloat64_eval (4186684920 / 4294967298) (-1) 8780114649259281
    (by norm_num [abs_of_pos]) (by norm_num [abs_of_pos]) (by norm_num) (by norm_num)
    (by norm_num)]
  norm_num

theorem rf_y : roundFloat64 (8780114649259281 / 2 ^ 53 - 1 / 2) = 4276515021888785 / 2 ^ 53 := by
  rw [roundFloat64_eval (8780114649259281 / 2 ^ 53 - 1 / 2) (-2) 8553030043777570
    (by norm_num [abs_of_pos]) (by norm_num [abs_of_pos]) (by norm_num) (by norm_num)
    (by norm_num)]
  norm_num

theorem rf_mean : roundFloat64 ((2 ^ 53 + 4) * (1 - 1 / 2 ^ 53)) = 2 ^ 53 + 2 := by
  rw [roundFloat64_eval ((2 ^ 53 + 4) * (1 - 1 / 2 ^ 53)) 53 4503599627370497
    (by norm_num [abs_of_pos]) (by norm_num [abs_of_pos]) (by norm_num) (by norm_num)
    (by norm_num)]
  norm_num

theorem rf_q : roundFloat64 (1 - (1 - 1 / 2 ^ 53)) = 1 / 2 ^ 53 := by
  rw [roundFloat64_eval (1 - (1 - 1 / 2 ^ 53)) (-53) (2 ^ 52)
    (by norm_num [abs_of_pos]) (by norm_num [abs_of_pos]) (by norm_num) (by norm_num)
    (by norm_num)]
  norm_num

theorem rf_variance : roundFloat64 ((2 ^ 53 + 2) * (1 / 2 ^ 53)) = 1 + 1 / 2 ^ 52 := by
  rw [roundFloat64_eval ((2 ^ 53 + 2) * (1 / 2 ^ 53)) 0 4503599627370497
    (by norm_num [abs_of_pos]) (by norm_num [abs_of_pos]) (by norm_num) (by norm_num)
    (by norm_num)]
  norm_num

theorem rf_two_sigma : roundFloat64 (2 * 1) = 2 := by
  rw [roundFloat64_eval (2 * 1) 1 (2 ^ 52) (by norm_num) (by norm_num) (by norm_num)
    (by norm_num) (by norm_num)]
  norm_num

theorem rf_result : roundFloat64 (2 ^ 53 + 2 + 2) = 2 ^ 53 + 4 := by
  rw [roundFloat64_eval (2 ^ 53 + 2 + 2) 53 4503599627370498
    (by norm_num [abs_of_pos]) (by norm_num [abs_of_pos]) (by norm_num) (by norm_num)
    (by norm_num)]
  norm_num

/-- The correctly rounded root of `1 + 2^-52` is 1. -/
theorem sqrtFloat64_variance : sqrtFloat64 (1 + 1 / 2 ^ 52) = 1 := by
  have hpos : (0 : ℚ) < 1 + 1 / 2 ^ 52 := by norm_num
  have hlog : Int.log 2 ((1 : ℚ) + 1 / 2 ^ 52) = 0 := by
    have ha : (0 : ℤ) ≤ Int.log 2 ((1 : ℚ) + 1 / 2 ^ 52) :=
      (Int.zpow_le_iff_le_log (by norm_num) hpos).1 (by norm_num)
    have hb : Int.log 2 ((1 : ℚ) + 1 / 2 ^ 52) < 0 + 1 :=
      (Int.lt_zpow_iff_log_lt (by norm_num) hpos).1 (by norm_num)
    omega
  have hm : ((1 : ℚ) + 1 / 2 ^ 52) * 4 ^ ((52 : ℤ) - 0 / 2) = ((2 ^ 104 + 2 ^ 52 : ℕ) : ℚ) := by
    norm_num
  have hs : Nat.sqrt (2 ^ 104 + 2 ^ 52) = 2 ^ 52 := by
    symm; rw [Nat.eq_sqrt]; norm_num
  unfold sqrtFloat64
  rw [if_neg (not_le.2 hpos)]
  simp only [hlog, hm, Nat.floor_natCast, hs]
  norm_num

/-- The uniform value that `sampleBinomial` derives for node 2 under the
manager key: `prfEval = 4186684919`, `u = 8780114649259281 / 2^53 ≈ 0.9748`. -/
theorem uniform_node2 :
    ieee.div (ieee.add ((toFloat64 (prfEval managerKey 2) : ℕ) : ℚ) (ieee.lit 1))
      (ieee.lit (2 ^ 32 + 2)) = 8780114649259281 / 2 ^ 53 := by
  have hv : prfEval managerKey 2 = 4186684919 := by decide
  have ht : toFloat64 4186684919 = 4186684919 := toFloat64_small _ (by norm_num)
  rw [hv, ht]
  show roundFloat64 (roundFloat64 (((4186684919 : ℕ) : ℚ) + roundFloat64 1) /
    roundFloat64 (2 ^ 32 + 2)) = _
  rw [rf_one, Nat.cast_ofNat, rf_prf_succ, rf_denominator, rf_uniform]

/-- In the tail `u - 0.5 ≥ 0.42` the inverse normal CDF is the constant 2. -/
theorem invNormalCDF_node2 : invNormalCDF ieee (8780114649259281 / 2 ^ 53) = 2 := by
  have hy : ieee.sub (8780114649259281 / 2 ^ 53) (ieee.lit 0.5) = 4276515021888785 / 2 ^ 53 := by
    show roundFloat64 (8780114649259281 / 2 ^ 53 - roundFloat64 0.5) = _
    rw [rf_half, rf_y]
  have h42 : ieee.lit 0.42 = 7566047373982433 / 2 ^ 54 := rf_042
  have h2 : ieee.lit 2 = 2 := rf_two
  unfold invNormalCDF
  rw [if_neg (by norm_num)]
  simp only [hy, h42, h2]
  rw [if_neg (by norm_num [abs_of_pos]), if_pos (by norm_num)]

/-- The normal approximation at `n = 2^53 + 3`, `p = 1 - 2^-53` and the
uniform value of node 2: `float64(n) = 2^53 + 4`, `mean = 2^53 + 2`,
`stddev = 1`, `z = 2`, so `result = 2^53 + 4 = float64(n)`, which is not above
`float64(n)` and is returned as it is. -/
theorem normalApproxBinomial_node2 :
    normalApproxBinomial ieee (2 ^ 53 + 3) (1 - 1 / 2 ^ 53) (8780114649259281 / 2 ^ 53) =
      2 ^ 53 + 4 := by
  have hn : toFloat64 (2 ^ 53 + 3) = 2 ^ 53 + 4 := by
    have h : Nat.log2 (2 ^ 53 + 3) = 53 := log2_eq_of_bounds _ _ (by norm_num) (by norm_num)
    unfold toFloat64
    rw [if_neg (by norm_num)]
    simp only [h]
    norm_num
  have hcast : ((2 ^ 53 + 4 : ℕ) : ℚ) = 2 ^ 53 + 4 := by norm_num
  have hmean : ieee.mul (2 ^ 53 + 4) (1 - 1 / 2 ^ 53) = 2 ^ 53 + 2 := rf_mean
  have hq : ieee.sub (ieee.lit 1) (1 - 1 / 2 ^ 53) = 1 / 2 ^ 53 := by
    show roundFloat64 (roundFloat64 1 - (1 - 1 / 2 ^ 53)) = _
    rw [rf_one, rf_q]
  have hvar : ieee.mul (2 ^ 53 + 2) (1 / 2 ^ 53) = 1 + 1 / 2 ^ 52 := rf_variance
  have hsd : ieee.sqrt (1 + 1 / 2 ^ 52) = 1 := sqrtFloat64_variance
  have hlo : ieee.lit 0.001 = 4611686018427388 / 2 ^ 62 := rf_milli
  have hhi : ieee.lit 0.999 = 8998192055486251 / 2 ^ 53 := rf_999
  have hz : ieee.mul 2 1 = 2 := rf_two_sigma
  have hres : ieee.add (2 ^ 53 + 2) 2 = 2 ^ 53 + 4 := rf_result
  have huc : (if (if (8780114649259281 : ℚ) / 2 ^ 53 ≤ 4611686018427388 / 2 ^ 62
        then (4611686018427388 : ℚ) / 2 ^ 62 else 8780114649259281 / 2 ^ 53) ≥
        8998192055486251 / 2 ^ 53
      then (8998192055486251 : ℚ) / 2 ^ 53
      else if (8780114649259281 : ℚ) / 2 ^ 53 ≤ 4611686018427388 / 2 ^ 62
        then (4611686018427388 : ℚ) / 2 ^ 62 else 8780114649259281 / 2 ^ 53) =
      8780114649259281 / 2 ^ 53 := by
    rw [if_neg (by norm_num), if_neg (by norm_num)]
  unfold normalApproxBinomial
  simp only [hn, hcast, hmean, hq, hvar, hsd, hlo, hhi, huc, invNormalCDF_node2, hz, hres]
  rw [if_neg (by norm_num), if_neg (by norm_num)]
  unfold roundToUint64
  have hfl : ⌊((2 : ℚ) ^ 53 + 4) + 1 / 2⌋ = 2 ^ 53 + 4 := by
    rw [Int.floor_eq_iff]
    norm_num
  rw [hfl]
  have ht : Int.toNat (2 ^ 53 + 4) = 2 ^ 53 + 4 := by decide
  rw [ht]
  norm_num [U64]

/-- `sampleBinomial` for node 2 under the manager key, `n = 2^53 + 3` balls and
`p = 1 - 2^-53`, in IEEE arithmetic: the count is `2^53 + 4`. -/
theorem sampleBinomial_node2 :
    (NewIPRF managerKey DBSize 1024).sampleBinomial ieee 2 (2 ^ 53 + 3) (1 - 1 / 2 ^ 53) =
      2 ^ 53 + 4 := by
  unfold IPRF.sampleBinomial
  simp only [NewIPRF]
  rw [uniform_node2]
  unfold binomialInverseCDF
  rw [if_neg (by norm_num), if_neg (by norm_num), if_neg (by norm_num), if_pos (by norm_num),
    normalApproxBinomial_node2]

/-- C18 (the clamp of the normal approximation): for node 2 under the manager
key, `n = 2^53 + 3` balls and `p = 1 - 2^-53` (in `[0, 1]`), IEEE arithmetic
gives `result = 2^53 + 4 = float64(n)`; the guard `result > float64(n)` of the
clamp to `[0, n]` does not fire, and `sampleBinomial` returns `2^53 + 4`, which
is `n + 1`, above `n`. -/
theorem C18_sampleBinomial_exceeds_count :
    (0 : ℚ) ≤ 1 - 1 / 2 ^ 53 ∧ (1 : ℚ) - 1 / 2 ^ 53 ≤ 1 ∧
    (NewIPRF managerKey DBSize 1024).sampleBinomial ieee 2 (2 ^ 53 + 3) (1 - 1 / 2 ^ 53) =
      2 ^ 53 + 4 ∧
    ¬ (2 ^ 53 + 4 ≤ 2 ^ 53 + 3) :=
  ⟨by norm_num, by norm_num, sampleBinomial_node2, by norm_num⟩

/-- For every key, node id, ball count `n ≤ 2^53` (so that `float64(n)` is
`n`) and every `p`, `sampleBinomial(nodeID, n, p)` returns a count `c` with
`0 ≤ c ≤ n`, in the exact-CDF branch and in the normal-approximation branch,
whatever the results of the floating-point operations are. -/
theorem sampleBinomial_within_count (F : FloatOps) (iprf : IPRF) (nodeID n : Nat)
    (p : ℚ) (hn : n ≤ 2 ^ 53) (_hp0 : 0 ≤ p) (_hp1 : p ≤ 1) :
    0 ≤ iprf.sampleBinomial F nodeID n p ∧ iprf.sampleBinomial F nodeID n p ≤ n ∧
    (∀ u, n ≤ 100 → binomialInverseCDF F n p u ≤ n) ∧
    (∀ u, 100 < n → normalApproxBinomial F n p u ≤ n) :=
  ⟨Nat.zero_le _, binomialInverseCDF_le F n p _ hn,
   fun u _ => binomialInverseCDF_le F n p u hn,
   fun u _ => normalApproxBinomial_le F n p u hn⟩

/-! ## Monotonicity of `Forward` -/

/-- The loop of `traceBall` keeps the order of two balls of the same node. -/
theorem traceLoop_mono (S : Sampler) (key : PrfKey128) (n : Nat) :
    ∀ (fuel low high ballCount bx bz : Nat), low ≤ high → high < 2 ^ 63 →
      Nat.clog 2 (high - low + 1) ≤ fuel → bx ≤ bz → bz < U64 →
      ∃ a b, traceLoop S key n fuel low high ballCount bx = .ok a ∧
        traceLoop S key n fuel low high ballCount bz = .ok b ∧ a ≤ b := by
  intro fuel
  induction fuel with
  | zero =>
    intro low high ballCount bx bz hle hhi hfuel _ _
    have hw : high - low + 1 ≤ 1 := by
      by_contra hcon
      have h2 : 2 ≤ high - low + 1 := by omega
      have := Nat.clog_of_two_le (b := 2) (by decide) h2
      omega
    have heq : ¬ low < high := by omega
    exact ⟨low, low, by simp [traceLoop, heq], by simp [traceLoop, heq], le_refl _⟩
  | succ fuel ih =>
    intro low high ballCount bx bz hle hhi hfuel hxz hz
    by_cases hlt : low < high
    · have hsum : (low + high) % U64 = low + high := by
        apply Nat.mod_eq_of_lt
        simp only [U64]; omega
      have hmid1 : low ≤ (low + high) / 2 := by omega
      have hmid2 : (low + high) / 2 < high := by omega
      have hsucc : ((low + high) / 2 + 1) % U64 = (low + high) / 2 + 1 := by
        apply Nat.mod_eq_of_lt
        simp only [U64]; omega
      have hw : 2 ≤ high - low + 1 := by omega
      have hfl : Nat.clog 2 ((low + high) / 2 - low + 1) ≤ fuel :=
        clog_half_le hw (by omega) hfuel
      have hfr : Nat.clog 2 (high - ((low + high) / 2 + 1) + 1) ≤ fuel :=
        clog_half_le hw (by omega) hfuel
      rw [traceLoop, traceLoop]
      simp only [hlt, if_true, hsum, hsucc]
      generalize S key (encodeNode low high n) ballCount
        (((low + high) / 2 + U64 - low + 1) % U64) ((high + U64 - low + 1) % U64) % U64 = c
      by_cases hx : bx < c
      · by_cases hzc : bz < c
        · rw [if_pos hx, if_pos hzc]
          exact ih low ((low + high) / 2) c bx bz hmid1 (by omega) hfl hxz hz
        · rw [if_pos hx, if_neg hzc]
          obtain ⟨a, ha, _, ha2⟩ := traceLoop_returns S key n fuel low ((low + high) / 2) c bx
            hmid1 (by omega) hfl
          obtain ⟨b, hb, hb1, _⟩ := traceLoop_returns S key n fuel ((low + high) / 2 + 1) high
            ((ballCount + U64 - c) % U64) ((bz + U64 - c) % U64) (by omega) hhi hfr
          exact ⟨a, b, ha, hb, by omega⟩
      · have hzc : ¬ bz < c := by omega
        rw [if_neg hx, if_neg hzc]
        have h1 : (bx + U64 - c) % U64 = bx - c := by
          have : bx + U64 - c = (bx - c) + U64 := by omega
          rw [this, Nat.add_mod_right]
          exact Nat.mod_eq_of_lt (by omega)
        have h2 : (bz + U64 - c) % U64 = bz - c := by
          have : bz + U64 - c = (bz - c) + U64 := by omega
          rw [this, Nat.add_mod_right]
          exact Nat.mod_eq_of_lt (by omega)
        rw [h1, h2]
        exact ih ((low + high) / 2 + 1) high ((ballCount + U64 - c) % U64) (bx - c) (bz - c)
          (by omega) hhi hfr (by omega) (by omega)
    · have heq : low = high := by omega
      subst heq
      exact ⟨low, low, by simp [traceLoop], by simp [traceLoop], le_refl _⟩

/-! ### The roundings that occur on the paths of the balls 2 and 3

Domain 5, range `2^64 - 1`, manager key, IEEE arithmetic.  Each lemma gives
the binary64 nearest to one exact intermediate result. -/

/-- Zero is a binary64. -/
theorem rf_zero : roundFloat64 0 = 0 := by simp [roundFloat64]

theorem rf_tree_1 : roundFloat64 (943202524) = 943202524 := by
  rw [roundFloat64_eval (943202524) 29 7912156238446592 (by norm_num [abs_of_pos])
    (by norm_num [abs_of_pos]) (by norm_num) (by norm_num) (by norm_num)]
  norm_num

theorem rf_tree_2 : roundFloat64 (4294967298) = 4294967298 := by
  rw [roundFloat64_eval (4294967298) 32 4503599629467648 (by norm_num [abs_of_pos])
    (by norm_num [abs_of_pos]) (by norm_num) (by norm_num) (by norm_num)]
  norm_num

theorem rf_tree_3 :
    roundFloat64 (471601262 / 2147483649) =
      7912156234762207 / 36028797018963968 := by
  rw [roundFloat64_eval (471601262 / 2147483649) (-3) 7912156234762207 (by norm_num [abs_of_pos])
    (by norm_num [abs_of_pos]) (by norm_num) (by norm_num) (by norm_num)]
  norm_num

theorem rf_tree_4 : roundFloat64 (1 / 2) = 1 / 2 := by
  rw [roundFloat64_eval (1 / 2) (-1) 4503599627370496 (by norm_num [abs_of_pos])
    (by norm_num [abs_of_pos]) (by norm_num) (by norm_num) (by norm_num)]
  norm_num

theorem rf_tree_5 : roundFloat64 (1 / 32) = 1 / 32 := by
  rw [roundFloat64_eval (1 / 32) (-5) 4503599627370496 (by norm_num [abs_of_pos])
    (by norm_num [abs_of_pos]) (by norm_num) (by norm_num) (by norm_num)]
  norm_num

theorem rf_tree_6 : roundFloat64 (5 / 32) = 5 / 32 := by
  rw [roundFloat64_eval (5 / 32) (-3) 5629499534213120 (by norm_num [abs_of_pos])
    (by norm_num [abs_of_pos]) (by norm_num) (by norm_num) (by norm_num)]
  norm_num

theorem rf_tree_7 : roundFloat64 (5 / 64) = 5 / 64 := by
  rw [roundFloat64_eval (5 / 64) (-4) 5629499534213120 (by norm_num [abs_of_pos])
    (by norm_num [abs_of_pos]) (by norm_num) (by norm_num) (by norm_num)]
  norm_num

theorem rf_tree_8 : roundFloat64 (3 / 16) = 3 / 16 := by
  rw [roundFloat64_eval (3 / 16) (-3) 6755399441055744 (by norm_num [abs_of_pos])
    (by norm_num [abs_of_pos]) (by norm_num) (by norm_num) (by norm_num)]
  norm_num

theorem rf_tree_9 : roundFloat64 (5 / 8) = 5 / 8 := by
  rw [roundFloat64_eval (5 / 8) (-1) 5629499534213120 (by norm_num [abs_of_pos])
    (by norm_num [abs_of_pos]) (by norm_num) (by norm_num) (by norm_num)]
  norm_num

theorem rf_tree_10 : roundFloat64 (5 / 16) = 5 / 16 := by
  rw [roundFloat64_eval (5 / 16) (-2) 5629499534213120 (by norm_num [abs_of_pos])
    (by norm_num [abs_of_pos]) (by norm_num) (by norm_num) (by norm_num)]
  norm_num

theorem rf_tree_11 : roundFloat64 (3 / 2) = 3 / 2 := by
  rw [roundFloat64_eval (3 / 2) 0 6755399441055744 (by norm_num [abs_of_pos])
    (by norm_num [abs_of_pos]) (by norm_num) (by norm_num) (by norm_num)]
  norm_num

theorem rf_tree_12 : roundFloat64 (-(1 / 2)) = -(1 / 2) := by
  rw [roundFloat64_eval (-(1 / 2)) (-1) (-4503599627370496) (by norm_num [abs_of_neg])
    (by norm_num [abs_of_neg]) (by norm_num) (by norm_num) (by norm_num)]
  norm_num

theorem rf_tree_13 : roundFloat64 (-(1 / 8)) = -(1 / 8) := by
  rw [roundFloat64_eval (-(1 / 8)) (-3) (-4503599627370496) (by norm_num [abs_of_neg])
    (by norm_num [abs_of_neg]) (by norm_num) (by norm_num) (by norm_num)]
  norm_num

theorem rf_tree_14 : roundFloat64 (-(3 / 8)) = -(3 / 8) := by
  rw [roundFloat64_eval (-(3 / 8)) (-2) (-6755399441055744) (by norm_num [abs_of_neg])
    (by norm_num [abs_of_neg]) (by norm_num) (by norm_num) (by norm_num)]
  norm_num

theorem rf_tree_15 : roundFloat64 (-(9 / 16)) = -(9 / 16) := by
  rw [roundFloat64_eval (-(9 / 16)) (-1) (-5066549580791808) (by norm_num [abs_of_neg])
    (by norm_num [abs_of_neg]) (by norm_num) (by norm_num) (by norm_num)]
  norm_num

theorem rf_tree_16 : roundFloat64 (9 / 8) = 9 / 8 := by
  rw [roundFloat64_eval (9 / 8) 0 5066549580791808 (by norm_num [abs_of_pos])
    (by norm_num [abs_of_pos]) (by norm_num) (by norm_num) (by norm_num)]
  norm_num

theorem rf_tree_17 : roundFloat64 (7 / 6) = 5254199565265579 / 4503599627370496 := by
  rw [roundFloat64_eval (7 / 6) 0 5254199565265579 (by norm_num [abs_of_pos])
    (by norm_num [abs_of_pos]) (by norm_num) (by norm_num) (by norm_num)]
  norm_num

theorem rf_tree_18 :
    roundFloat64 (-(750599937895083 / 4503599627370496)) =
      -(750599937895083 / 4503599627370496) := by
  rw [roundFloat64_eval (-(750599937895083 / 4503599627370496))
    (-3) (-6004799503160664) (by norm_num [abs_of_neg])
    (by norm_num [abs_of_neg]) (by norm_num) (by norm_num) (by norm_num)]
  norm_num

theorem rf_tree_19 :
    roundFloat64 (563400266768102456620715576889 / 20282409603651670423947251286016) =
      2001599834386889 / 72057594037927936 := by
  rw [roundFloat64_eval (563400266768102456620715576889 / 20282409603651670423947251286016)
    (-6) 8006399337547556 (by norm_num [abs_of_pos])
    (by norm_num [abs_of_pos]) (by norm_num) (by norm_num) (by norm_num)]
  norm_num

theorem rf_tree_20 :
    roundFloat64 (2001599834386889 / 72057594037927936) =
      2001599834386889 / 72057594037927936 := by
  rw [roundFloat64_eval (2001599834386889 / 72057594037927936)
    (-6) 8006399337547556 (by norm_num [abs_of_pos])
    (by norm_num [abs_of_pos]) (by norm_num) (by norm_num) (by norm_num)]
  norm_num

theorem rf_tree_21 :
    roundFloat64 (2001599834386889 / 36028797018963968) =
      2001599834386889 / 36028797018963968 := by
  rw [roundFloat64_eval (2001599834386889 / 36028797018963968)
    (-5) 8006399337547556 (by norm_num [abs_of_pos])
    (by norm_num [abs_of_pos]) (by norm_num) (by norm_num) (by norm_num)]
  norm_num

theorem rf_tree_22 :
    roundFloat64 (10516804979671247107919920593731 / 162259276829213363391578010288128) =
      36487496981011 / 562949953421312 := by
  rw [roundFloat64_eval (10516804979671247107919920593731 / 162259276829213363391578010288128)
    (-4) 4670399613569408 (by norm_num [abs_of_pos])
    (by norm_num [abs_of_pos]) (by norm_num) (by norm_num) (by norm_num)]
  norm_num

theorem rf_tree_23 :
    roundFloat64 (-(291899975848088 / 750599937895083)) =
      -(7005599420354109 / 18014398509481984) := by
  rw [roundFloat64_eval (-(291899975848088 / 750599937895083))
    (-2) (-7005599420354109) (by norm_num [abs_of_neg])
    (by norm_num [abs_of_neg]) (by norm_num) (by norm_num) (by norm_num)]
  norm_num

theorem rf_tree_24 :
    roundFloat64 (-(26020797847029547 / 72057594037927936)) =
      -(6505199461757387 / 18014398509481984) := by
  rw [roundFloat64_eval (-(26020797847029547 / 72057594037927936))
    (-2) (-6505199461757387) (by norm_num [abs_of_neg])
    (by norm_num [abs_of_neg]) (by norm_num) (by norm_num) (by norm_num)]
  norm_num

theorem rf_tree_25 :
    roundFloat64 (-(7005599420354109 / 18014398509481984)) =
      -(7005599420354109 / 18014398509481984) := by
  rw [roundFloat64_eval (-(7005599420354109 / 18014398509481984))
    (-2) (-7005599420354109) (by norm_num [abs_of_neg])
    (by norm_num [abs_of_neg]) (by norm_num) (by norm_num) (by norm_num)]
  norm_num

theorem rf_tree_26 :
    roundFloat64 (-(7005599420354109 / 36028797018963968)) =
      -(7005599420354109 / 36028797018963968) := by
  rw [roundFloat64_eval (-(7005599420354109 / 36028797018963968))
    (-3) (-7005599420354109) (by norm_num [abs_of_neg])
    (by norm_num [abs_of_neg]) (by norm_num) (by norm_num) (by norm_num)]
  norm_num

theorem rf_tree_27 :
    roundFloat64 (-(36808817428849351742220808914111 / 162259276829213363391578010288128)) =
      -(8173199323746461 / 36028797018963968) := by
  rw [roundFloat64_eval (-(36808817428849351742220808914111 / 162259276829213363391578010288128))
    (-3) (-8173199323746461) (by norm_num [abs_of_neg])
    (by norm_num [abs_of_neg]) (by norm_num) (by norm_num) (by norm_num)]
  norm_num

theorem rf_tree_28 :
    roundFloat64 (8173199323746461 / 6004799503160664) =
      6129899492809843 / 4503599627370496 := by
  rw [roundFloat64_eval (8173199323746461 / 6004799503160664)
    0 6129899492809843 (by norm_num [abs_of_pos])
    (by norm_num [abs_of_pos]) (by norm_num) (by norm_num) (by norm_num)]
  norm_num

theorem rf_tree_29 : roundFloat64 (18014398509481985 / 18014398509481984) = 1 := by
  rw [roundFloat64_eval (18014398509481985 / 18014398509481984)
    0 4503599627370496 (by norm_num [abs_of_pos])
    (by norm_num [abs_of_pos]) (by norm_num) (by norm_num) (by norm_num)]
  norm_num

/-! ### The conversions `float64(leftBins)`, `float64(totalBins)` -/

/-- The conversion `float64(n)` of an `n` with `2^(k+52) ≤ n < 2^(k+53)` whose low `k` bits
lie below the half: they are dropped. -/
theorem toFloat64_down (n k q : Nat) (hk : 1 ≤ k) (h1 : 2 ^ (k + 52) ≤ n)
    (h2 : n < 2 ^ (k + 53)) (hq : n / 2 ^ k = q) (hr : 2 * (n % 2 ^ k) < 2 ^ k) :
    toFloat64 n = q * 2 ^ k := by
  have hlog : Nat.log2 n = k + 52 := log2_eq_of_bounds _ _ h1 h2
  have hbig : ¬ n < 2 ^ 53 := by
    have : 2 ^ 53 ≤ 2 ^ (k + 52) := Nat.pow_le_pow_right (by norm_num) (by omega)
    omega
  unfold toFloat64
  rw [if_neg hbig]
  simp only [hlog, Nat.add_sub_cancel, hq]
  rw [if_neg (by omega)]

/-- The conversion `float64(n)` of an `n` with `2^(k+52) ≤ n < 2^(k+53)` whose low `k` bits
lie above the half: the significand is rounded up. -/
theorem toFloat64_up (n k q : Nat) (hk : 1 ≤ k) (h1 : 2 ^ (k + 52) ≤ n)
    (h2 : n < 2 ^ (k + 53)) (hq : n / 2 ^ k = q) (hr : 2 * (n % 2 ^ k) > 2 ^ k) :
    toFloat64 n = (q + 1) * 2 ^ k := by
  have hlog : Nat.log2 n = k + 52 := log2_eq_of_bounds _ _ h1 h2
  have hbig : ¬ n < 2 ^ 53 := by
    have : 2 ^ 53 ≤ 2 ^ (k + 52) := Nat.pow_le_pow_right (by norm_num) (by omega)
    omega
  unfold toFloat64
  rw [if_neg hbig]
  simp only [hlog, Nat.add_sub_cancel, hq]
  rw [if_pos (Or.inl hr)]

/-- The uniform value that `sampleBinomial` derives for the node id
`18446744073709420549` under the manager key: `prfEval = 943202523`,
`u = 7912156234762207 / 2^55 ≈ 0.2196`. -/
theorem uniform_tree :
    ieee.div (ieee.add ((toFloat64 (prfEval managerKey 18446744073709420549) : ℕ) : ℚ) (ieee.lit 1))
      (ieee.lit (2 ^ 32 + 2)) = 7912156234762207 / 36028797018963968 := by
  have hv : prfEval managerKey 18446744073709420549 = 943202523 := by decide
  have ht : toFloat64 943202523 = 943202523 := toFloat64_small _ (by norm_num)
  rw [hv, ht]
  show roundFloat64 (roundFloat64 (((943202523 : ℕ) : ℚ) + roundFloat64 1) /
    roundFloat64 (2 ^ 32 + 2)) = _
  norm_num only [rf_one, rf_tree_1, rf_tree_2, rf_tree_3, Nat.cast_ofNat]

theorem toFloat64_leftBins_root : toFloat64 9223372036854775808 = 9223372036854775808 := by
  rw [toFloat64_down 9223372036854775808 11 4503599627370496 (by norm_num) (by norm_num)
    (by norm_num) (by norm_num) (by norm_num)]
  norm_num

theorem toFloat64_totalBins_root : toFloat64 18446744073709551615 = 18446744073709551616 := by
  rw [toFloat64_up 18446744073709551615 11 9007199254740991 (by norm_num) (by norm_num)
    (by norm_num) (by norm_num) (by norm_num)]
  norm_num

theorem toFloat64_leftBins_first : toFloat64 13835058055282163712 = 13835058055282163712 := by
  rw [toFloat64_down 13835058055282163712 11 6755399441055744 (by norm_num) (by norm_num)
    (by norm_num) (by norm_num) (by norm_num)]
  norm_num

theorem toFloat64_totalBins_first : toFloat64 9223372036854775807 = 9223372036854775808 := by
  rw [toFloat64_up 9223372036854775807 10 9007199254740991 (by norm_num) (by norm_num)
    (by norm_num) (by norm_num) (by norm_num)]
  norm_num

theorem toFloat64_leftBins_second : toFloat64 16140901064495857664 = 16140901064495857664 := by
  rw [toFloat64_down 16140901064495857664 11 7881299347898368 (by norm_num) (by norm_num)
    (by norm_num) (by norm_num) (by norm_num)]
  norm_num

theorem toFloat64_totalBins_second : toFloat64 13835058055282163711 = 13835058055282163712 := by
  rw [toFloat64_up 13835058055282163711 11 6755399441055743 (by norm_num) (by norm_num)
    (by norm_num) (by norm_num) (by norm_num)]
  norm_num

/-! ### The three sampler calls -/

/-- One iteration of the loop of `binomialInverseCDF`, with the new `prob` and
`cumProb` named. -/
theorem cdfLoop_step (F : FloatOps) (n : Nat) (p q u : ℚ) (remaining k : Nat)
    (prob cumProb prob2 cumProb2 : ℚ)
    (hp : F.div (F.mul (F.div (F.mul prob (toFloat64 (n - k))) (toFloat64 (k + 1))) p) q = prob2)
    (hc : F.add cumProb prob2 = cumProb2) :
    cdfLoop F n p q u (remaining + 1) k prob cumProb =
      if u ≤ cumProb2 then k + 1 else cdfLoop F n p q u remaining (k + 1) prob2 cumProb2 := by
  rw [cdfLoop]
  simp only [hp, hc]

/-- The part of `binomialInverseCDF` before its loop, in the exact branch
(`p` neither 0 nor 1, `0 < n ≤ 100`), with `q`, `prob` and `cumProb` named. -/
theorem binomialInverseCDF_start (F : FloatOps) (n : Nat) (p u q prob cumProb : ℚ)
    (hp0 : p ≠ 0) (hp1 : p ≠ 1) (hn0 : n ≠ 0) (hn : n ≤ 100)
    (hq : F.sub (F.lit 1) p = q) (hprob : F.pow q (toFloat64 n) = prob)
    (hc : F.add (F.lit 0) prob = cumProb) :
    binomialInverseCDF F n p u =
      if u ≤ cumProb then 0 else cdfLoop F n p q u n 0 prob cumProb := by
  unfold binomialInverseCDF
  rw [if_neg hp0, if_neg hp1, if_neg hn0, if_neg (by omega)]
  simp only [hq, hprob, hc]

/-- At the root: 5 balls, `p = 1/2`; the cumulated probabilities are `1/32`,
`3/16`, `1/2`, and `u ≈ 0.2196` is first reached at count 2. -/
theorem cdf_root :
    binomialInverseCDF ieee 5 (1 / 2) (7912156234762207 / 36028797018963968) = 2 := by
  have t1 : toFloat64 1 = 1 := toFloat64_small _ (by norm_num)
  have t2 : toFloat64 2 = 2 := toFloat64_small _ (by norm_num)
  have t4 : toFloat64 4 = 4 := toFloat64_small _ (by norm_num)
  have t5 : toFloat64 5 = 5 := toFloat64_small _ (by norm_num)
  have hq : ieee.sub (ieee.lit 1) (1 / 2) = 1 / 2 := by
    show roundFloat64 (roundFloat64 1 - 1 / 2) = _
    norm_num only [rf_one, rf_tree_4]
  have hprob : ieee.pow (1 / 2) (toFloat64 5 : ℕ) = 1 / 32 := by
    rw [t5]
    show roundFloat64 ((1 / 2) ^ ⌊((5 : ℕ) : ℚ)⌋₊) = _
    rw [Nat.floor_natCast]
    norm_num only [rf_tree_5]
  have hc : ieee.add (ieee.lit 0) (1 / 32) = 1 / 32 := by
    show roundFloat64 (roundFloat64 0 + 1 / 32) = _
    norm_num only [rf_zero, rf_tree_5]
  have hp0 : ieee.div (ieee.mul (ieee.div (ieee.mul (1 / 32) (toFloat64 (5 - 0) : ℕ))
      (toFloat64 (0 + 1) : ℕ)) (1 / 2)) (1 / 2) = 5 / 32 := by
    rw [show 5 - 0 = 5 by rfl, show 0 + 1 = 1 by rfl, t5, t1]
    show roundFloat64 (roundFloat64 (roundFloat64 (roundFloat64 (1 / 32 * ((5 : ℕ) : ℚ)) /
      ((1 : ℕ) : ℚ)) * (1 / 2)) / (1 / 2)) = _
    norm_num only [rf_tree_5, rf_tree_6, rf_tree_7, Nat.cast_ofNat, Nat.cast_one]
  have hc0 : ieee.add (1 / 32) (5 / 32) = 3 / 16 := by
    show roundFloat64 (1 / 32 + 5 / 32) = _
    norm_num only [rf_tree_8]
  have hp1 : ieee.div (ieee.mul (ieee.div (ieee.mul (5 / 32) (toFloat64 (5 - 1) : ℕ))
      (toFloat64 (1 + 1) : ℕ)) (1 / 2)) (1 / 2) = 5 / 16 := by
    rw [show 5 - 1 = 4 by rfl, show 1 + 1 = 2 by rfl, t4, t2]
    show roundFloat64 (roundFloat64 (roundFloat64 (roundFloat64 (5 / 32 * ((4 : ℕ) : ℚ)) /
      ((2 : ℕ) : ℚ)) * (1 / 2)) / (1 / 2)) = _
    norm_num only [rf_tree_6, rf_tree_9, rf_tree_10, Nat.cast_ofNat]
  have hc1 : ieee.add (3 / 16) (5 / 16) = 1 / 2 := by
    show roundFloat64 (3 / 16 + 5 / 16) = _
    norm_num only [rf_tree_4]
  rw [binomialInverseCDF_start ieee 5 (1 / 2) _ (1 / 2) (1 / 32) (1 / 32) (by norm_num)
    (by norm_num) (by norm_num) (by norm_num) hq hprob hc, if_neg (by norm_num),
    cdfLoop_step ieee 5 (1 / 2) (1 / 2) _ 4 0 (1 / 32) (1 / 32) (5 / 32) (3 / 16) hp0 hc0,
    if_neg (by norm_num),
    cdfLoop_step ieee 5 (1 / 2) (1 / 2) _ 3 1 (5 / 32) (3 / 16) (5 / 16) (1 / 2) hp1 hc1,
    if_pos (by norm_num)]

/-- At the node `[2^63, 2^64 - 2]`: 3 balls, `p = 3/2`, so `q = -1/2`; the
cumulated values are `-1/8` and `1`, and `u` is first reached at count 1. -/
theorem cdf_first :
    binomialInverseCDF ieee 3 (3 / 2) (7912156234762207 / 36028797018963968) = 1 := by
  have t1 : toFloat64 1 = 1 := toFloat64_small _ (by norm_num)
  have t3 : toFloat64 3 = 3 := toFloat64_small _ (by norm_num)
  have hq : ieee.sub (ieee.lit 1) (3 / 2) = -(1 / 2) := by
    show roundFloat64 (roundFloat64 1 - 3 / 2) = _
    norm_num only [rf_one, rf_tree_12]
  have hprob : ieee.pow (-(1 / 2)) (toFloat64 3 : ℕ) = -(1 / 8) := by
    rw [t3]
    show roundFloat64 ((-(1 / 2)) ^ ⌊((3 : ℕ) : ℚ)⌋₊) = _
    rw [Nat.floor_natCast]
    norm_num only [rf_tree_13]
  have hc : ieee.add (ieee.lit 0) (-(1 / 8)) = -(1 / 8) := by
    show roundFloat64 (roundFloat64 0 + -(1 / 8)) = _
    norm_num only [rf_zero, rf_tree_13]
  have hp0 : ieee.div (ieee.mul (ieee.div (ieee.mul (-(1 / 8)) (toFloat64 (3 - 0) : ℕ))
      (toFloat64 (0 + 1) : ℕ)) (3 / 2)) (-(1 / 2)) = 9 / 8 := by
    rw [show 3 - 0 = 3 by rfl, show 0 + 1 = 1 by rfl, t3, t1]
    show roundFloat64 (roundFloat64 (roundFloat64 (roundFloat64 (-(1 / 8) * ((3 : ℕ) : ℚ)) /
      ((1 : ℕ) : ℚ)) * (3 / 2)) / (-(1 / 2))) = _
    norm_num only [rf_tree_14, rf_tree_15, rf_tree_16, Nat.cast_ofNat, Nat.cast_one]
  have hc0 : ieee.add (-(1 / 8)) (9 / 8) = 1 := by
    show roundFloat64 (-(1 / 8) + 9 / 8) = _
    norm_num only [rf_one]
  rw [binomialInverseCDF_start ieee 3 (3 / 2) _ (-(1 / 2)) (-(1 / 8)) (-(1 / 8)) (by norm_num)
    (by norm_num) (by norm_num) (by norm_num) hq hprob hc, if_neg (by norm_num),
    cdfLoop_step ieee 3 (3 / 2) (-(1 / 2)) _ 2 0 (-(1 / 8)) (-(1 / 8)) (9 / 8) 1 hp0 hc0,
    if_pos (by norm_num)]

/-- At the node `[2^62, 2^64 - 2]`: 2 balls, `p` the binary64 nearest to `7/6`; the
cumulated values are about `0.0278`, `-0.3611` and exactly `1`, and `u` is first
reached at count 2. -/
theorem cdf_second :
    binomialInverseCDF ieee 2 (5254199565265579 / 4503599627370496)
      (7912156234762207 / 36028797018963968) = 2 := by
  have t1 : toFloat64 1 = 1 := toFloat64_small _ (by norm_num)
  have t2 : toFloat64 2 = 2 := toFloat64_small _ (by norm_num)
  have hq : ieee.sub (ieee.lit 1) (5254199565265579 / 4503599627370496) =
      -(750599937895083 / 4503599627370496) := by
    show roundFloat64 (roundFloat64 1 - 5254199565265579 / 4503599627370496) = _
    norm_num only [rf_one, rf_tree_18]
  have hprob : ieee.pow (-(750599937895083 / 4503599627370496)) (toFloat64 2 : ℕ) =
      2001599834386889 / 72057594037927936 := by
    rw [t2]
    show roundFloat64 ((-(750599937895083 / 4503599627370496)) ^ ⌊((2 : ℕ) : ℚ)⌋₊) = _
    rw [Nat.floor_natCast]
    norm_num only [rf_tree_19]
  have hc : ieee.add (ieee.lit 0) (2001599834386889 / 72057594037927936) =
      2001599834386889 / 72057594037927936 := by
    show roundFloat64 (roundFloat64 0 + 2001599834386889 / 72057594037927936) = _
    norm_num only [rf_zero, rf_tree_20]
  have hp0 : ieee.div (ieee.mul (ieee.div (ieee.mul (2001599834386889 / 72057594037927936)
      (toFloat64 (2 - 0) : ℕ)) (toFloat64 (0 + 1) : ℕ))
      (5254199565265579 / 4503599627370496)) (-(750599937895083 / 4503599627370496)) =
      -(7005599420354109 / 18014398509481984) := by
    rw [show 2 - 0 = 2 by rfl, show 0 + 1 = 1 by rfl, t2, t1]
    show roundFloat64 (roundFloat64 (roundFloat64 (roundFloat64
      (2001599834386889 / 72057594037927936 * ((2 : ℕ) : ℚ)) / ((1 : ℕ) : ℚ)) *
      (5254199565265579 / 4503599627370496)) / (-(750599937895083 / 4503599627370496))) = _
    norm_num only [rf_tree_21, rf_tree_22, rf_tree_23, Nat.cast_ofNat, Nat.cast_one]
  have hc0 : ieee.add (2001599834386889 / 72057594037927936)
      (-(7005599420354109 / 18014398509481984)) = -(6505199461757387 / 18014398509481984) := by
    show roundFloat64 (2001599834386889 / 72057594037927936 +
      -(7005599420354109 / 18014398509481984)) = _
    norm_num only [rf_tree_24]
  have hp1 : ieee.div (ieee.mul (ieee.div (ieee.mul (-(7005599420354109 / 18014398509481984))
      (toFloat64 (2 - 1) : ℕ)) (toFloat64 (1 + 1) : ℕ))
      (5254199565265579 / 4503599627370496)) (-(750599937895083 / 4503599627370496)) =
      6129899492809843 / 4503599627370496 := by
    rw [show 2 - 1 = 1 by rfl, show 1 + 1 = 2 by rfl, t2, t1]
    show roundFloat64 (roundFloat64 (roundFloat64 (roundFloat64
      (-(7005599420354109 / 18014398509481984) * ((1 : ℕ) : ℚ)) / ((2 : ℕ) : ℚ)) *
      (5254199565265579 / 4503599627370496)) / (-(750599937895083 / 4503599627370496))) = _
    norm_num only [rf_tree_25, rf_tree_26, rf_tree_27, rf_tree_28, Nat.cast_ofNat, Nat.cast_one]
  have hc1 : ieee.add (-(6505199461757387 / 18014398509481984))
      (6129899492809843 / 4503599627370496) = 1 := by
    show roundFloat64 (-(6505199461757387 / 18014398509481984) +
      6129899492809843 / 4503599627370496) = _
    norm_num only [rf_tree_29]
  rw [binomialInverseCDF_start ieee 2 (5254199565265579 / 4503599627370496) _
    (-(750599937895083 / 4503599627370496)) (2001599834386889 / 72057594037927936)
    (2001599834386889 / 72057594037927936) (by norm_num)
    (by norm_num) (by norm_num) (by norm_num) hq hprob hc, if_neg (by norm_num),
    cdfLoop_step ieee 2 (5254199565265579 / 4503599627370496)
      (-(750599937895083 / 4503599627370496)) _ 1 0 (2001599834386889 / 72057594037927936)
      (2001599834386889 / 72057594037927936) (-(7005599420354109 / 18014398509481984))
      (-(6505199461757387 / 18014398509481984)) hp0 hc0,
    if_neg (by norm_num),
    cdfLoop_step ieee 2 (5254199565265579 / 4503599627370496)
      (-(750599937895083 / 4503599627370496)) _ 0 1 (-(7005599420354109 / 18014398509481984))
      (-(6505199461757387 / 18014398509481984)) (6129899492809843 / 4503599627370496) 1 hp1 hc1,
    if_pos (by norm_num)]

/-- The sampler at the root `[0, 2^64 - 2]`: `leftBins = 2^63`,
`totalBins = 2^64 - 1`, so `p = 2^63 / 2^64 = 1/2`. -/
theorem sample_root :
    floatSampler ieee managerKey 18446744073709420549 5 9223372036854775808
      18446744073709551615 = 2 := by
  have hp : ieee.div (toFloat64 9223372036854775808 : ℕ) (toFloat64 18446744073709551615 : ℕ) =
      1 / 2 := by
    rw [toFloat64_leftBins_root, toFloat64_totalBins_root]
    show roundFloat64 (((9223372036854775808 : ℕ) : ℚ) / ((18446744073709551616 : ℕ) : ℚ)) = _
    norm_num only [rf_tree_4, Nat.cast_ofNat]
  unfold floatSampler IPRF.sampleBinomial
  simp only [uniform_tree, hp]
  exact cdf_root

/-- The sampler at the node `[2^63, 2^64 - 2]`, whose midpoint wrapped to
`2^62 - 1`: `leftBins = 2^62 - 2^63 + 2^64 = 3 · 2^62`, `totalBins = 2^63 - 1`,
so `p = 3/2`. -/
theorem sample_first :
    floatSampler ieee managerKey 18446744073709420549 3 13835058055282163712
      9223372036854775807 = 1 := by
  have hp : ieee.div (toFloat64 13835058055282163712 : ℕ) (toFloat64 9223372036854775807 : ℕ) =
      3 / 2 := by
    rw [toFloat64_leftBins_first, toFloat64_totalBins_first]
    show roundFloat64 (((13835058055282163712 : ℕ) : ℚ) / ((9223372036854775808 : ℕ) : ℚ)) = _
    norm_num only [rf_tree_11, Nat.cast_ofNat]
  unfold floatSampler IPRF.sampleBinomial
  simp only [uniform_tree, hp]
  exact cdf_first

/-- The sampler at the node `[2^62, 2^64 - 2]`, whose midpoint wrapped to
`2^61 - 1`: `leftBins = 7 · 2^61`, `totalBins = 3 · 2^62 - 1`, so `p` is the
binary64 nearest to `7/6`. -/
theorem sample_second :
    floatSampler ieee managerKey 18446744073709420549 2 16140901064495857664
      13835058055282163711 = 2 := by
  have hp : ieee.div (toFloat64 16140901064495857664 : ℕ) (toFloat64 13835058055282163711 : ℕ) =
      5254199565265579 / 4503599627370496 := by
    rw [toFloat64_leftBins_second, toFloat64_totalBins_second]
    show roundFloat64 (((16140901064495857664 : ℕ) : ℚ) / ((13835058055282163712 : ℕ) : ℚ)) = _
    norm_num only [rf_tree_17, Nat.cast_ofNat]
  unfold floatSampler IPRF.sampleBinomial
  simp only [uniform_tree, hp]
  exact cdf_second

/-! ### The two paths -/

/-- One iteration of the loop of `traceBall`, with its intermediate values
named. -/
theorem traceLoop_step (S : Sampler) (key : PrfKey128) (n fuel low high ballCount ballIndex : Nat)
    (mid leftBins totalBins nodeID leftCount : Nat) (hlt : low < high)
    (hmid : ((low + high) % U64) / 2 = mid) (hlb : (mid + U64 - low + 1) % U64 = leftBins)
    (htb : (high + U64 - low + 1) % U64 = totalBins) (hnode : encodeNode low high n = nodeID)
    (hc : S key nodeID ballCount leftBins totalBins % U64 = leftCount) :
    traceLoop S key n (fuel + 1) low high ballCount ballIndex =
      if ballIndex < leftCount then traceLoop S key n fuel low mid leftCount ballIndex
      else traceLoop S key n fuel ((mid + 1) % U64) high
        ((ballCount + U64 - leftCount) % U64) ((ballIndex + U64 - leftCount) % U64) := by
  rw [traceLoop]
  simp only [hlt, if_true, hmid, hlb, htb, hnode, hc]

/-- The loop of `traceBall` ends at once when `low < high` fails. -/
theorem traceLoop_done (S : Sampler) (key : PrfKey128) (n fuel low high ballCount ballIndex : Nat)
    (h : ¬ low < high) : traceLoop S key n fuel low high ballCount ballIndex = .ok low := by
  cases fuel <;> simp [traceLoop, h]

/-- At the root, 5 balls over the range `2^64 - 1`: two balls go left, so the balls
2, 3 and 4 go right, to the node `[2^63, 2^64 - 2]`. -/
theorem traceLoop_root (fuel ballIndex : Nat) (h : 2 ≤ ballIndex) (h5 : ballIndex < 5) :
    traceLoop (floatSampler ieee) managerKey 5 (fuel + 1) 0 18446744073709551614 5 ballIndex =
      traceLoop (floatSampler ieee) managerKey 5 fuel 9223372036854775808
        18446744073709551614 3 (ballIndex - 2) := by
  rw [traceLoop_step (floatSampler ieee) managerKey 5 fuel 0 18446744073709551614 5 ballIndex
    9223372036854775807 9223372036854775808 18446744073709551615 18446744073709420549 2
    (by norm_num) (by norm_num [U64]) (by norm_num [U64]) (by norm_num [U64]) (by decide)
    (by rw [sample_root]; norm_num [U64]), if_neg (by omega)]
  have h1 : (9223372036854775807 + 1) % U64 = 9223372036854775808 := by norm_num [U64]
  have h2 : (5 + U64 - 2) % U64 = 3 := by norm_num [U64]
  have h3 : (ballIndex + U64 - 2) % U64 = ballIndex - 2 := by
    simp only [U64]; omega
  rw [h1, h2, h3]

/-- Ball 2 of 5 over the range `2^64 - 1`: right at the root, then left at the
node `[2^63, 2^64 - 2]`, where `high` becomes the wrapped midpoint `2^62 - 1`,
below `low`: the loop ends with `low = 2^63`. -/
theorem forward_ieee_2 (fuel : Nat) :
    (NewIPRF managerKey 5 (2 ^ 64 - 1)).Forward (floatSampler ieee) (fuel + 2) 2 =
      .ok (2 ^ 63) := by
  have hhigh : (2 ^ 64 - 1 + U64 - 1) % U64 = 18446744073709551614 := by norm_num [U64]
  unfold IPRF.Forward traceBall
  simp only [NewIPRF]
  rw [if_neg (by norm_num), if_neg (by norm_num), hhigh, traceLoop_root (fuel + 1) 2 (by norm_num)
    (by norm_num),
    traceLoop_step (floatSampler ieee) managerKey 5 fuel 9223372036854775808
      18446744073709551614 3 (2 - 2)
      4611686018427387903 13835058055282163712 9223372036854775807 18446744073709420549 1
      (by norm_num) (by norm_num [U64]) (by norm_num [U64]) (by norm_num [U64]) (by decide)
      (by rw [sample_first]; norm_num [U64]), if_pos (by norm_num),
    traceLoop_done _ _ _ _ _ _ _ _ (by norm_num)]
  norm_num

/-- Ball 3 of 5 over the range `2^64 - 1`: right at the root, right at the node
`[2^63, 2^64 - 2]`, where `low` becomes the wrapped midpoint plus one, `2^62`,
then left at `[2^62, 2^64 - 2]`: the loop ends with `low = 2^62`. -/
theorem forward_ieee_3 (fuel : Nat) :
    (NewIPRF managerKey 5 (2 ^ 64 - 1)).Forward (floatSampler ieee) (fuel + 3) 3 =
      .ok (2 ^ 62) := by
  have hhigh : (2 ^ 64 - 1 + U64 - 1) % U64 = 18446744073709551614 := by norm_num [U64]
  have h1 : (4611686018427387903 + 1) % U64 = 4611686018427387904 := by norm_num [U64]
  have h2 : (3 + U64 - 1) % U64 = 2 := by norm_num [U64]
  have h3 : (3 - 2 + U64 - 1) % U64 = 0 := by norm_num [U64]
  unfold IPRF.Forward traceBall
  simp only [NewIPRF]
  rw [if_neg (by norm_num), if_neg (by norm_num), hhigh, traceLoop_root (fuel + 2) 3 (by norm_num)
    (by norm_num),
    traceLoop_step (floatSampler ieee) managerKey 5 (fuel + 1) 9223372036854775808
      18446744073709551614 3 (3 - 2)
      4611686018427387903 13835058055282163712 9223372036854775807 18446744073709420549 1
      (by norm_num) (by norm_num [U64]) (by norm_num [U64]) (by norm_num [U64]) (by decide)
      (by rw [sample_first]; norm_num [U64]), if_neg (by norm_num), h1, h2, h3,
    traceLoop_step (floatSampler ieee) managerKey 5 fuel 4611686018427387904
      18446744073709551614 2 0
      2305843009213693951 16140901064495857664 13835058055282163711 18446744073709420549 2
      (by norm_num) (by norm_num [U64]) (by norm_num [U64]) (by norm_num [U64]) (by decide)
      (by rw [sample_second]; norm_num [U64]), if_pos (by norm_num),
    traceLoop_done _ _ _ _ _ _ _ _ (by norm_num)]
  norm_num

/-! ### The loop of `traceBall` ending with `low` above `high` -/

/-- One iteration of `traceRun`, with its intermediate values named. -/
theorem traceRun_step (S : Sampler) (key : PrfKey128)
    (n fuel low high ballCount ballIndex iters : Nat)
    (mid leftBins totalBins nodeID leftCount : Nat) (hlt : low < high)
    (hmid : ((low + high) % U64) / 2 = mid) (hlb : (mid + U64 - low + 1) % U64 = leftBins)
    (htb : (high + U64 - low + 1) % U64 = totalBins) (hnode : encodeNode low high n = nodeID)
    (hc : S key nodeID ballCount leftBins totalBins % U64 = leftCount) :
    traceRun S key n (fuel + 1) low high ballCount ballIndex iters =
      if ballIndex < leftCount then
        traceRun S key n fuel low mid leftCount ballIndex (iters + 1)
      else traceRun S key n fuel ((mid + 1) % U64) high
        ((ballCount + U64 - leftCount) % U64) ((ballIndex + U64 - leftCount) % U64)
        (iters + 1) := by
  rw [traceRun]
  simp only [hlt, if_true, hmid, hlb, htb, hnode, hc]

/-- The loop ends at once when `low < high` fails. -/
theorem traceRun_done (S : Sampler) (key : PrfKey128)
    (n fuel low high ballCount ballIndex iters : Nat) (h : ¬ low < high) :
    traceRun S key n fuel low high ballCount ballIndex iters = .ok (low, high, iters) := by
  cases fuel <;> simp [traceRun, h]

/-- Ball 2 of 5 over the range `2^64 - 1`: after two iterations the loop stops
in the state `low = 2^63`, `high = 2^62 - 1`. -/
theorem traceRun_ieee_2 (fuel : Nat) :
    traceRun (floatSampler ieee) managerKey 5 (fuel + 2) 0 (2 ^ 64 - 1 - 1) 5 2 0 =
      .ok (2 ^ 63, 2 ^ 62 - 1, 2) := by
  have hhigh : 2 ^ 64 - 1 - 1 = 18446744073709551614 := by norm_num
  have h1 : (9223372036854775807 + 1) % U64 = 9223372036854775808 := by norm_num [U64]
  have h2 : (5 + U64 - 2) % U64 = 3 := by norm_num [U64]
  have h3 : (2 + U64 - 2) % U64 = 0 := by norm_num [U64]
  rw [hhigh,
    traceRun_step (floatSampler ieee) managerKey 5 (fuel + 1) 0 18446744073709551614 5 2 0
      9223372036854775807 9223372036854775808 18446744073709551615 18446744073709420549 2
      (by norm_num) (by norm_num [U64]) (by norm_num [U64]) (by norm_num [U64]) (by decide)
      (by rw [sample_root]; norm_num [U64]), if_neg (by norm_num), h1, h2, h3,
    traceRun_step (floatSampler ieee) managerKey 5 fuel 9223372036854775808
      18446744073709551614 3 0 (0 + 1)
      4611686018427387903 13835058055282163712 9223372036854775807 18446744073709420549 1
      (by norm_num) (by norm_num [U64]) (by norm_num [U64]) (by norm_num [U64]) (by decide)
      (by rw [sample_first]; norm_num [U64]), if_pos (by norm_num),
    traceRun_done _ _ _ _ _ _ _ _ _ (by norm_num)]
  norm_num

/-- C19, as stated, fails for a range above `2^63`: under the manager key, with
domain `n = 5`, range `m = 2^64 - 1` and `x = 2 < n`, in IEEE arithmetic, the
loop of `traceBall` stops after two iterations in the state `low = 2^63`,
`high = 2^62 - 1`, and `traceBall` returns `2^63`: the loop ends on
`low > high`, not on `low == high`.  At the node `[2^63, 2^64 - 2]` the sum
`low + high` wraps around, and the midpoint `2^62 - 1` lies below `low`. -/
theorem C19_counterexample :
    (2 : Nat) < 5 ∧ 1 ≤ 2 ^ 64 - 1 ∧
    traceRun (floatSampler ieee) managerKey 5 64 0 (2 ^ 64 - 1 - 1) 5 2 0 =
      .ok (2 ^ 63, 2 ^ 62 - 1, 2) ∧
    traceBall (floatSampler ieee) 64 managerKey 2 5 (2 ^ 64 - 1) = .ok (2 ^ 63) ∧
    ¬ (2 ^ 63 = 2 ^ 62 - 1) := by
  refine ⟨by norm_num, by norm_num, traceRun_ieee_2 62, ?_, by norm_num⟩
  have h := forward_ieee_2 62
  unfold IPRF.Forward at h
  simp only [NewIPRF] at h
  rw [if_neg (by norm_num)] at h
  exact h

/-- C21, as stated, fails for a range above `2^63`: under the manager key, with
domain `n = 5` and range `m = 2^64 - 1`, in IEEE arithmetic, `Forward(2) = 2^63`
and `Forward(3) = 2^62`, so `2 ≤ 3 < n` and `Forward(2) > Forward(3)`; bin
`2^62` receives the balls 3 and 4 and bin `2^63` the ball 2.  The midpoint
`(low + high) / 2` of the node `[2^63, 2^64 - 2]` is computed on a wrapped
sum. -/
theorem C21_counterexample :
    (2 : Nat) ≤ 3 ∧ 3 < 5 ∧ 1 ≤ 2 ^ 64 - 1 ∧
    (NewIPRF managerKey 5 (2 ^ 64 - 1)).Forward (floatSampler ieee) 64 2 = .ok (2 ^ 63) ∧
    (NewIPRF managerKey 5 (2 ^ 64 - 1)).Forward (floatSampler ieee) 64 3 = .ok (2 ^ 62) ∧
    ¬ (2 ^ 63 ≤ 2 ^ 62) :=
  ⟨by norm_num, by norm_num, by norm_num, forward_ieee_2 62, forward_ieee_3 61, by norm_num⟩

/-- C21, amended: for every key, domain `n`, range `1 ≤ m ≤ 2^63` and all
`x ≤ y < n`, `Forward` returns on both and `Forward(x) ≤ Forward(y)`, whatever
counts the sampler answers: the forward mapping is monotone non-decreasing in
the index, so the preimage of each bin is a contiguous interval of indices. -/
theorem C21_forward_monotone (S : Sampler) (key : PrfKey128) (n m x y fuel : Nat)
    (hn : n < 2 ^ 64) (hm1 : 1 ≤ m) (hm2 : m ≤ 2 ^ 63) (hxy : x ≤ y) (hy : y < n)
    (hfuel : Nat.clog 2 m ≤ fuel) :
    (∃ a b, (NewIPRF key n m).Forward S fuel x = .ok a ∧
      (NewIPRF key n m).Forward S fuel y = .ok b ∧ a ≤ b) ∧
    (∀ z a, x ≤ z → z ≤ y → (NewIPRF key n m).Forward S fuel x = .ok a →
      (NewIPRF key n m).Forward S fuel y = .ok a → (NewIPRF key n m).Forward S fuel z = .ok a) := by
  have hfwd : ∀ u v, u ≤ v → v < n →
      ∃ a b, (NewIPRF key n m).Forward S fuel u = .ok a ∧
        (NewIPRF key n m).Forward S fuel v = .ok b ∧ a ≤ b := by
    intro u v huv hv
    unfold IPRF.Forward traceBall
    simp only [NewIPRF]
    have hu : ¬ u ≥ n := by omega
    have hv2 : ¬ v ≥ n := by omega
    simp only [hu, hv2, if_false]
    by_cases h1 : m = 1
    · exact ⟨0, 0, by simp [h1], by simp [h1], le_refl _⟩
    · have hhigh : (m + U64 - 1) % U64 = m - 1 := by
        have : m + U64 - 1 = (m - 1) + U64 := by omega
        rw [this, Nat.add_mod_right]
        apply Nat.mod_eq_of_lt
        simp only [U64]; omega
      simp only [h1, if_false, hhigh]
      exact traceLoop_mono S key n fuel 0 (m - 1) n u v (Nat.zero_le _) (by omega)
        (by simpa [Nat.sub_add_cancel hm1] using hfuel) huv (by simp only [U64]; omega)
  refine ⟨hfwd x y hxy hy, ?_⟩
  intro z a hxz hzy hxa hya
  obtain ⟨a1, b1, h1, h2, h3⟩ := hfwd x z hxz (by omega)
  obtain ⟨a2, b2, h4, h5, h6⟩ := hfwd z y hzy hy
  rw [hxa] at h1
  rw [hya] at h5
  rw [h2] at h4
  simp only [Outcome.ok.injEq] at h1 h4 h5
  rw [h2]
  have : b1 = a := by omega
  rw [this]

/-- Witness of C21: ten balls, four bins, a sampler that sends half of the
balls of a node to the left, the balls 3 and 7. -/
theorem C21_witness :
    (∃ a b, (NewIPRF managerKey 10 4).Forward (fun _ _ ballCount _ _ => ballCount / 2) 2 3 =
        .ok a ∧
      (NewIPRF managerKey 10 4).Forward (fun _ _ ballCount _ _ => ballCount / 2) 2 7 = .ok b ∧
      a ≤ b) ∧
    (∀ z a, 3 ≤ z → z ≤ 7 →
      (NewIPRF managerKey 10 4).Forward (fun _ _ ballCount _ _ => ballCount / 2) 2 3 = .ok a →
      (NewIPRF managerKey 10 4).Forward (fun _ _ ballCount _ _ => ballCount / 2) 2 7 = .ok a →
      (NewIPRF managerKey 10 4).Forward (fun _ _ ballCount _ _ => ballCount / 2) 2 z = .ok a) :=
  C21_forward_monotone (fun _ _ ballCount _ _ => ballCount / 2) managerKey 10 4 3 7 2
    (by norm_num) (by decide) (by norm_num) (by decide) (by decide)
    ((Nat.le_pow_iff_clog_le (by decide)).1 (by decide))

/-! ## Delta soundness -/

/-- Changing the entry read at one index `j` by `δ` changes the XOR over an
index sequence by `δ` when `j` occurs an odd number of times in it, and not at
all otherwise. -/
theorem xorAll_map_update (f g : Nat → Nat) (j δ : Nat) (hj : g j = f j ^^^ δ)
    (hne : ∀ i, i ≠ j → g i = f i) :
    ∀ l : List Nat, xorAll (l.map g) =
      if l.count j % 2 = 1 then xorAll (l.map f) ^^^ δ else xorAll (l.map f) := by
  intro l
  induction l with
  | nil => simp [xorAll]
  | cons i is ih =>
    rw [List.map_cons, List.map_cons, xorAll_cons, xorAll_cons, ih]
    by_cases hi : i = j
    · subst hi
      rw [List.count_cons_self, hj]
      by_cases hodd : List.count i is % 2 = 1
      · have h2 : ¬ (List.count i is + 1) % 2 = 1 := by omega
        rw [if_pos hodd, if_neg h2]
        rw [show f i ^^^ δ ^^^ (xorAll (List.map f is) ^^^ δ) =
          (δ ^^^ δ) ^^^ (f i ^^^ xorAll (List.map f is)) by ac_rfl]
        simp
      · have h2 : (List.count i is + 1) % 2 = 1 := by omega
        rw [if_neg hodd, if_pos h2]
        ac_rfl
    · rw [List.count_cons_of_ne (Ne.symm hi), hne i hi]
      by_cases hodd : List.count j is % 2 = 1
      · rw [if_pos hodd, if_pos hodd, Nat.xor_assoc]
      · rw [if_neg hodd, if_neg hodd]

/-- The set parity after one entry of the database is replaced. -/
theorem setParity_after_write (s : PlinkoPIRServer) (hslice : s.database.length < 2 ^ 63)
    (j old new : Nat) (hj : j < s.database.length) (hold : s.database[j]? = some old)
    (indices : List Nat) :
    ∃ parity, s.HandleSetParityQuery indices = .ok parity ∧
      ({ s with database := s.database.set j new } : PlinkoPIRServer).HandleSetParityQuery
          indices =
        .ok (if indices.count j % 2 = 1 then parity ^^^ (old ^^^ new) else parity) := by
  have hslice2 : ({ s with database := s.database.set j new } : PlinkoPIRServer).database.length
      < 2 ^ 63 := by simpa using hslice
  refine ⟨_, setParityLoop_eq s hslice indices 0, ?_⟩
  unfold PlinkoPIRServer.HandleSetParityQuery
  rw [setParityLoop_eq _ hslice2 indices 0]
  rw [xorAll_map_update (fun i => (s.DBAccess i).getD 0)
    (fun i => (({ s with database := s.database.set j new } : PlinkoPIRServer).DBAccess i).getD 0)
    j (old ^^^ new) ?_ ?_ indices]
  · by_cases hodd : List.count j indices % 2 = 1
    · rw [if_pos hodd, if_pos hodd, Nat.xor_assoc]
    · rw [if_neg hodd, if_neg hodd]
  · show (({ s with database := s.database.set j new } : PlinkoPIRServer).DBAccess j).getD 0 =
      (s.DBAccess j).getD 0 ^^^ (old ^^^ new)
    rw [DBAccess_eq _ hslice2, DBAccess_eq s hslice, Outcome.getD_ok, Outcome.getD_ok]
    have h1 : s.database.getD j 0 = old := by
      rw [List.getD_eq_getElem?_getD, hold]; rfl
    simp only [List.length_set, hj, if_true, h1]
    rw [List.getD_eq_getElem?_getD, List.getElem?_set_self hj]
    simp only [Option.getD_some]
    rw [← Nat.xor_assoc, Nat.xor_self, Nat.zero_xor]
  · intro i hi
    show (({ s with database := s.database.set j new } : PlinkoPIRServer).DBAccess i).getD 0 =
      (s.DBAccess i).getD 0
    rw [DBAccess_eq _ hslice2, DBAccess_eq s hslice, Outcome.getD_ok, Outcome.getD_ok]
    simp only [List.length_set]
    rw [List.getD_eq_getElem?_getD, List.getD_eq_getElem?_getD,
      List.getElem?_set_ne (Ne.symm hi)]

/-- C22 (delta soundness): for every database, every index sequence and every
single update `u` with `u.Index` below the length of the database and
`u.OldValue` equal to the entry at `u.Index`: whenever `ApplyUpdates([u])`
returns, it returns one delta `d` with `d.Delta = OldValue XOR NewValue`, and
the set parity of the sequence over the database afterwards is the set parity
over the database before XORed with `d.Delta` when `u.Index` occurs an odd
number of times in the sequence, and the set parity before otherwise.
`ApplyUpdates([u])` does return for an iPRF range `1 ≤ m ≤ 2^63` in non-cache
mode, and in cache mode with a cache built by `EnableCacheMode` that spans
`u.Index`. -/
theorem C22_delta_soundness (S : Sampler) (fuel dbSize : Nat) (pm : PlinkoUpdateManager)
    (s : PlinkoPIRServer) (u : DBUpdate) (indices : List Nat)
    (hslice : pm.database.length < 2 ^ 63) (hdb : s.database = pm.database)
    (hin : u.Index < pm.database.length) (hold : pm.database[u.Index]? = some u.OldValue) :
    (∀ deltas pm', pm.ApplyUpdates S fuel [u] = .ok (deltas, pm') →
      ∃ d parity, deltas = [d] ∧ d.Delta = u.OldValue ^^^ u.NewValue ∧
        s.HandleSetParityQuery indices = .ok parity ∧
        ({ s with database := pm'.database } : PlinkoPIRServer).HandleSetParityQuery indices =
          .ok (if indices.count u.Index % 2 = 1 then parity ^^^ d.Delta else parity)) ∧
    (1 ≤ pm.iprf.range_ → pm.iprf.range_ ≤ 2 ^ 63 → Nat.clog 2 pm.iprf.range_ ≤ fuel →
      (pm.useCacheMode = true →
        cacheLoop S fuel pm.iprf (List.range dbSize) = .ok pm.indexToHint ∧ u.Index < dbSize) →
      ∃ deltas pm', pm.ApplyUpdates S fuel [u] = .ok (deltas, pm')) := by
  constructor
  · intro deltas pm' hrun
    unfold PlinkoUpdateManager.ApplyUpdates at hrun
    rw [applyLoop, applyDatabaseUpdate_inRange _ _ hslice hin, Outcome.bind_ok] at hrun
    cases hh : pm.hintSetOf S fuel u.Index with
    | ok h =>
      rw [hh, Outcome.bind_ok, applyLoop] at hrun
      simp only [List.nil_append, Outcome.ok.injEq, Prod.mk.injEq] at hrun
      obtain ⟨hd, hpm⟩ := hrun
      obtain ⟨parity, hp1, hp2⟩ := setParity_after_write s (by rw [hdb]; exact hslice)
        u.Index u.OldValue u.NewValue (by rw [hdb]; exact hin) (by rw [hdb]; exact hold) indices
      refine ⟨_, parity, hd.symm, rfl, hp1, ?_⟩
      rw [← hpm]
      simp only
      rw [← hdb]
      exact hp2
    | indexOutOfRange => rw [hh] at hrun; simp [Outcome.bind] at hrun
    | outOfFuel => rw [hh] at hrun; simp [Outcome.bind] at hrun
  · intro hm1 hm2 hfuel hcache
    exact ⟨_, _, applyUpdates_inRange S fuel dbSize pm [u] hslice hm1 hm2 hfuel
      (fun hm => ⟨(hcache hm).1, fun v hv => by
        rw [List.mem_singleton] at hv; rw [hv]; exact (hcache hm).2⟩)
      (fun v hv => by rw [List.mem_singleton] at hv; rw [hv]; exact hin)⟩

/-- Witness of C22: four entries, the update of entry 1 from 20 to 21, and an
index sequence in which 1 occurs three times: the parity moves by the
delta. -/
theorem C22_witness :
    ∃ deltas pm' d parity,
      (NewPlinkoUpdateManager 4 [10, 20, 30, 40] 2 2).ApplyUpdates (fun _ _ _ _ _ => 0) 1
        [⟨1, 20, 21⟩] = .ok (deltas, pm') ∧
      deltas = [d] ∧ d.Delta = 20 ^^^ 21 ∧
      (⟨[10, 20, 30, 40], 4, 2, 2⟩ : PlinkoPIRServer).HandleSetParityQuery [0, 1, 1, 1, 3] =
        .ok parity ∧
      (⟨pm'.database, 4, 2, 2⟩ : PlinkoPIRServer).HandleSetParityQuery [0, 1, 1, 1, 3] =
        .ok (parity ^^^ d.Delta) := by
  obtain ⟨hA, hB⟩ := C22_delta_soundness (fun _ _ _ _ _ => 0) 1 4
    (NewPlinkoUpdateManager 4 [10, 20, 30, 40] 2 2) ⟨[10, 20, 30, 40], 4, 2, 2⟩ ⟨1, 20, 21⟩
    [0, 1, 1, 1, 3] (by simp [NewPlinkoUpdateManager]) rfl (by decide) (by decide)
  obtain ⟨deltas, pm', hrun⟩ := hB (by decide) (by simp [NewPlinkoUpdateManager, NewIPRF])
    ((Nat.le_pow_iff_clog_le (by decide)).1 (by decide)) (fun h => absurd h (by decide))
  obtain ⟨d, parity, h1, h2, h3, h4⟩ := hA deltas pm' hrun
  rw [if_pos (by decide)] at h4
  exact ⟨deltas, pm', d, parity, hrun, h1, h2, h3, h4⟩

end Plinko
